import Mathlib

/-! Supersonic: reorder engine, Jellyfin filter translation and album
iteration, connection arbitration, server manager, browsing history

A shallow embedding of `sharedutil.ReorderTracks` and
`sharedutil.ReorderMediaItems` (with their helpers `ToSet`,
`firstIdxCanMoveUp`, `lastIdxCanMoveDown`), of `jellyfin.jfFilterFromFilter`
and `jellyfin.IterateAlbums` (over the catalog iterator of package `helpers`,
modelled from the spec), of the methods of `backend.ServerManager` and of the
history of `browsing.BrowsingPane`, followed by theorems about them.

Conventions of the embedding
* A Go slice is a `List`; an index expression `s[i]` is checked, and an
  out-of-range access (a run-time panic in Go) is the result `none`.
* A Go `int` is an `Int` (64-bit platform); additions and subtractions on
  caller-supplied index values go through `wrapInt`, the two's-complement
  wrap-around. The write cursors and `len(tracks) - len(idxToMove)` are not
  wrapped: they are computed from slice lengths and cannot leave the range.
* `slices.Sort` sorts the caller's slice in place, so the helpers return the
  sorted slice next to their result and the caller continues with it. The
  sort is `List.insertionSort`; on integers every sorting procedure returns
  the same list.
* A Go slice has at most `math.MaxInt` elements; theorems that need it carry
  the hypothesis `tracks.length < 2 ^ 63`.
* Where it matters which slice a statement writes, the slices live in a
  memory of backing arrays (`Heap`) and a slice variable is an address.
-/

namespace sharedutil

/-! ## Machine integers and slices -/

/-- The constant `math.MaxInt` on a 64-bit platform. -/
def maxInt : Int := 9223372036854775807

/-- Two's-complement wrap-around of a Go `int` (64 bits). -/
def wrapInt (x : Int) : Int := (x + 9223372036854775808) % 18446744073709551616 - 9223372036854775808

/-- The read `s[i]`; `none` is the index-out-of-range panic. -/
def sliceGet {α : Type} (s : List α) (i : Int) : Option α :=
  if 0 ≤ i then s[i.toNat]? else none

/-- The write `s[i] = v`; `none` is the index-out-of-range panic. -/
def sliceSet {α : Type} (s : List α) (i : Int) (v : α) : Option (List α) :=
  if 0 ≤ i ∧ i < (s.length : Int) then some (s.set i.toNat v) else none

/-- The tuple assignment `s[i], s[j] = s[j], s[i]`: both operands are read,
then both positions are written. -/
def sliceSwap {α : Type} (s : List α) (i j : Int) : Option (List α) :=
  (sliceGet s j).bind fun a =>
  (sliceGet s i).bind fun b =>
  (sliceSet s i a).bind fun s1 =>
  sliceSet s1 j b

/-- The set built by `ToSet`, as its membership test `_, ok := set[t]`. -/
def ToSet (ts : List Int) : Int → Bool := fun t => decide (t ∈ ts)

/-- The four reorder operations (`TrackReorderOp`). -/
inductive TrackReorderOp where
  | MoveToTop
  | MoveToBottom
  | MoveUp
  | MoveDown
  deriving DecidableEq

/-! ## Boundary helpers -/

/-- The loop of `firstIdxCanMoveUp` over the sorted slice, from `prevIdx`. -/
def firstIdxLoop : Int → List Int → Int
  | _, [] => maxInt
  | prevIdx, idx :: rest =>
    if idx > wrapInt (prevIdx + 1) then idx else firstIdxLoop idx rest

/-- The function `firstIdxCanMoveUp`: the slice as `slices.Sort` leaves it,
and the returned boundary. -/
def firstIdxCanMoveUp (idxs : List Int) : List Int × Int :=
  let sorted := idxs.insertionSort (· ≤ ·)
  (sorted, firstIdxLoop (-1) sorted)

/-- The loop of `lastIdxCanMoveDown`, over the sorted slice read from its last
element down (the argument is the slice reversed), from `prevIdx`. -/
def lastIdxLoop : Int → List Int → Int
  | _, [] => -1
  | prevIdx, idx :: rest =>
    if idx < wrapInt (prevIdx - 1) then idx else lastIdxLoop idx rest

/-- The function `lastIdxCanMoveDown`: the slice as `slices.Sort` leaves it,
and the returned boundary. -/
def lastIdxCanMoveDown (idxs : List Int) (lenSlice : Int) : List Int × Int :=
  let sorted := idxs.insertionSort (· ≤ ·)
  (sorted, lastIdxLoop lenSlice sorted.reverse)

/-! ## ReorderTracks -/

/-- The loop state of the two partition cases: both write cursors and the
slice under construction. -/
structure Cursors (α : Type) where
  topIdx : Int
  botIdx : Int
  newTracks : List α

/-- The `MoveToTop` loop `for i, t := range tracks`, from index `i` on.
The cursors are not wrapped: each increment follows a write that succeeded
at that cursor, so it stays at most `len(newTracks)`. -/
def moveToTopLoop {α : Type} (idxToMoveSet : Int → Bool) :
    Nat → List α → Cursors α → Option (Cursors α)
  | _, [], st => some st
  | i, t :: rest, st =>
    if idxToMoveSet (i : Int) then
      (sliceSet st.newTracks st.topIdx t).bind fun nt =>
        moveToTopLoop idxToMoveSet (i + 1) rest ⟨st.topIdx + 1, st.botIdx, nt⟩
    else
      (sliceSet st.newTracks st.botIdx t).bind fun nt =>
        moveToTopLoop idxToMoveSet (i + 1) rest ⟨st.topIdx, st.botIdx + 1, nt⟩

/-- The `MoveToBottom` loop `for i, t := range tracks`, from index `i` on. -/
def moveToBottomLoop {α : Type} (idxToMoveSet : Int → Bool) :
    Nat → List α → Cursors α → Option (Cursors α)
  | _, [], st => some st
  | i, t :: rest, st =>
    if idxToMoveSet (i : Int) then
      (sliceSet st.newTracks st.botIdx t).bind fun nt =>
        moveToBottomLoop idxToMoveSet (i + 1) rest ⟨st.topIdx, st.botIdx + 1, nt⟩
    else
      (sliceSet st.newTracks st.topIdx t).bind fun nt =>
        moveToBottomLoop idxToMoveSet (i + 1) rest ⟨st.topIdx + 1, st.botIdx, nt⟩

/-- The `MoveUp` loop `for _, i := range idxToMove`. -/
def moveUpLoop {α : Type} (first : Int) : List Int → List α → Option (List α)
  | [], nt => some nt
  | i :: rest, nt =>
    if i < first then moveUpLoop first rest nt
    else (sliceSwap nt (wrapInt (i - 1)) i).bind (moveUpLoop first rest)

/-- The `MoveDown` loop `for i := len(idxToMove) - 1; i >= 0; i--`; the
argument is `idxToMove` reversed, so its elements come in the loop's order. -/
def moveDownLoop {α : Type} (last : Int) : List Int → List α → Option (List α)
  | [], nt => some nt
  | idx :: rest, nt =>
    if idx > last then moveDownLoop last rest nt
    else (sliceSwap nt (wrapInt (idx + 1)) idx).bind (moveDownLoop last rest)

/-- The function `ReorderTracks`, with the state it leaves: the returned slice
and the caller's `idxToMove` after the call. `none` is a run-time panic.
`default` is the zero value (the nil pointer) that `make` fills in. -/
def ReorderTracksRun {α : Type} [Inhabited α] (tracks : List α) (idxToMove : List Int) :
    TrackReorderOp → Option (List α × List Int)
  | .MoveToTop =>
    (moveToTopLoop (ToSet idxToMove) 0 tracks
      ⟨0, (idxToMove.length : Int), List.replicate tracks.length default⟩).map
      fun st => (st.newTracks, idxToMove)
  | .MoveToBottom =>
    (moveToBottomLoop (ToSet idxToMove) 0 tracks
      ⟨0, (tracks.length : Int) - (idxToMove.length : Int),
        List.replicate tracks.length default⟩).map
      fun st => (st.newTracks, idxToMove)
  | .MoveUp =>
    let r := firstIdxCanMoveUp idxToMove
    (moveUpLoop r.2 r.1 tracks).map fun nt => (nt, r.1)
  | .MoveDown =>
    let r := lastIdxCanMoveDown idxToMove (tracks.length : Int)
    (moveDownLoop r.2 r.1.reverse tracks).map fun nt => (nt, r.1)

/-- The slice `ReorderTracks` returns (`none` is a run-time panic). -/
def ReorderTracks {α : Type} [Inhabited α] (tracks : List α) (idxToMove : List Int)
    (op : TrackReorderOp) : Option (List α) :=
  (ReorderTracksRun tracks idxToMove op).map Prod.fst

/-! ## ReorderMediaItems -/

/-- The `MoveToTop` loop `for i, t := range items` of `ReorderMediaItems`,
from index `i` on. -/
def itemsToTopLoop {β : Type} (idxToMoveSet : Int → Bool) :
    Nat → List β → Cursors β → Option (Cursors β)
  | _, [], st => some st
  | i, t :: rest, st =>
    if idxToMoveSet (i : Int) then
      (sliceSet st.newTracks st.topIdx t).bind fun nt =>
        itemsToTopLoop idxToMoveSet (i + 1) rest ⟨st.topIdx + 1, st.botIdx, nt⟩
    else
      (sliceSet st.newTracks st.botIdx t).bind fun nt =>
        itemsToTopLoop idxToMoveSet (i + 1) rest ⟨st.topIdx, st.botIdx + 1, nt⟩

/-- The `MoveToBottom` loop `for i, t := range items` of `ReorderMediaItems`,
from index `i` on. -/
def itemsToBottomLoop {β : Type} (idxToMoveSet : Int → Bool) :
    Nat → List β → Cursors β → Option (Cursors β)
  | _, [], st => some st
  | i, t :: rest, st =>
    if idxToMoveSet (i : Int) then
      (sliceSet st.newTracks st.botIdx t).bind fun nt =>
        itemsToBottomLoop idxToMoveSet (i + 1) rest ⟨st.topIdx, st.botIdx + 1, nt⟩
    else
      (sliceSet st.newTracks st.topIdx t).bind fun nt =>
        itemsToBottomLoop idxToMoveSet (i + 1) rest ⟨st.topIdx + 1, st.botIdx, nt⟩

/-- The `MoveUp` loop `for _, i := range idxToMove` of `ReorderMediaItems`. -/
def itemsUpLoop {β : Type} (first : Int) : List Int → List β → Option (List β)
  | [], nt => some nt
  | i :: rest, nt =>
    if i < first then itemsUpLoop first rest nt
    else (sliceSwap nt (wrapInt (i - 1)) i).bind (itemsUpLoop first rest)

/-- The `MoveDown` loop `for i := len(idxToMove) - 1; i >= 0; i--` of
`ReorderMediaItems`; the argument is `idxToMove` reversed. -/
def itemsDownLoop {β : Type} (last : Int) : List Int → List β → Option (List β)
  | [], nt => some nt
  | idx :: rest, nt =>
    if idx > last then itemsDownLoop last rest nt
    else (sliceSwap nt (wrapInt (idx + 1)) idx).bind (itemsDownLoop last rest)

/-- The function `ReorderMediaItems`, with the state it leaves: the returned
slice and the caller's `idxToMove` after the call. `none` is a run-time panic;
`default` is the zero value (the nil interface) that `make` fills in. -/
def ReorderMediaItemsRun {β : Type} [Inhabited β] (items : List β) (idxToMove : List Int) :
    TrackReorderOp → Option (List β × List Int)
  | .MoveToTop =>
    (itemsToTopLoop (ToSet idxToMove) 0 items
      ⟨0, (idxToMove.length : Int), List.replicate items.length default⟩).map
      fun st => (st.newTracks, idxToMove)
  | .MoveToBottom =>
    (itemsToBottomLoop (ToSet idxToMove) 0 items
      ⟨0, (items.length : Int) - (idxToMove.length : Int),
        List.replicate items.length default⟩).map
      fun st => (st.newTracks, idxToMove)
  | .MoveUp =>
    let r := firstIdxCanMoveUp idxToMove
    (itemsUpLoop r.2 r.1 items).map fun nt => (nt, r.1)
  | .MoveDown =>
    let r := lastIdxCanMoveDown idxToMove (items.length : Int)
    (itemsDownLoop r.2 r.1.reverse items).map fun nt => (nt, r.1)

/-- The slice `ReorderMediaItems` returns (`none` is a run-time panic). -/
def ReorderMediaItems {β : Type} [Inhabited β] (items : List β) (idxToMove : List Int)
    (op : TrackReorderOp) : Option (List β) :=
  (ReorderMediaItemsRun items idxToMove op).map Prod.fst

/-! ## ReorderTracks in memory -/

/-- The track slices in memory: the backing array of each slice, by address.
A slice variable of the program is an address; `make` puts a new array behind
the existing ones. -/
abbrev Heap (α : Type) := List (List α)

/-- The read `s[i]` of the slice at address `a`; `none` is a panic. -/
def heapGet {α : Type} (h : Heap α) (a : Nat) (i : Int) : Option α :=
  (h[a]?).bind fun s => sliceGet s i

/-- The write `s[i] = v` to the slice at address `a`; `none` is a panic. -/
def heapSet {α : Type} (h : Heap α) (a : Nat) (i : Int) (v : α) : Option (Heap α) :=
  (h[a]?).bind fun s => (sliceSet s i v).map fun s1 => h.set a s1

/-- The tuple assignment `s[i], s[j] = s[j], s[i]` on the slice at address
`a`: both operands are read, then both positions are written. -/
def heapSwap {α : Type} (h : Heap α) (a : Nat) (i j : Int) : Option (Heap α) :=
  (heapGet h a j).bind fun x =>
  (heapGet h a i).bind fun y =>
  (heapSet h a i x).bind fun h1 =>
  heapSet h1 a j y

/-- The call `copy(dst, src)` on two slices in memory: as many elements as
the shorter slice has. -/
def heapCopy {α : Type} (h : Heap α) (dst src : Nat) : Option (Heap α) :=
  (h[src]?).bind fun s =>
  (h[dst]?).map fun d => h.set dst (s.take d.length ++ d.drop s.length)

/-- The loop state of the two partition cases in memory: both write cursors
and the memory. -/
structure MemCursors (α : Type) where
  topIdx : Int
  botIdx : Int
  heap : Heap α

/-- The `MoveToTop` loop `for i, t := range tracks` in memory, with `k`
iterations to go from index `i`: `t` is read from the slice at `tracks`, the
writes go to the slice at `newTracks`. -/
def memToTopLoop {α : Type} (idxToMoveSet : Int → Bool) (tracks newTracks : Nat) :
    Nat → Nat → MemCursors α → Option (MemCursors α)
  | 0, _, st => some st
  | k + 1, i, st =>
    (heapGet st.heap tracks (i : Int)).bind fun t =>
      if idxToMoveSet (i : Int) then
        (heapSet st.heap newTracks st.topIdx t).bind fun h =>
          memToTopLoop idxToMoveSet tracks newTracks k (i + 1) ⟨st.topIdx + 1, st.botIdx, h⟩
      else
        (heapSet st.heap newTracks st.botIdx t).bind fun h =>
          memToTopLoop idxToMoveSet tracks newTracks k (i + 1) ⟨st.topIdx, st.botIdx + 1, h⟩

/-- The `MoveToBottom` loop `for i, t := range tracks` in memory. -/
def memToBottomLoop {α : Type} (idxToMoveSet : Int → Bool) (tracks newTracks : Nat) :
    Nat → Nat → MemCursors α → Option (MemCursors α)
  | 0, _, st => some st
  | k + 1, i, st =>
    (heapGet st.heap tracks (i : Int)).bind fun t =>
      if idxToMoveSet (i : Int) then
        (heapSet st.heap newTracks st.botIdx t).bind fun h =>
          memToBottomLoop idxToMoveSet tracks newTracks k (i + 1) ⟨st.topIdx, st.botIdx + 1, h⟩
      else
        (heapSet st.heap newTracks st.topIdx t).bind fun h =>
          memToBottomLoop idxToMoveSet tracks newTracks k (i + 1) ⟨st.topIdx + 1, st.botIdx, h⟩

/-- The `MoveUp` loop `for _, i := range idxToMove` in memory: the swaps are
made in the slice at `newTracks`. -/
def memUpLoop {α : Type} (first : Int) (newTracks : Nat) :
    List Int → Heap α → Option (Heap α)
  | [], h => some h
  | i :: rest, h =>
    if i < first then memUpLoop first newTracks rest h
    else (heapSwap h newTracks (wrapInt (i - 1)) i).bind (memUpLoop first newTracks rest)

/-- The `MoveDown` loop in memory; the argument is `idxToMove` reversed. -/
def memDownLoop {α : Type} (last : Int) (newTracks : Nat) :
    List Int → Heap α → Option (Heap α)
  | [], h => some h
  | idx :: rest, h =>
    if idx > last then memDownLoop last newTracks rest h
    else (heapSwap h newTracks (wrapInt (idx + 1)) idx).bind (memDownLoop last newTracks rest)

/-- The function `ReorderTracks` on memory: `tracks` is the address of the
input slice. The result is the memory after the call, the caller's
`idxToMove` after the call, and the address of the slice returned. `none` is
a run-time panic (or an address that holds no slice). -/
def ReorderTracksMem {α : Type} [Inhabited α] (h : Heap α) (tracks : Nat)
    (idxToMove : List Int) (op : TrackReorderOp) : Option (Heap α × List Int × Nat) :=
  (h[tracks]?).bind fun ts =>
    let newTracks := h.length
    let h0 : Heap α := h ++ [List.replicate ts.length default]
    match op with
    | .MoveToTop =>
      (memToTopLoop (ToSet idxToMove) tracks newTracks ts.length 0
        ⟨0, (idxToMove.length : Int), h0⟩).map fun st => (st.heap, idxToMove, newTracks)
    | .MoveToBottom =>
      (memToBottomLoop (ToSet idxToMove) tracks newTracks ts.length 0
        ⟨0, (ts.length : Int) - (idxToMove.length : Int), h0⟩).map
        fun st => (st.heap, idxToMove, newTracks)
    | .MoveUp =>
      let r := firstIdxCanMoveUp idxToMove
      (heapCopy h0 newTracks tracks).bind fun h1 =>
        (memUpLoop r.2 newTracks r.1 h1).map fun h2 => (h2, r.1, newTracks)
    | .MoveDown =>
      let r := lastIdxCanMoveDown idxToMove (ts.length : Int)
      (heapCopy h0 newTracks tracks).bind fun h1 =>
        (memDownLoop r.2 newTracks r.1.reverse h1).map fun h2 => (h2, r.1, newTracks)

/-- The documented precondition: `idxToMove` holds only valid indexes into a
slice of length `n`, and no repeats. -/
def ValidIdx (n : Nat) (idxToMove : List Int) : Prop :=
  idxToMove.Nodup ∧ ∀ i ∈ idxToMove, 0 ≤ i ∧ i < (n : Int)



/-! ## Specification vocabulary -/

/-- The elements of a list whose position, counted from `i`, satisfies `p`,
in their original order. -/
def pickFrom {α : Type} (p : Nat → Bool) : Nat → List α → List α
  | _, [] => []
  | i, x :: xs => if p i then x :: pickFrom p (i + 1) xs else pickFrom p (i + 1) xs

/-- The selected elements of `tracks`, in their original relative order. -/
def selectedOf {α : Type} (tracks : List α) (idxToMove : List Int) : List α :=
  pickFrom (fun i => decide ((i : Int) ∈ idxToMove)) 0 tracks

/-- The unselected elements of `tracks`, in their original relative order. -/
def unselectedOf {α : Type} (tracks : List α) (idxToMove : List Int) : List α :=
  pickFrom (fun i => !decide ((i : Int) ∈ idxToMove)) 0 tracks

/-- The elements at positions `0, 1, ...` of a slice of length `n` that are
pinned for `MoveUp`: the length of the maximal run of selected positions that
starts at position 0. -/
def pinnedTop (n : Nat) (idxToMove : List Int) : Nat :=
  ((List.range n).takeWhile (fun (i : Nat) => decide ((i : Int) ∈ idxToMove))).length

/-- The number of positions pinned for `MoveDown` in a slice of length `n`:
the length of the maximal run of selected positions that ends at `n - 1`. -/
def pinnedBottom (n : Nat) (idxToMove : List Int) : Nat :=
  ((List.range n).reverse.takeWhile (fun (i : Nat) => decide ((i : Int) ∈ idxToMove))).length

/-- One upward pass over `u :: rest`, where `rest` starts at position `i`:
a selected element moves in front of the element held back, which is
emitted when an unselected element (or the end) is reached. -/
def bubbleUp {α : Type} (p : Nat → Bool) : Nat → α → List α → List α
  | _, u, [] => [u]
  | i, u, y :: ys => if p i then y :: bubbleUp p (i + 1) u ys else u :: bubbleUp p (i + 1) y ys

/-- Insert `x` behind the first element of a list. -/
def insertSecond {α : Type} (x : α) : List α → List α
  | [] => [x]
  | y :: ys => y :: x :: ys

/-- One downward pass over a list that starts at position `i`: a selected
element moves behind the first element of what the pass makes of the rest. -/
def sinkDown {α : Type} (p : Nat → Bool) : Nat → List α → List α
  | _, [] => []
  | i, x :: xs => if p i then insertSecond x (sinkDown p (i + 1) xs) else x :: sinkDown p (i + 1) xs

/-- The slice `MoveUp` is specified to return: the pinned prefix unchanged,
then one upward pass over the rest. -/
def moveUpResult {α : Type} (tracks : List α) (idxToMove : List Int) : List α :=
  tracks.take (pinnedTop tracks.length idxToMove) ++
    match tracks.drop (pinnedTop tracks.length idxToMove) with
    | [] => []
    | u :: rest =>
      bubbleUp (fun (j : Nat) => decide ((j : Int) ∈ idxToMove))
        (pinnedTop tracks.length idxToMove + 1) u rest

/-- The slice `MoveDown` is specified to return: one downward pass over the
part in front of the pinned suffix, then the pinned suffix unchanged. -/
def moveDownResult {α : Type} (tracks : List α) (idxToMove : List Int) : List α :=
  sinkDown (fun (j : Nat) => decide ((j : Int) ∈ idxToMove)) 0
      (tracks.take (tracks.length - pinnedBottom tracks.length idxToMove))
    ++ tracks.drop (tracks.length - pinnedBottom tracks.length idxToMove)

/-- The positions that `MoveUp` leaves to the unselected elements: those not
holding a pinned element (`j < pinnedTop`) and not holding a selected element
moved up from `j + 1`. -/
def remainingUp (n : Nat) (idxToMove : List Int) : Nat → Bool :=
  fun j => decide (pinnedTop n idxToMove ≤ j) && !decide (((j + 1 : Nat) : Int) ∈ idxToMove)

/-- The positions that `MoveDown` leaves to the unselected elements: those not
holding a pinned element (`n - pinnedBottom ≤ j`) and not holding a selected
element moved down from `j - 1`. -/
def remainingDown (n : Nat) (idxToMove : List Int) : Nat → Bool :=
  fun j => decide (j < n - pinnedBottom n idxToMove)
    && !(decide (1 ≤ j) && decide (((j - 1 : Nat) : Int) ∈ idxToMove))

/-- The function `MapSlice` (a nil slice is the empty list). -/
def MapSlice {T U : Type} (ts : List T) (f : T → U) : List U :=
  ts.map f

instance instDecidableValidIdx (n : Nat) (idxToMove : List Int) :
    Decidable (ValidIdx n idxToMove) := by
  unfold ValidIdx
  infer_instance

end sharedutil

namespace jellyfin

/-- Modelled from the spec: the option fields of `mediaprovider.AlbumFilter`
(its declaration is outside the sources at hand): `excludeUnfavorited: bool`,
`minYear: int (0 = unset)`, `maxYear: int (0 = unset)`, `genres`. -/
structure AlbumFilterOptions where
  ExcludeUnfavorited : Bool
  MinYear : Int
  MaxYear : Int
  Genres : List String
  deriving DecidableEq

/-- Modelled from the spec: the provider filter `jellyfin.Filter` of the client
library (favorite flag, year-range pair, genre list); its zero value is
`emptyFilter`. -/
structure Filter where
  Favorite : Bool
  YearRange : Int × Int
  Genres : List String
  deriving DecidableEq

/-- The zero value `var jfFilt jellyfin.Filter`. -/
def emptyFilter : Filter := ⟨false, (0, 0), []⟩

/-- The function `jfFilterFromFilter`. `currentYear` is what `time.Now().Year()`
returns; the argument is `filter.Options()`, and the second component of the
result is the value handed to `filter.SetOptions` (the residual filter). -/
def jfFilterFromFilter (currentYear : Int) (filterOptions : AlbumFilterOptions) :
    Filter × AlbumFilterOptions :=
  let jfFilt := emptyFilter
  let (jfFilt, filterOptions) :=
    if filterOptions.ExcludeUnfavorited then
      ({ jfFilt with Favorite := true }, { filterOptions with ExcludeUnfavorited := false })
    else (jfFilt, filterOptions)
  let (jfFilt, filterOptions) :=
    if filterOptions.MinYear > 0 ∧ filterOptions.MaxYear > 0 then
      ({ jfFilt with YearRange := (filterOptions.MinYear, filterOptions.MaxYear) },
        { filterOptions with MinYear := 0, MaxYear := 0 })
    else if filterOptions.MinYear > 0 then
      ({ jfFilt with YearRange := (filterOptions.MinYear, currentYear) },
        { filterOptions with MinYear := 0, MaxYear := 0 })
    else if filterOptions.MaxYear > 0 then
      ({ jfFilt with YearRange := (1900, filterOptions.MaxYear) },
        { filterOptions with MinYear := 0, MaxYear := 0 })
    else (jfFilt, filterOptions)
  let jfFilt := { jfFilt with Genres := filterOptions.Genres }
  let filterOptions := { filterOptions with Genres := [] }
  (jfFilt, filterOptions)

end jellyfin

namespace helpers

/-! ## The catalog iterator -/

/-- Modelled from the spec: the state of the Catalog Iterator built by
`helpers.NewAlbumIterator` (package `helpers` is outside the sources at hand):
the internal buffer, the iteration cursor (offset of the next request and
exhausted flag), and, for stating what is requested, the log of the fetch
calls issued so far as pairs `(offset, limit)`, oldest first. -/
structure CatalogIterator (α : Type) where
  buffer : List α
  offset : Nat
  exhausted : Bool
  fetches : List (Nat × Nat)

/-- Modelled from the spec: a freshly constructed Catalog Iterator. -/
def CatalogIterator.fresh {α : Type} : CatalogIterator α :=
  ⟨[], 0, false, []⟩

/-- Modelled from the spec: the operation `next(count)` of the Catalog
Iterator. It serves from the buffer; when the buffer is insufficient and the
iterator is not exhausted it first issues one fetch at the current offset for
one page, appends the result to the buffer, advances the offset by the number
of items received and marks the iterator exhausted if fewer than requested
were received. A failed fetch leaves the cursor unchanged and is returned.
The empty result is the end-of-data indication. The per-item hook of the spec
has no influence on the results and is left out. -/
def CatalogIterator.next {ε α : Type} (fetch : Nat → Nat → Except ε (List α))
    (pageSize count : Nat) (it : CatalogIterator α) :
    Except ε (List α) × CatalogIterator α :=
  if it.buffer.length < count ∧ it.exhausted = false then
    match fetch it.offset pageSize with
    | .error e => (.error e, { it with fetches := it.fetches ++ [(it.offset, pageSize)] })
    | .ok items =>
      (.ok ((it.buffer ++ items).take count),
        { buffer := (it.buffer ++ items).drop count
          offset := it.offset + items.length
          exhausted := decide (items.length < pageSize)
          fetches := it.fetches ++ [(it.offset, pageSize)] })
  else (.ok (it.buffer.take count), { it with buffer := it.buffer.drop count })

/-- Calling `next(count)` until it gives the end-of-data indication (or
fails), at most `fuel` times: the concatenation of the results, and the
iterator afterwards. -/
def CatalogIterator.drain {ε α : Type} (fetch : Nat → Nat → Except ε (List α))
    (pageSize count : Nat) : Nat → CatalogIterator α → List α × CatalogIterator α
  | 0, it => ([], it)
  | fuel + 1, it =>
    match it.next fetch pageSize count with
    | (.ok [], it1) => ([], it1)
    | (.ok (a :: as), it1) =>
      ((a :: as) ++ (CatalogIterator.drain fetch pageSize count fuel it1).1,
        (CatalogIterator.drain fetch pageSize count fuel it1).2)
    | (.error _, it1) => ([], it1)

/-- A fetch function over a dataset: full pages until a final short page. -/
def pagesOf {ε α : Type} (dataset : List α) : Nat → Nat → Except ε (List α) :=
  fun offs limit => .ok ((dataset.drop offs).take limit)

/-- The fetch calls of a full traversal of a dataset of `n` items in pages of
`pageSize`: one per full page and one for the final short page. -/
def fullLog (n pageSize : Nat) : List (Nat × Nat) :=
  (List.range (n / pageSize + 1)).map fun i => (i * pageSize, pageSize)

/-- The items not yet returned by an iterator over a dataset. -/
def CatalogIterator.remaining {α : Type} (dataset : List α) (it : CatalogIterator α) : List α :=
  it.buffer ++ dataset.drop it.offset

/-- Invariant of an iterator driven over a dataset: before the short page the
offset is a whole number of pages inside the dataset, afterwards it is the
length of the dataset; the log holds one fetch per page requested. -/
def CatalogIterator.Inv {α : Type} (dataset : List α) (pageSize : Nat)
    (it : CatalogIterator α) : Prop :=
  (it.exhausted = false ∧ ∃ k, it.offset = k * pageSize ∧ k * pageSize ≤ dataset.length ∧
    it.fetches = (List.range k).map fun i => (i * pageSize, pageSize)) ∨
  (it.exhausted = true ∧ it.offset = dataset.length ∧
    it.fetches = fullLog dataset.length pageSize)

end helpers

namespace jellyfin

/-! ## IterateAlbums -/

/-- The sort order `AlbumSortRecentlyAdded`. -/
def AlbumSortRecentlyAdded : String := "Recently Added"

/-- The sort order `AlbumSortRandom`. -/
def AlbumSortRandom : String := "Random"

/-- The sort order `AlbumSortTitleAZ`. -/
def AlbumSortTitleAZ : String := "Title (A-Z)"

/-- The sort order `AlbumSortArtistAZ`. -/
def AlbumSortArtistAZ : String := "Artist (A-Z)"

/-- The sort order `AlbumSortYearAscending`. -/
def AlbumSortYearAscending : String := "Year (ascending)"

/-- The sort order `AlbumSortYearDescending`. -/
def AlbumSortYearDescending : String := "Year (descending)"

/-- The sort fields of the client library that `IterateAlbums` uses; `unset`
is the zero value, `named` a field given as a string literal. -/
inductive SortField where
  | unset
  | SortByDateCreated
  | SortByRandom
  | SortByArtist
  | SortByName
  | SortByYear
  | named (field : String)
  deriving DecidableEq

/-- The sort modes of the client library; `unset` is the zero value. -/
inductive SortMode where
  | unset
  | SortAsc
  | SortDesc
  deriving DecidableEq

/-- The type `jellyfin.Sort` of the client library (`Sort` is reserved in
Lean). -/
structure JfSort where
  Field : SortField
  Mode : SortMode
  deriving DecidableEq

/-- The type `jellyfin.Paging` of the client library. -/
structure Paging where
  StartIndex : Nat
  Limit : Nat
  deriving DecidableEq

/-- The type `jellyfin.QueryOpts` of the client library. -/
structure QueryOpts where
  SortBy : JfSort
  Filter : Filter
  Paging : Paging
  deriving DecidableEq

/-- The `switch sortOrder` of `IterateAlbums`: the value of `jfSort`. -/
def albumSort (sortOrder : String) : JfSort :=
  if sortOrder = AlbumSortRecentlyAdded then ⟨.SortByDateCreated, .SortDesc⟩
  else if sortOrder = AlbumSortRandom then ⟨.SortByRandom, .unset⟩
  else if sortOrder = AlbumSortArtistAZ then ⟨.SortByArtist, .SortAsc⟩
  else if sortOrder = AlbumSortTitleAZ then ⟨.SortByName, .SortAsc⟩
  else if sortOrder = AlbumSortYearAscending then ⟨.SortByYear, .SortAsc⟩
  else if sortOrder = AlbumSortYearDescending then ⟨.SortByYear, .SortDesc⟩
  else ⟨.unset, .unset⟩

/-- The closures `fetcher` and `determFetcher` of `IterateAlbums`: one call of
`j.client.GetAlbums` with the given sort, filter and paging, mapped through
`toAlbum`. -/
def albumFetcher {ε J A : Type} (GetAlbums : QueryOpts → Except ε (List J)) (toAlbum : J → A)
    (jfSort : JfSort) (jfFilt : Filter) (offs limit : Nat) : Except ε (List A) :=
  match GetAlbums ⟨jfSort, jfFilt, ⟨offs, limit⟩⟩ with
  | .error err => .error err
  | .ok al => .ok (sharedutil.MapSlice al toAlbum)

/-- What `IterateAlbums` returns: the iterator of `helpers.NewAlbumIterator`
or of `helpers.NewRandomAlbumIter`, with the fetch functions and the (residual)
filter handed to the constructor. -/
inductive AlbumIterator (ε A : Type) where
  | NewAlbumIterator (fetcher : Nat → Nat → Except ε (List A)) (filter : AlbumFilterOptions)
  | NewRandomAlbumIter (determFetcher fetcher : Nat → Nat → Except ε (List A))
      (filter : AlbumFilterOptions)

/-- The function `IterateAlbums`. `GetAlbums` is the client call, `toAlbum`
the conversion function of the package, `currentYear` what `time.Now().Year()`
returns. -/
def IterateAlbums {ε J A : Type} (GetAlbums : QueryOpts → Except ε (List J)) (toAlbum : J → A)
    (currentYear : Int) (sortOrder : String) (filter : AlbumFilterOptions) :
    AlbumIterator ε A :=
  let jfSort := albumSort sortOrder
  let jfFilt := (jfFilterFromFilter currentYear filter).1
  let filter := (jfFilterFromFilter currentYear filter).2
  let fetcher := albumFetcher GetAlbums toAlbum jfSort jfFilt
  if sortOrder = AlbumSortRandom then
    let determFetcher := albumFetcher GetAlbums toAlbum ⟨.named "SortName", .SortAsc⟩ jfFilt
    .NewRandomAlbumIter determFetcher fetcher filter
  else .NewAlbumIterator fetcher filter

end jellyfin

namespace backend

/-! ## ServerManager.connect

`connect` has a sequential part (building the clients) and a concurrent part
(the login attempts racing against the deadline). The concurrent part is a
step function on an explicit state, driven by a list of events (a schedule):
every statement that touches the shared variable `authError` or the channel
`pingChan` is an event of its own. Time is counted in milliseconds. The Go
scheduler promises no timing: a `Login` that has returned, a timer that has
expired and a channel that holds a value are acted upon at some later moment,
so time may move on while a statement is ready. The schedules in which it
does not (every ready statement runs before time moves on) are singled out by
`promptRun`. -/

/-- A Go `error` value as far as `connect` tells errors apart: the package
variable `ErrUnreachable`, or an error made elsewhere (client construction,
login). -/
inductive GoError where
  | unreachable
  | foreign (msg : String)
  deriving DecidableEq

/-- The package variable `ErrUnreachable`. -/
def ErrUnreachable : GoError := GoError.unreachable

/-- Modelled from the spec: the type `ServerType` of the configuration (its
declaration is outside the sources at hand); `connect` only compares it with
`ServerTypeJellyfin`. -/
abbrev ServerType := String

/-- Modelled from the spec: the constant `ServerTypeJellyfin`. -/
def ServerTypeJellyfin : ServerType := "Jellyfin"

/-- Modelled from the spec: the connection descriptor `ServerConnection` (its
declaration is outside the sources at hand), with the fields `connect` reads. -/
structure ServerConnection where
  ServerType : ServerType
  Hostname : String
  AltHostname : String
  Username : String
  LegacyAuth : Bool
  deriving DecidableEq

/-- The two implementations of `mediaprovider.Server` that `connect` builds,
with the fields it sets; `InsecureSkipVerify` is what
`checkSetInsecureSkipVerify` leaves in the HTTP client. -/
inductive Server where
  | JellyfinServer (Hostname : String) (InsecureSkipVerify : Bool)
  | SubsonicServer (UserAgent BaseUrl User : String) (PasswordAuth : Bool)
      (ClientName : String) (InsecureSkipVerify : Bool)
  deriving DecidableEq

/-- The host a client talks to. -/
def Server.host : Server → String
  | .JellyfinServer h _ => h
  | .SubsonicServer _ b _ _ _ _ => b

/-- What `connect` reads from its receiver and from other packages:
`s.appName`, `s.appVersion`, `res.AppName`, `s.config.Application.SkipSSLVerify`
and the outcome of `jellyfin.NewClient` for a hostname (`none` is success). -/
structure Env where
  appName : String
  appVersion : String
  resAppName : String
  SkipSSLVerify : Bool
  NewClientError : String → Option GoError

/-- The first part of `connect` (up to `var authError error`): the clients
`cli` and `altCli` (`none` is the nil interface), or the error returned
early. -/
def connectClients (env : Env) (connection : ServerConnection) :
    Except GoError (Server × Option Server) :=
  if connection.ServerType = ServerTypeJellyfin then
    match env.NewClientError connection.Hostname with
    | some err => .error err
    | none =>
      let cli := Server.JellyfinServer connection.Hostname env.SkipSSLVerify
      if connection.AltHostname ≠ "" then
        match env.NewClientError connection.AltHostname with
        | some err => .error err
        | none => .ok (cli, some (Server.JellyfinServer connection.AltHostname env.SkipSSLVerify))
      else .ok (cli, none)
  else
    let ua := env.appName ++ "/" ++ env.appVersion
    let cli := Server.SubsonicServer ua connection.Hostname connection.Username
      connection.LegacyAuth env.resAppName env.SkipSSLVerify
    let altCli := Server.SubsonicServer ua connection.AltHostname connection.Username
      connection.LegacyAuth env.resAppName env.SkipSSLVerify
    .ok (cli, some altCli)

/-- The number of clients held after the first part of `connect`. -/
def numClients (r : Server × Option Server) : Nat :=
  match r.2 with
  | none => 1
  | some _ => 2

/-- Modelled from the spec: the result of a login call
(`mediaprovider.LoginResponse`, declared outside the sources at hand): the
error (`none` is nil) and whether it is an authentication error. -/
structure LoginResponse where
  Error : Option GoError
  IsAuthError : Bool
  deriving DecidableEq

/-- The body of `pingFunc` from the return of `Login` on, run undisturbed:
`none` when it returns without reporting, else the value it stores in
`authError` and the value it sends on `pingChan`. -/
def pingFunc (resp : LoginResponse) (val : Bool) : Option (Option GoError × Bool) :=
  if resp.Error ≠ none ∧ ¬ resp.IsAuthError = true then none
  else some (resp.Error, val)

/-- The deadline of `context.WithTimeout`, in milliseconds. -/
def deadlineMs : Nat := 5000

/-- The head start of the primary attempt, in milliseconds. -/
def staggerMs : Nat := 333

/-- The `go pingFunc(delay, cli, val)` statements `connect` executes: the
delay in milliseconds and `val`. -/
def launches (connection : ServerConnection) : List (Nat × Bool) :=
  (0, false) :: (if connection.AltHostname ≠ "" then [(staggerMs, true)] else [])

/-- Where a `pingFunc` goroutine stands. -/
inductive Attempt where
  | absent
  | waiting (readyAt : Nat)
  | checked (err : Option GoError) (val : Bool)
  | written (val : Bool)
  | done
  deriving DecidableEq

/-- Where the goroutine that runs `connect` stands: in the `select`, behind
the receive `altPing := <-pingChan`, or returned. -/
inductive Main where
  | selecting
  | received (altPing : Bool)
  | returned (cli : Option Server) (err : Option GoError)
  deriving DecidableEq

/-- The state of the concurrent part of `connect`. -/
structure ConnState where
  now : Nat
  authError : Option GoError
  pingChan : List Bool
  primary : Attempt
  alt : Attempt
  main : Main
  deriving DecidableEq

/-- What the concurrent part is given: both clients, and for each attempt
(`false` the primary, `true` the alternate) the response of its `Login` call
and the time that call takes. -/
structure Race where
  cli : Server
  altCli : Option Server
  resp : Bool → LoginResponse
  dur : Bool → Nat

/-- The atomic steps of the concurrent part.
* `advance t`: time moves on to `t`;
* `login val`: attempt `val` goes on behind its `Login` call, at or after the
  time the call has returned, and the error check runs;
* `write val`: attempt `val` executes `authError = resp.Error`;
* `send val`: attempt `val` executes `pingChan <- val`;
* `receive`: `connect` takes the case `altPing := <-pingChan`;
* `deadline`: `connect` takes the case `<-ctx.Done()`, at or after the
  deadline;
* `ret`: `connect` reads `authError` and returns. -/
inductive Event where
  | advance (t : Nat)
  | login (val : Bool)
  | write (val : Bool)
  | send (val : Bool)
  | receive
  | deadline
  | ret
  deriving DecidableEq

/-- The goroutine of attempt `val`. -/
def ConnState.attempt (s : ConnState) (val : Bool) : Attempt :=
  if val then s.alt else s.primary

/-- Update of the goroutine of attempt `val`. -/
def ConnState.setAttempt (s : ConnState) (val : Bool) (a : Attempt) : ConnState :=
  if val then { s with alt := a } else { s with primary := a }

/-- Whether an attempt has nothing ready before time `t`: it is not in the
middle of its statements, and its `Login` does not return before `t`. -/
def Attempt.canWait (a : Attempt) (t : Nat) : Bool :=
  match a with
  | .absent => true
  | .waiting readyAt => decide (t ≤ readyAt)
  | .checked _ _ => false
  | .written _ => false
  | .done => true

/-- Whether `connect` has nothing ready before time `t`: in the `select` no
case is ready (the channel is empty and the deadline is not before `t`). -/
def ConnState.mainCanWait (s : ConnState) (t : Nat) : Bool :=
  match s.main with
  | .selecting => s.pingChan.isEmpty && decide (t ≤ deadlineMs)
  | .received _ => false
  | .returned _ _ => true

/-- One step of the concurrent part; `none` when the event cannot happen in
this state. -/
def step (x : Race) (s : ConnState) : Event → Option ConnState
  | .advance t =>
    if s.now ≤ t then some { s with now := t } else none
  | .login val =>
    match s.attempt val with
    | .waiting readyAt =>
      if readyAt ≤ s.now then
        match pingFunc (x.resp val) val with
        | none => some (s.setAttempt val .done)
        | some (err, v) => some (s.setAttempt val (.checked err v))
      else none
    | _ => none
  | .write val =>
    match s.attempt val with
    | .checked err v => some ({ s with authError := err }.setAttempt val (.written v))
    | _ => none
  | .send val =>
    match s.attempt val with
    | .written v => some ({ s with pingChan := s.pingChan ++ [v] }.setAttempt val .done)
    | _ => none
  | .receive =>
    match s.main, s.pingChan with
    | .selecting, v :: rest => some { s with main := .received v, pingChan := rest }
    | _, _ => none
  | .deadline =>
    match s.main with
    | .selecting =>
      if deadlineMs ≤ s.now then some { s with main := .returned none (some ErrUnreachable) }
      else none
    | _ => none
  | .ret =>
    match s.main with
    | .received altPing =>
      some { s with main := .returned (if altPing then x.altCli else some x.cli) s.authError }
    | _ => none

/-- A schedule run from a state; `none` when one of its events cannot
happen. -/
def run (x : Race) : ConnState → List Event → Option ConnState
  | s, [] => some s
  | s, e :: rest => (step x s e).bind fun s1 => run x s1 rest

/-- Whether an event happens without lag in a state: time moves on to `t`
only if no goroutine has a statement ready before `t`. The other events are
statements being run. -/
def Event.prompt (s : ConnState) : Event → Bool
  | .advance t => s.primary.canWait t && s.alt.canWait t && s.mainCanWait t
  | _ => true

/-- Whether a schedule runs without lag from a state: every ready statement
runs before time moves on, and the timers are exact. -/
def promptRun (x : Race) : ConnState → List Event → Bool
  | _, [] => true
  | s, e :: rest =>
    e.prompt s &&
      match step x s e with
      | some s1 => promptRun x s1 rest
      | none => true

/-- The goroutine of attempt `val` once the `go` statements have run: started
if `val` is among the launches, its `Login` returning after its delay and the
duration of the call. -/
def startAttempt (ls : List (Nat × Bool)) (dur : Bool → Nat) (val : Bool) : Attempt :=
  match ls.find? (fun l => l.2 == val) with
  | some (delay, _) => .waiting (delay + dur val)
  | none => .absent

/-- The state in which the `select` of `connect` is entered. -/
def initState (connection : ServerConnection) (dur : Bool → Nat) : ConnState :=
  { now := 0
    authError := none
    pingChan := []
    primary := startAttempt (launches connection) dur false
    alt := startAttempt (launches connection) dur true
    main := .selecting }

/-- The function `connect` under a schedule: what it returns (client and
error), or `none` when the schedule cannot happen or ends before `connect`
has returned. -/
def connect (env : Env) (connection : ServerConnection) (resp : Bool → LoginResponse)
    (dur : Bool → Nat) (schedule : List Event) : Option (Option Server × Option GoError) :=
  match connectClients env connection with
  | .error err => some (none, some err)
  | .ok (cli, altCli) =>
    match run ⟨cli, altCli, resp, dur⟩ (initState connection dur) schedule with
    | some s =>
      match s.main with
      | .returned c err => some (c, err)
      | _ => none
    | none => none

/-- An attempt that cannot report while `connect` waits: not started, ended,
or still in a `Login` that fails without an authentication error or returns
after the deadline. -/
def Attempt.quiet (x : Race) (val : Bool) : Attempt → Prop
  | .absent => True
  | .waiting readyAt => pingFunc (x.resp val) val = none ∨ deadlineMs < readyAt
  | .checked _ _ => False
  | .written _ => False
  | .done => True

/-- An attempt that is not between the return of its `Login` and its send. -/
def Attempt.idle : Attempt → Bool
  | .absent => true
  | .waiting _ => true
  | .checked _ _ => false
  | .written _ => false
  | .done => true

/-- Invariant of the runs in which every `Login` that returns has failed
without an authentication error: nothing is sent, and `connect` is still in
the `select` or has returned `ErrUnreachable`. -/
def Silent (s : ConnState) : Prop :=
  s.main = .returned none (some ErrUnreachable) ∨
  (s.main = .selecting ∧ s.pingChan = [] ∧ s.primary.idle = true ∧ s.alt.idle = true)

/-- Invariant of the runs without lag in which no attempt reports before the
deadline: `connect` is still in the `select` with an empty channel, or has
returned `ErrUnreachable`. -/
def NoSignal (x : Race) (s : ConnState) : Prop :=
  s.main = .returned none (some ErrUnreachable) ∨
  (s.main = .selecting ∧ s.now ≤ deadlineMs ∧ s.pingChan = [] ∧
    Attempt.quiet x false s.primary ∧ Attempt.quiet x true s.alt)

/-- Invariant of the runs without lag in which the primary `Login` returns at `tP`,
before the deadline and before the alternate one (at `tA`), and reports:
until `connect` has returned the primary client, time has not passed `tP`,
the alternate attempt has not come back, and the primary signal is on its
way. -/
def PrimaryAhead (x : Race) (tP tA : Nat) (s : ConnState) : Prop :=
  s.main = .returned (some x.cli) (x.resp false).Error ∨
  (s.now ≤ tP ∧ (s.alt = .absent ∨ s.alt = .waiting tA) ∧
    ((s.main = .selecting ∧ s.pingChan = [] ∧ s.primary = .waiting tP) ∨
     (s.main = .selecting ∧ s.pingChan = [] ∧ s.primary = .checked (x.resp false).Error false) ∨
     (s.main = .selecting ∧ s.pingChan = [] ∧ s.primary = .written false
        ∧ s.authError = (x.resp false).Error) ∨
     (s.main = .selecting ∧ s.pingChan = [false] ∧ s.primary = .done
        ∧ s.authError = (x.resp false).Error) ∨
     (s.main = .received false ∧ s.primary = .done ∧ s.authError = (x.resp false).Error)))

/-- An environment in which every client construction succeeds. -/
def raceEnv : Env := ⟨"supersonic", "0.8.0", "Supersonic", false, fun _ => none⟩

/-- A Jellyfin connection with an alternate hostname. -/
def raceConnection : ServerConnection :=
  ⟨ServerTypeJellyfin, "https://music.example.org", "http://192.168.1.10:8096", "ann", false⟩

/-- The primary host accepts the login, the alternate host rejects it. -/
def raceResp : Bool → LoginResponse
  | false => ⟨none, false⟩
  | true => ⟨some (GoError.foreign "invalid credentials"), true⟩

/-- The primary login takes 400 ms, the alternate login 67 ms: both return
400 ms after `connect` has started them. -/
def raceDur : Bool → Nat
  | false => 400
  | true => 67

/-- Both logins return, the primary attempt stores its outcome and signals,
the alternate attempt stores its outcome, and only then `connect` receives
the (primary) signal and returns. -/
def raceSchedule : List Event :=
  [.advance 400, .login false, .login true, .write false, .send false, .write true,
    .receive, .ret]

/-- A Subsonic connection without an alternate hostname. -/
def subsonicConnection : ServerConnection :=
  ⟨"Subsonic", "https://music.example.org", "", "ann", false⟩

/-- An environment in which no Jellyfin client can be constructed. -/
def failingEnv : Env :=
  ⟨"supersonic", "0.8.0", "Supersonic", false, fun _ => some (GoError.foreign "invalid URL")⟩

/-- Every login fails with a network error after 20 ms. -/
def refusedResp : Bool → LoginResponse :=
  fun _ => ⟨some (GoError.foreign "connection refused"), false⟩

/-- Both hosts accept the login. -/
def acceptResp : Bool → LoginResponse :=
  fun _ => ⟨none, false⟩

/-- The primary `Login` has returned after 50 ms, but its goroutine does not
get to run: 383 ms pass, the alternate `Login` returns, the alternate attempt
stores its outcome and signals, `connect` receives the signal and returns. -/
def lagSchedule : List Event :=
  [.advance 383, .login true, .write true, .send true, .receive, .ret]

/-! ## ServerManager: session, configured servers and stored passwords -/

/-- The type `uuid.UUID`, identified with the text `String()` gives. -/
abbrev UUID := String

/-- Modelled from the spec: a configured server `ServerConfig` (its
declaration is outside the sources at hand), with the fields the server
manager reads and writes; `Connection` is the embedded `ServerConnection`. -/
structure ServerConfig where
  Connection : ServerConnection
  ID : UUID
  Nickname : String
  Default : Bool
  deriving DecidableEq

/-- The system keyring behind the package `go-keyring`: the secrets kept
under a service name and a user name. -/
abbrev Keyring := List ((String × String) × String)

/-- The call `keyring.Get(service, user)`; `none` is its not-found error. -/
def keyringGet (kr : Keyring) (service user : String) : Option String :=
  (kr.find? fun e => decide (e.1 = (service, user))).map Prod.snd

/-- The call `keyring.Set(service, user, password)`. -/
def keyringSet (kr : Keyring) (service user password : String) : Keyring :=
  ((service, user), password) :: kr.filter fun e => decide (e.1 ≠ (service, user))

/-- The call `keyring.Delete(service, user)`. -/
def keyringDelete (kr : Keyring) (service user : String) : Keyring :=
  kr.filter fun e => decide (e.1 ≠ (service, user))

/-- The fields of `ServerManager` that its methods write, with
`config.Servers`; the callbacks are kept by name, and `Server` (the media
provider of the connected client, `none` for nil) is identified with that
client. The fields that are only read (`appName`, `appVersion`, the
application settings) are in `Env`. -/
structure ServerManager where
  LoggedInUser : String
  ServerID : UUID
  Server : Option Server
  useKeyring : Bool
  Servers : List ServerConfig
  onServerConnected : List String
  onLogout : List String
  deriving DecidableEq

/-- The loop of `SetDefaultServer` over `s.config.Servers`: the servers with
their flags rewritten, and the variable `found`. -/
def setDefaultLoop (serverID : UUID) : List ServerConfig → Bool → List ServerConfig × Bool
  | [], found => ([], found)
  | s :: rest, found =>
    let f := decide (s.ID = serverID)
    let r := setDefaultLoop serverID rest (if f then true else found)
    ({ s with Default := f } :: r.1, r.2)

/-- The method `SetDefaultServer`. -/
def SetDefaultServer (s : ServerManager) (serverID : UUID) : ServerManager :=
  let r := setDefaultLoop serverID s.Servers false
  if !r.2 && decide (r.1.length > 0) then
    match r.1 with
    | [] => { s with Servers := [] }
    | s0 :: rest => { s with Servers := { s0 with Default := true } :: rest }
  else { s with Servers := r.1 }

/-- The method `GetDefaultServer`; `none` is the nil pointer. -/
def GetDefaultServer (s : ServerManager) : Option ServerConfig :=
  match s.Servers.find? fun c => c.Default with
  | some c => some c
  | none => if s.Servers.length > 0 then s.Servers.head? else none

/-- The method `ConnectToServer` under a schedule of `connect`: the manager
after the call, the error returned (`none` is nil) and the callbacks invoked,
in order. The outer `none` stands for a schedule under which `connect` does
not return, and for the nil dereference `cli.MediaProvider()`. -/
def ConnectToServer (env : Env) (s : ServerManager) (conf : ServerConfig)
    (resp : Bool → LoginResponse) (dur : Bool → Nat) (schedule : List Event) :
    Option (ServerManager × Option GoError × List String) :=
  match connect env conf.Connection resp dur schedule with
  | none => none
  | some (_, some err) => some (s, some err, [])
  | some (none, none) => none
  | some (some cli, none) =>
    let s1 := { s with Server := some cli, LoggedInUser := conf.Connection.Username,
                       ServerID := conf.ID }
    some (SetDefaultServer s1 s1.ServerID, none, s.onServerConnected)

set_option linter.unusedVariables false in
/-- The method `deleteServerPassword`: the keyring after the call. -/
def deleteServerPassword (env : Env) (s : ServerManager) (kr : Keyring) (serverID : UUID) :
    Keyring :=
  if s.useKeyring then keyringDelete kr env.appName s.ServerID else kr

/-- The method `GetServerPassword`. -/
def GetServerPassword (env : Env) (s : ServerManager) (kr : Keyring) (serverID : UUID) :
    Except GoError String :=
  if s.useKeyring then
    match keyringGet kr env.appName serverID with
    | some pw => .ok pw
    | none => .error (GoError.foreign "secret not found in keyring")
  else .error (GoError.foreign "keyring not enabled")

/-- The method `SetServerPassword`: the keyring after the call and the error
returned. -/
def SetServerPassword (env : Env) (s : ServerManager) (kr : Keyring) (server : ServerConfig)
    (password : String) : Keyring × Option GoError :=
  if s.useKeyring then (keyringSet kr env.appName server.ID password, none)
  else (kr, some (GoError.foreign "keyring not available"))

/-- The method `DeleteServer`: the keyring after the call, and the manager
after the call; `none` is the panic of `make` with the capacity
`len(s.config.Servers)-1` when no server is configured. -/
def DeleteServer (env : Env) (s : ServerManager) (kr : Keyring) (serverID : UUID) :
    Keyring × Option ServerManager :=
  let kr1 := deleteServerPassword env s kr serverID
  if s.Servers.length = 0 then (kr1, none)
  else (kr1, some { s with Servers := s.Servers.filter fun c => decide (c.ID ≠ serverID) })

/-- The method `Logout`: the keyring after the call, the manager after the
call and the callbacks invoked. -/
def Logout (env : Env) (s : ServerManager) (kr : Keyring) (deletePassword : Bool) :
    Keyring × ServerManager × List String :=
  match s.Server with
  | none => (kr, s, [])
  | some _ =>
    let kr1 := if deletePassword then deleteServerPassword env s kr s.ServerID else kr
    (kr1, { s with Server := none, LoggedInUser := "",
                   ServerID := "00000000-0000-0000-0000-000000000000" }, s.onLogout)

/-- Two configured servers, the first one the default. -/
def homeServers : List ServerConfig :=
  [⟨raceConnection, "11111111-1111-1111-1111-111111111111", "home", true⟩,
   ⟨subsonicConnection, "22222222-2222-2222-2222-222222222222", "office", false⟩]

/-- A manager connected to the first of the two servers, with the keyring
enabled. -/
def homeManager : ServerManager :=
  { LoggedInUser := "ann"
    ServerID := "11111111-1111-1111-1111-111111111111"
    Server := some (Server.JellyfinServer "https://music.example.org" false)
    useKeyring := true
    Servers := homeServers
    onServerConnected := ["refreshUI"]
    onLogout := [] }

/-- A keyring holding the passwords of both servers. -/
def homeKeyring : Keyring :=
  [(("supersonic", "11111111-1111-1111-1111-111111111111"), "pw-home"),
   (("supersonic", "22222222-2222-2222-2222-222222222222"), "pw-office")]

end backend

namespace browsing

/-! ## The browsing history of `BrowsingPane` -/

/-- What the history code uses of the interfaces `Page` and `SavedPage`: the
route of a page, `Save` and `Restore`. -/
structure PageOps (P S R : Type) where
  Route : P → R
  Save : P → S
  Restore : S → P

/-- The run-time panics of the history code: an index or slice bound out of
range, and a method call on the nil page. -/
inductive Panic where
  | indexOutOfRange
  | nilDereference
  deriving DecidableEq

/-- The fields of `BrowsingPane` that the history code reads and writes;
`curPage = none` is the nil page. The capacity of `history` is taken to be
its length, so that re-slicing beyond the length counts as out of range. -/
structure BrowsingPane (P S : Type) where
  curPage : Option P
  history : List S
  historyIdx : Int

/-- The pane as `NewBrowsingPane` leaves it: no page, no history. -/
def NewBrowsingPane {P S : Type} : BrowsingPane P S := ⟨none, [], 0⟩

/-- The method `doSetPage`: whether the page was changed, and the pane. -/
def doSetPage {P S R : Type} [DecidableEq R] (ops : PageOps P S R) (b : BrowsingPane P S)
    (p : P) : Bool × BrowsingPane P S :=
  match b.curPage with
  | some cur =>
    if ops.Route cur = ops.Route p then (false, b) else (true, { b with curPage := some p })
  | none => (true, { b with curPage := some p })

/-- The method `addPageToHistory`. -/
def addPageToHistory {P S R : Type} (ops : PageOps P S R) (b : BrowsingPane P S)
    (p : Option P) (truncate : Bool) : Except Panic (BrowsingPane P S) :=
  let truncated : Except Panic (List S) :=
    if truncate then
      if 0 ≤ b.historyIdx ∧ b.historyIdx ≤ (b.history.length : Int) then
        .ok (b.history.take b.historyIdx.toNat)
      else .error .indexOutOfRange
    else .ok b.history
  match truncated with
  | .error e => .error e
  | .ok history =>
    match p with
    | none => .error .nilDereference
    | some page =>
      if b.historyIdx < (history.length : Int) then
        match sharedutil.sliceSet history b.historyIdx (ops.Save page) with
        | none => .error .indexOutOfRange
        | some h => .ok { b with history := h, historyIdx := b.historyIdx + 1 }
      else
        .ok { b with history := history ++ [ops.Save page], historyIdx := b.historyIdx + 1 }

/-- The method `SetPage`; `none` is the nil page. -/
def SetPage {P S R : Type} [DecidableEq R] (ops : PageOps P S R) (b : BrowsingPane P S)
    (p : Option P) : Except Panic (BrowsingPane P S) :=
  match p with
  | none => .ok { b with curPage := none }
  | some page =>
    let oldPage := b.curPage
    let r := doSetPage ops b page
    if r.1 && oldPage.isSome then addPageToHistory ops r.2 oldPage true else .ok r.2

/-- The method `ClearHistory`. -/
def ClearHistory {P S : Type} (b : BrowsingPane P S) : BrowsingPane P S :=
  { b with history := [], historyIdx := 0 }

/-- The method `GoBack`. -/
def GoBack {P S R : Type} [DecidableEq R] (ops : PageOps P S R) (b : BrowsingPane P S) :
    Except Panic (BrowsingPane P S) :=
  if b.historyIdx > 0 then
    match sharedutil.sliceGet b.history (b.historyIdx - 1) with
    | none => .error .indexOutOfRange
    | some saved =>
      let p := ops.Restore saved
      match addPageToHistory ops b b.curPage false with
      | .error e => .error e
      | .ok b1 => .ok (doSetPage ops { b1 with historyIdx := b1.historyIdx - 2 } p).2
  else .ok b

/-- The method `GoForward`. -/
def GoForward {P S R : Type} [DecidableEq R] (ops : PageOps P S R) (b : BrowsingPane P S) :
    Except Panic (BrowsingPane P S) :=
  if b.historyIdx < (b.history.length : Int) - 1 then
    match sharedutil.sliceGet b.history (b.historyIdx + 1) with
    | none => .error .indexOutOfRange
    | some saved =>
      let p := ops.Restore saved
      match addPageToHistory ops b b.curPage false with
      | .error e => .error e
      | .ok b1 => .ok (doSetPage ops b1 p).2
  else .ok b

/-- A call of one of the four methods that touch the history. -/
inductive Call (P : Type) where
  | SetPage (p : Option P)
  | ClearHistory
  | GoBack
  | GoForward

/-- One call on the pane. -/
def call {P S R : Type} [DecidableEq R] (ops : PageOps P S R) (b : BrowsingPane P S) :
    Call P → Except Panic (BrowsingPane P S)
  | .SetPage p => SetPage ops b p
  | .ClearHistory => .ok (ClearHistory b)
  | .GoBack => GoBack ops b
  | .GoForward => GoForward ops b

/-- A sequence of calls on the pane, up to the first panic. -/
def calls {P S R : Type} [DecidableEq R] (ops : PageOps P S R) :
    BrowsingPane P S → List (Call P) → Except Panic (BrowsingPane P S)
  | b, [] => .ok b
  | b, c :: rest =>
    match call ops b c with
    | .error e => .error e
    | .ok b1 => calls ops b1 rest

/-- The cursor invariant: `0 ≤ historyIdx ≤ len(history)`. -/
def CursorInv {P S : Type} (b : BrowsingPane P S) : Prop :=
  0 ≤ b.historyIdx ∧ b.historyIdx ≤ (b.history.length : Int)

/-- Whether a call changes the shown page to a new non-nil page while a page
is shown: the case in which `SetPage` adds the old page to the history. -/
def Call.replacesPage {P S R : Type} [DecidableEq R] (ops : PageOps P S R)
    (b : BrowsingPane P S) : Call P → Prop
  | .SetPage (some p) => ∃ old, b.curPage = some old ∧ ops.Route old ≠ ops.Route p
  | _ => False

/-- Whether a call meets the proviso on the current page: `GoBack` and
`GoForward` are made with a page shown. -/
def Call.pageShown {P S : Type} (b : BrowsingPane P S) : Call P → Prop
  | .GoBack => b.curPage ≠ none
  | .GoForward => b.curPage ≠ none
  | _ => True

/-- Pages named by their route, saved as their name. -/
def namedPages : PageOps String String String := ⟨id, id, id⟩

/-- Two pages are visited, `GoBack` returns to the first, the blank page is
set, then a third page. -/
def blankPageCalls : List (Call String) :=
  [.SetPage (some "albums"), .SetPage (some "artists"), .GoBack, .SetPage none,
    .SetPage (some "genres")]

end browsing

namespace sharedutil

/-! ## Slice lemmas -/

theorem wrapInt_eq_self {x : Int} (h1 : -9223372036854775808 ≤ x)
    (h2 : x < 9223372036854775808) : wrapInt x = x := by
  unfold wrapInt
  omega

theorem sliceGet_append_cons {α : Type} (A : List α) (x : α) (R : List α) :
    sliceGet (A ++ x :: R) (A.length : Int) = some x := by
  have h : (A ++ x :: R)[A.length]? = some x := by
    rw [List.getElem?_append_right (Nat.le_refl _)]
    simp
  simpa [sliceGet] using h

theorem sliceSet_append_cons {α : Type} (A : List α) (x v : α) (R : List α) :
    sliceSet (A ++ x :: R) (A.length : Int) v = some (A ++ v :: R) := by
  simp [sliceSet]

theorem sliceSwap_adjacent {α : Type} (A : List α) (x y : α) (R : List α) :
    sliceSwap (A ++ x :: y :: R) ((A.length : Int) + 1) (A.length : Int)
      = some (A ++ y :: x :: R) := by
  have h1 : sliceGet (A ++ x :: y :: R) (A.length : Int) = some x :=
    sliceGet_append_cons A x (y :: R)
  have h2 : sliceGet (A ++ x :: y :: R) ((A.length : Int) + 1) = some y := by
    have := sliceGet_append_cons (A ++ [x]) y R
    simpa using this
  have h3 : sliceSet (A ++ x :: y :: R) ((A.length : Int) + 1) x = some (A ++ x :: x :: R) := by
    have := sliceSet_append_cons (A ++ [x]) y x R
    simpa using this
  have h4 : sliceSet (A ++ x :: x :: R) (A.length : Int) y = some (A ++ y :: x :: R) :=
    sliceSet_append_cons A x y (x :: R)
  simp [sliceSwap, h1, h2, h3, h4]

theorem sliceSwap_adjacent_rev {α : Type} (A : List α) (x y : α) (R : List α) :
    sliceSwap (A ++ x :: y :: R) (A.length : Int) ((A.length : Int) + 1)
      = some (A ++ y :: x :: R) := by
  have h1 : sliceGet (A ++ x :: y :: R) (A.length : Int) = some x :=
    sliceGet_append_cons A x (y :: R)
  have h2 : sliceGet (A ++ x :: y :: R) ((A.length : Int) + 1) = some y := by
    have := sliceGet_append_cons (A ++ [x]) y R
    simpa using this
  have h3 : sliceSet (A ++ x :: y :: R) (A.length : Int) y = some (A ++ y :: y :: R) :=
    sliceSet_append_cons A x y (y :: R)
  have h4 : sliceSet (A ++ y :: y :: R) ((A.length : Int) + 1) x = some (A ++ y :: x :: R) := by
    have := sliceSet_append_cons (A ++ [y]) y x R
    simpa using this
  simp [sliceSwap, h1, h2, h3, h4]

/-! ## The partition loops -/

theorem moveToBottomLoop_eq_top {α : Type} (q : Int → Bool) :
    ∀ (ts : List α) (i : Nat) (st : Cursors α),
      moveToBottomLoop q i ts st = moveToTopLoop (fun j => !q j) i ts st := by
  intro ts
  induction ts with
  | nil => intro i st; rfl
  | cons t rest ih =>
    intro i st
    cases h : q (i : Int) <;> simp [moveToBottomLoop, moveToTopLoop, h, ih]

/-- Invariant of the partition loop: with the top cursor at the start of a
free block `X` and the bottom cursor at the start of a free block `Y`, each as
long as what remains to be written there, the loop fills both blocks. -/
theorem moveToTopLoop_fill {α : Type} (q : Int → Bool) :
    ∀ (ts : List α) (i : Nat) (A X B Y Z : List α),
      X.length = (pickFrom (fun j => q (j : Int)) i ts).length →
      Y.length = (pickFrom (fun j => !q (j : Int)) i ts).length →
      (moveToTopLoop q i ts
          ⟨(A.length : Int), ((A ++ X ++ B).length : Int), A ++ X ++ B ++ Y ++ Z⟩).map
        Cursors.newTracks
        = some (A ++ pickFrom (fun j => q (j : Int)) i ts ++ B
            ++ pickFrom (fun j => !q (j : Int)) i ts ++ Z) := by
  intro ts
  induction ts with
  | nil =>
    intro i A X B Y Z hX hY
    simp [pickFrom] at hX hY
    subst hX; subst hY
    simp [moveToTopLoop, pickFrom]
  | cons t rest ih =>
    intro i A X B Y Z hX hY
    cases h : q (i : Int) with
    | true =>
      simp only [pickFrom, h, Bool.not_true, if_true, Bool.false_eq_true, if_false,
        List.length_cons] at hX hY ⊢
      cases X with
      | nil => simp at hX
      | cons x X1 =>
        have hw : sliceSet (A ++ (x :: X1) ++ B ++ Y ++ Z) (A.length : Int) t
            = some (A ++ (t :: X1) ++ B ++ Y ++ Z) := by
          have := sliceSet_append_cons A x t (X1 ++ B ++ Y ++ Z)
          simpa using this
        have e1 : A ++ (t :: X1) ++ B ++ Y ++ Z = (A ++ [t]) ++ X1 ++ B ++ Y ++ Z := by simp
        have e2 : ((A.length : Int) + 1) = (((A ++ [t]).length : Nat) : Int) := by simp
        have e3 : (((A ++ (x :: X1) ++ B).length : Nat) : Int)
            = ((((A ++ [t]) ++ X1 ++ B).length : Nat) : Int) := by
          simp
        have hX1 : X1.length = (pickFrom (fun j => q (j : Int)) (i + 1) rest).length := by
          simpa using hX
        have := ih (i + 1) (A ++ [t]) X1 B Y Z hX1 hY
        simp only [moveToTopLoop, h, if_true, hw, Option.some_bind, e1, e2, e3, this]
        simp
    | false =>
      simp only [pickFrom, h, Bool.not_false, if_true, Bool.false_eq_true, if_false,
        List.length_cons] at hX hY ⊢
      cases Y with
      | nil => simp at hY
      | cons y Y1 =>
        have hw : sliceSet (A ++ X ++ B ++ (y :: Y1) ++ Z) (((A ++ X ++ B).length : Nat) : Int) t
            = some (A ++ X ++ B ++ (t :: Y1) ++ Z) := by
          have := sliceSet_append_cons (A ++ X ++ B) y t (Y1 ++ Z)
          simpa using this
        have e1 : A ++ X ++ B ++ (t :: Y1) ++ Z = A ++ X ++ (B ++ [t]) ++ Y1 ++ Z := by simp
        have e2 : ((((A ++ X ++ B).length : Nat) : Int) + 1)
            = (((A ++ X ++ (B ++ [t])).length : Nat) : Int) := by
          simp; omega
        have hY1 : Y1.length = (pickFrom (fun j => !q (j : Int)) (i + 1) rest).length := by
          simpa using hY
        have := ih (i + 1) A X (B ++ [t]) Y1 Z hX hY1
        simp only [moveToTopLoop, h, Bool.false_eq_true, if_false, hw, Option.some_bind, e1, e2,
          this]
        simp

/-! ## Counting the selected positions -/

theorem pickFrom_length_range {α : Type} (p : Nat → Bool) :
    ∀ (l : List α) (i : Nat),
      (pickFrom p i l).length = ((List.range' i l.length).filter p).length := by
  intro l
  induction l with
  | nil => intro i; simp [pickFrom]
  | cons x xs ih =>
    intro i
    cases h : p i <;> simp [pickFrom, h, List.range'_succ, List.filter_cons, ih]

theorem pickFrom_length_add {α : Type} (p : Nat → Bool) :
    ∀ (l : List α) (i : Nat),
      (pickFrom p i l).length + (pickFrom (fun j => !p j) i l).length = l.length := by
  intro l
  induction l with
  | nil => intro i; simp [pickFrom]
  | cons x xs ih =>
    intro i
    have := ih (i + 1)
    cases h : p i <;> simp [pickFrom, h] <;> omega

theorem pickFrom_perm {α : Type} (p : Nat → Bool) :
    ∀ (l : List α) (i : Nat),
      (pickFrom p i l ++ pickFrom (fun j => !p j) i l).Perm l := by
  intro l
  induction l with
  | nil => intro i; simp [pickFrom]
  | cons x xs ih =>
    intro i
    cases h : p i with
    | true =>
      simp only [pickFrom, h, if_true, Bool.not_true, Bool.false_eq_true, if_false,
        List.cons_append]
      exact (ih (i + 1)).cons x
    | false =>
      simp only [pickFrom, h, Bool.not_false, if_true, Bool.false_eq_true, if_false]
      exact List.perm_middle.trans ((ih (i + 1)).cons x)

/-- Under the precondition the number of selected positions is the length of
`idxToMove`. -/
theorem selected_count {n : Nat} {idxToMove : List Int} (h : ValidIdx n idxToMove) :
    ((List.range' 0 n).filter (fun (j : Nat) => decide ((j : Int) ∈ idxToMove))).length
      = idxToMove.length := by
  have hperm : ((List.range' 0 n).filter (fun (j : Nat) => decide ((j : Int) ∈ idxToMove))).Perm
      (idxToMove.map Int.toNat) := by
    apply (List.perm_ext_iff_of_nodup ?_ ?_).2
    · intro a
      simp only [List.mem_filter, List.mem_range'_1, decide_eq_true_eq, List.mem_map]
      constructor
      · rintro ⟨_, ha⟩
        exact ⟨(a : Int), ha, by simp⟩
      · rintro ⟨k, hk, rfl⟩
        have := h.2 k hk
        refine ⟨by omega, ?_⟩
        have e : ((k.toNat : Nat) : Int) = k := Int.toNat_of_nonneg this.1
        rw [e]; exact hk
    · exact (List.nodup_range' 0 n).filter _
    · apply List.Nodup.map_on ?_ h.1
      intro x hx y hy hxy
      have hx0 := (h.2 x hx).1
      have hy0 := (h.2 y hy).1
      have ex : ((x.toNat : Nat) : Int) = x := Int.toNat_of_nonneg hx0
      have ey : ((y.toNat : Nat) : Int) = y := Int.toNat_of_nonneg hy0
      rw [← ex, ← ey, hxy]
  rw [hperm.length_eq, List.length_map]

theorem selectedOf_length {α : Type} (tracks : List α) (idxToMove : List Int)
    (h : ValidIdx tracks.length idxToMove) :
    (selectedOf tracks idxToMove).length = idxToMove.length := by
  unfold selectedOf
  rw [pickFrom_length_range]
  exact selected_count h

theorem unselectedOf_length {α : Type} (tracks : List α) (idxToMove : List Int)
    (h : ValidIdx tracks.length idxToMove) :
    (unselectedOf tracks idxToMove).length = tracks.length - idxToMove.length := by
  have h1 := pickFrom_length_add (fun i => decide ((i : Int) ∈ idxToMove)) tracks 0
  have h2 := selectedOf_length tracks idxToMove h
  unfold selectedOf at h2
  unfold unselectedOf
  omega

theorem moveToTop_run {α : Type} [Inhabited α] (tracks : List α) (idxToMove : List Int)
    (h : ValidIdx tracks.length idxToMove) :
    ReorderTracks tracks idxToMove .MoveToTop
      = some (selectedOf tracks idxToMove ++ unselectedOf tracks idxToMove) := by
  have hs := selectedOf_length tracks idxToMove h
  have hu := unselectedOf_length tracks idxToMove h
  have hle : idxToMove.length ≤ tracks.length := by
    have := pickFrom_length_add (fun i => decide ((i : Int) ∈ idxToMove)) tracks 0
    unfold selectedOf at hs
    omega
  have key := moveToTopLoop_fill (ToSet idxToMove) tracks 0 []
    (List.replicate idxToMove.length default) []
    (List.replicate (tracks.length - idxToMove.length) default) []
    (by simpa [ToSet, selectedOf] using hs.symm)
    (by simpa [ToSet, unselectedOf] using hu.symm)
  have e : List.replicate tracks.length (default : α)
      = [] ++ List.replicate idxToMove.length default ++ []
        ++ List.replicate (tracks.length - idxToMove.length) default ++ [] := by
    simp [List.append_replicate_replicate, Nat.add_sub_cancel' hle]
  simp only [ReorderTracks, ReorderTracksRun, Option.map_map]
  rw [e]
  simp only [List.nil_append, List.append_nil, List.length_nil, List.length_replicate,
    Nat.cast_zero, Function.comp_def] at key ⊢
  rw [key]
  simp [selectedOf, unselectedOf, ToSet]

theorem moveToBottom_run {α : Type} [Inhabited α] (tracks : List α) (idxToMove : List Int)
    (h : ValidIdx tracks.length idxToMove) :
    ReorderTracks tracks idxToMove .MoveToBottom
      = some (unselectedOf tracks idxToMove ++ selectedOf tracks idxToMove) := by
  have hs := selectedOf_length tracks idxToMove h
  have hu := unselectedOf_length tracks idxToMove h
  have hle : idxToMove.length ≤ tracks.length := by
    have := pickFrom_length_add (fun i => decide ((i : Int) ∈ idxToMove)) tracks 0
    unfold selectedOf at hs
    omega
  have key := moveToTopLoop_fill (fun j => !ToSet idxToMove j) tracks 0 []
    (List.replicate (tracks.length - idxToMove.length) default) []
    (List.replicate idxToMove.length default) []
    (by simpa [ToSet, unselectedOf] using hu.symm)
    (by simpa [ToSet, selectedOf] using hs.symm)
  have e : List.replicate tracks.length (default : α)
      = [] ++ List.replicate (tracks.length - idxToMove.length) default ++ []
        ++ List.replicate idxToMove.length default ++ [] := by
    simp [List.append_replicate_replicate, Nat.sub_add_cancel hle]
  have ec : (tracks.length : Int) - (idxToMove.length : Int)
      = ((tracks.length - idxToMove.length : Nat) : Int) := (Nat.cast_sub hle).symm
  simp only [ReorderTracks, ReorderTracksRun, Option.map_map, moveToBottomLoop_eq_top]
  rw [e, ec]
  simp only [List.nil_append, List.append_nil, List.length_nil, List.length_replicate,
    Nat.cast_zero, Function.comp_def, Bool.not_not] at key ⊢
  rw [key]
  simp [selectedOf, unselectedOf, ToSet]

/-! ## The swap loops -/

theorem bubbleUp_congr {α : Type} (p q : Nat → Bool) :
    ∀ (rest : List α) (i : Nat) (u : α), (∀ j, i ≤ j → p j = q j) →
      bubbleUp p i u rest = bubbleUp q i u rest := by
  intro rest
  induction rest with
  | nil => intro i u _; rfl
  | cons y ys ih =>
    intro i u h
    have h1 := h i (Nat.le_refl i)
    have h2 : ∀ v, bubbleUp p (i + 1) v ys = bubbleUp q (i + 1) v ys :=
      fun v => ih (i + 1) v (fun j hj => h j (by omega))
    simp [bubbleUp, h1, h2]

theorem moveUpLoop_filter {α : Type} (first : Int) :
    ∀ (l : List Int) (nt : List α),
      moveUpLoop first l nt = moveUpLoop first (l.filter (fun i => !decide (i < first))) nt := by
  intro l
  induction l with
  | nil => intro nt; rfl
  | cons i rest ih =>
    intro nt
    by_cases h : i < first
    · simp [moveUpLoop, h, ih nt]
    · simp only [moveUpLoop, h, if_false, List.filter_cons, decide_False, Bool.not_false,
        if_true]
      congr 1
      funext s
      exact ih s

/-- The `MoveUp` loop over a strictly ascending list of indexes, none skipped,
all behind position `pre.length`, is one upward pass over the rest. -/
theorem moveUpLoop_bubble {α : Type} (first : Int) :
    ∀ (rest pre : List α) (u : α) (l : List Int),
      l.Pairwise (· < ·) →
      (∀ k ∈ l, (pre.length : Int) + 1 ≤ k ∧ k < (pre.length : Int) + 1 + (rest.length : Int)
        ∧ ¬ k < first) →
      (pre.length : Int) + 1 + (rest.length : Int) < 9223372036854775808 →
      moveUpLoop first l (pre ++ u :: rest)
        = some (pre ++ bubbleUp (fun (j : Nat) => decide ((j : Int) ∈ l)) (pre.length + 1) u rest) := by
  intro rest
  induction rest with
  | nil =>
    intro pre u l _ hl _
    cases l with
    | nil => simp [moveUpLoop, bubbleUp]
    | cons k l1 =>
      have := hl k (List.mem_cons_self _ _)
      simp at this
      omega
  | cons y ys ih =>
    intro pre u l hs hl hlen
    simp only [List.length_cons, Nat.cast_add, Nat.cast_one] at hl hlen
    by_cases hm : ((pre.length : Int) + 1) ∈ l
    · cases l with
      | nil => simp at hm
      | cons k l1 =>
        have hk := hl k (List.mem_cons_self _ _)
        have hsc := List.pairwise_cons.1 hs
        have hkeq : k = (pre.length : Int) + 1 := by
          rcases List.mem_cons.1 hm with h | h
          · exact h.symm
          · have := hsc.1 _ h
            omega
        have hw : wrapInt (k - 1) = (pre.length : Int) := by
          rw [wrapInt_eq_self (by omega) (by omega)]; omega
        have hswap := sliceSwap_adjacent_rev pre u y ys
        have hrec := ih (pre ++ [y]) u l1 hsc.2
          (by
            intro k1 hk1
            have h1 := hl k1 (List.mem_cons_of_mem _ hk1)
            have h2 := hsc.1 _ hk1
            simp only [List.length_append, List.length_singleton, Nat.cast_add, Nat.cast_one]
            refine ⟨by omega, by omega, h1.2.2⟩)
          (by
            simp only [List.length_append, List.length_singleton, Nat.cast_add, Nat.cast_one]
            omega)
        have hcongr : bubbleUp (fun (j : Nat) => decide ((j : Int) ∈ l1)) (pre.length + 1 + 1) u ys
            = bubbleUp (fun (j : Nat) => decide ((j : Int) ∈ k :: l1)) (pre.length + 1 + 1) u ys := by
          apply bubbleUp_congr
          intro j hj
          have : (j : Int) ≠ k := by omega
          simp [this]
        simp only [moveUpLoop, hk.2.2, if_false, hw]
        rw [hkeq, hswap, Option.some_bind]
        have e : pre ++ y :: u :: ys = (pre ++ [y]) ++ u :: ys := by simp
        rw [e, hrec]
        simp only [bubbleUp, List.length_append, List.length_singleton, hcongr]
        rw [hkeq]
        simp
    · have hrec := ih (pre ++ [u]) y l hs
        (by
          intro k1 hk1
          have h1 := hl k1 hk1
          have h2 : k1 ≠ (pre.length : Int) + 1 := fun h => hm (h ▸ hk1)
          simp only [List.length_append, List.length_singleton, Nat.cast_add, Nat.cast_one]
          refine ⟨by omega, by omega, h1.2.2⟩)
        (by
          simp only [List.length_append, List.length_singleton, Nat.cast_add, Nat.cast_one]
          omega)
      have e : pre ++ u :: y :: ys = (pre ++ [u]) ++ y :: ys := by simp
      rw [e, hrec]
      simp [bubbleUp, hm]

/-! ## The boundary of `MoveUp` -/

theorem firstIdxLoop_run :
    ∀ (l : List Int) (prev : Int), l.Pairwise (· < ·) → (∀ x ∈ l, prev < x) →
      (∀ x ∈ l, x < maxInt) → -1 ≤ prev → prev < maxInt →
      ∀ j ∈ l, j < firstIdxLoop prev l → ∀ i, prev < i → i ≤ j → i ∈ l := by
  intro l
  induction l with
  | nil => intro prev _ _ _ _ _ j hj; simp at hj
  | cons idx rest ih =>
    intro prev hs hgt hmax hp1 hp2 j hj hjf i hi hij
    have hsc := List.pairwise_cons.1 hs
    have hidx := hgt idx (List.mem_cons_self _ _)
    have hidxm := hmax idx (List.mem_cons_self _ _)
    have hw : wrapInt (prev + 1) = prev + 1 := by
      unfold maxInt at hp2
      exact wrapInt_eq_self (by omega) (by omega)
    unfold firstIdxLoop at hjf
    rw [hw] at hjf
    by_cases hc : idx > prev + 1
    · rw [if_pos hc] at hjf
      rcases List.mem_cons.1 hj with h | h
      · omega
      · have := hsc.1 _ h
        omega
    · rw [if_neg hc] at hjf
      by_cases hii : i = idx
      · rw [hii]; exact List.mem_cons_self _ _
      · have hjr : j ∈ rest := by
          rcases List.mem_cons.1 hj with h | h
          · omega
          · exact h
        apply List.mem_cons_of_mem
        exact ih idx hsc.2 hsc.1 (fun x hx => hmax x (List.mem_cons_of_mem _ hx))
          (by omega) hidxm j hjr hjf i (by omega) hij

theorem firstIdxLoop_gap :
    ∀ (l : List Int) (prev : Int), l.Pairwise (· < ·) → (∀ x ∈ l, prev < x) →
      (∀ x ∈ l, x < maxInt) → -1 ≤ prev → prev < maxInt →
      firstIdxLoop prev l ≠ maxInt →
      (firstIdxLoop prev l - 1) ∉ l ∧ prev + 1 < firstIdxLoop prev l := by
  intro l
  induction l with
  | nil => intro prev _ _ _ _ _ hne; simp [firstIdxLoop] at hne
  | cons idx rest ih =>
    intro prev hs hgt hmax hp1 hp2 hne
    have hsc := List.pairwise_cons.1 hs
    have hidx := hgt idx (List.mem_cons_self _ _)
    have hidxm := hmax idx (List.mem_cons_self _ _)
    have hw : wrapInt (prev + 1) = prev + 1 := by
      unfold maxInt at hp2
      exact wrapInt_eq_self (by omega) (by omega)
    unfold firstIdxLoop at hne ⊢
    rw [hw] at hne ⊢
    by_cases hc : idx > prev + 1
    · rw [if_pos hc]
      refine ⟨?_, hc⟩
      intro hmem
      rcases List.mem_cons.1 hmem with h | h
      · omega
      · have := hsc.1 _ h
        omega
    · rw [if_neg hc] at hne ⊢
      have := ih idx hsc.2 hsc.1 (fun x hx => hmax x (List.mem_cons_of_mem _ hx))
        (by omega) hidxm hne
      refine ⟨?_, by omega⟩
      intro hmem
      rcases List.mem_cons.1 hmem with h | h
      · omega
      · exact this.1 h

theorem takeWhile_range'_run (p : Nat → Bool) :
    ∀ (n s : Nat),
      ((List.range' s n).takeWhile p).length ≤ n ∧
      (∀ i, s ≤ i → i < s + ((List.range' s n).takeWhile p).length → p i = true) ∧
      (((List.range' s n).takeWhile p).length < n →
        p (s + ((List.range' s n).takeWhile p).length) = false) := by
  intro n
  induction n with
  | zero =>
    intro s
    simp only [List.range'_zero, List.takeWhile_nil, List.length_nil]
    exact ⟨le_refl _, fun i h1 h2 => absurd h2 (by omega), fun h => absurd h (by omega)⟩
  | succ n ih =>
    intro s
    rw [List.range'_succ]
    cases h : p s with
    | false =>
      simp only [List.takeWhile_cons, h, Bool.false_eq_true, if_false, List.length_nil]
      exact ⟨Nat.zero_le _, fun i h1 h2 => absurd h2 (by omega), fun _ => h⟩
    | true =>
      obtain ⟨h1, h2, h3⟩ := ih (s + 1)
      simp only [List.takeWhile_cons, h, if_true, List.length_cons]
      refine ⟨by omega, ?_, ?_⟩
      · intro i hi1 hi2
        by_cases hs : i = s
        · rw [hs]; exact h
        · exact h2 i (by omega) (by omega)
      · intro hlt
        have := h3 (by omega)
        have e : s + (((List.range' (s + 1) n).takeWhile p).length + 1)
            = s + 1 + ((List.range' (s + 1) n).takeWhile p).length := by omega
        rw [e]; exact this

theorem pinnedTop_run (n : Nat) (idxToMove : List Int) :
    pinnedTop n idxToMove ≤ n ∧
    (∀ i : Nat, i < pinnedTop n idxToMove → (i : Int) ∈ idxToMove) ∧
    (pinnedTop n idxToMove < n → ((pinnedTop n idxToMove : Nat) : Int) ∉ idxToMove) := by
  have := takeWhile_range'_run (fun (i : Nat) => decide ((i : Int) ∈ idxToMove)) n 0
  unfold pinnedTop
  rw [List.range_eq_range']
  obtain ⟨h1, h2, h3⟩ := this
  refine ⟨h1, ?_, ?_⟩
  · intro i hi
    have := h2 i (Nat.zero_le _) (by omega)
    simpa using this
  · intro hlt
    have := h3 hlt
    simpa using this

theorem sorted_idx {n : Nat} {idxToMove : List Int} (h : ValidIdx n idxToMove) :
    (idxToMove.insertionSort (· ≤ ·)).Pairwise (· < ·) ∧
    (∀ x, x ∈ idxToMove.insertionSort (· ≤ ·) ↔ x ∈ idxToMove) := by
  have hperm := List.perm_insertionSort (· ≤ ·) idxToMove
  have hsorted := List.sorted_insertionSort (· ≤ ·) idxToMove
  have hnd : (idxToMove.insertionSort (· ≤ ·)).Nodup := hperm.nodup_iff.2 h.1
  exact ⟨hsorted.lt_of_le hnd, fun x => hperm.mem_iff⟩

/-- For a selected index, being below the boundary that `firstIdxCanMoveUp`
returns is being in the pinned run. -/
theorem first_boundary {n : Nat} {idxToMove : List Int} (h : ValidIdx n idxToMove)
    (hn : n < 9223372036854775808) :
    ∀ j ∈ idxToMove,
      (j < (firstIdxCanMoveUp idxToMove).2 ↔ j < ((pinnedTop n idxToMove : Nat) : Int)) := by
  intro j hj
  obtain ⟨hs, hmem⟩ := sorted_idx h
  obtain ⟨p1, p2, p3⟩ := pinnedTop_run n idxToMove
  have hgt : ∀ x ∈ idxToMove.insertionSort (· ≤ ·), (-1 : Int) < x := by
    intro x hx
    have := (h.2 x ((hmem x).1 hx)).1
    omega
  have hmax : ∀ x ∈ idxToMove.insertionSort (· ≤ ·), x < maxInt := by
    intro x hx
    have := (h.2 x ((hmem x).1 hx)).2
    unfold maxInt
    omega
  have hm1 : (-1 : Int) < maxInt := by unfold maxInt; omega
  have hj' := (hmem j).2 hj
  have hjv := h.2 j hj
  simp only [firstIdxCanMoveUp]
  constructor
  · intro hlt
    by_contra hge
    have hrn : pinnedTop n idxToMove < n := by omega
    have := firstIdxLoop_run _ (-1) hs hgt hmax (le_refl _) hm1 j hj' hlt
      ((pinnedTop n idxToMove : Nat) : Int) (by omega) (by omega)
    exact p3 hrn ((hmem _).1 this)
  · intro hlt
    by_contra hge
    have hne : firstIdxLoop (-1) (idxToMove.insertionSort (· ≤ ·)) ≠ maxInt := by
      intro e
      rw [e] at hge
      unfold maxInt at hge
      omega
    have hgap := firstIdxLoop_gap _ (-1) hs hgt hmax (le_refl _) hm1 hne
    have hf0 : 0 ≤ firstIdxLoop (-1) (idxToMove.insertionSort (· ≤ ·)) - 1 := by omega
    have hin := p2 (firstIdxLoop (-1) (idxToMove.insertionSort (· ≤ ·)) - 1).toNat (by omega)
    rw [Int.toNat_of_nonneg hf0] at hin
    exact hgap.1 ((hmem _).2 hin)

theorem moveUp_run {α : Type} [Inhabited α] (tracks : List α) (idxToMove : List Int)
    (h : ValidIdx tracks.length idxToMove) (hn : tracks.length < 9223372036854775808) :
    ReorderTracks tracks idxToMove .MoveUp = some (moveUpResult tracks idxToMove) := by
  obtain ⟨hs, hmem⟩ := sorted_idx h
  obtain ⟨p1, p2, p3⟩ := pinnedTop_run tracks.length idxToMove
  have hb := first_boundary h hn
  have hloop : moveUpLoop (firstIdxCanMoveUp idxToMove).2 (firstIdxCanMoveUp idxToMove).1 tracks
      = some (moveUpResult tracks idxToMove) := by
    rw [moveUpLoop_filter]
    have hfst : (firstIdxCanMoveUp idxToMove).1 = idxToMove.insertionSort (· ≤ ·) := rfl
    rw [hfst]
    unfold moveUpResult
    cases hd : tracks.drop (pinnedTop tracks.length idxToMove) with
    | nil =>
      have hr : pinnedTop tracks.length idxToMove = tracks.length := by
        have := List.drop_eq_nil_iff.1 hd
        omega
      have hnil : (idxToMove.insertionSort (· ≤ ·)).filter
          (fun i => !decide (i < (firstIdxCanMoveUp idxToMove).2)) = [] := by
        apply List.filter_eq_nil_iff.2
        intro a ha
        have ha' := (hmem a).1 ha
        have := (hb a ha').2 (by rw [hr]; exact (h.2 a ha').2)
        simp [this]
      rw [hnil, hr]
      simp [moveUpLoop]
    | cons u rest =>
      have hlen : rest.length + 1 + pinnedTop tracks.length idxToMove = tracks.length := by
        have := congrArg List.length hd
        simp only [List.length_drop, List.length_cons] at this
        omega
      have htl : (tracks.take (pinnedTop tracks.length idxToMove)).length
          = pinnedTop tracks.length idxToMove := by
        rw [List.length_take]; omega
      have hsplit : tracks = tracks.take (pinnedTop tracks.length idxToMove) ++ u :: rest := by
        rw [← hd, List.take_append_drop]
      have hr : pinnedTop tracks.length idxToMove < tracks.length := by omega
      have key := moveUpLoop_bubble (firstIdxCanMoveUp idxToMove).2 rest
        (tracks.take (pinnedTop tracks.length idxToMove)) u
        ((idxToMove.insertionSort (· ≤ ·)).filter
          (fun i => !decide (i < (firstIdxCanMoveUp idxToMove).2)))
        (hs.filter _)
        (by
          intro k hk
          rw [htl]
          simp only [List.mem_filter, Bool.not_eq_true', decide_eq_false_iff_not] at hk
          have hk' := (hmem k).1 hk.1
          have h1 : ¬ k < ((pinnedTop tracks.length idxToMove : Nat) : Int) :=
            fun hlt => hk.2 ((hb k hk').2 hlt)
          have h2 : k ≠ ((pinnedTop tracks.length idxToMove : Nat) : Int) :=
            fun e => p3 hr (e ▸ hk')
          have h3 := (h.2 k hk').2
          refine ⟨by omega, by omega, hk.2⟩)
        (by rw [htl]; omega)
      rw [htl] at key
      have hcongr : bubbleUp (fun (j : Nat) => decide ((j : Int) ∈
            (idxToMove.insertionSort (· ≤ ·)).filter
              (fun i => !decide (i < (firstIdxCanMoveUp idxToMove).2))))
            (pinnedTop tracks.length idxToMove + 1) u rest
          = bubbleUp (fun (j : Nat) => decide ((j : Int) ∈ idxToMove))
            (pinnedTop tracks.length idxToMove + 1) u rest := by
        apply bubbleUp_congr
        intro j hj
        by_cases hjm : (j : Int) ∈ idxToMove
        · have h1 : ¬ (j : Int) < (firstIdxCanMoveUp idxToMove).2 := by
            intro hlt
            have := (hb _ hjm).1 hlt
            omega
          simp [List.mem_filter, hmem, hjm, h1]
        · simp [List.mem_filter, hmem, hjm]
      rw [hcongr] at key
      rw [← key]
      congr 1
  simp only [ReorderTracks, ReorderTracksRun, Option.map_map, hloop]
  rfl

/-! ## The `MoveDown` loop -/

theorem sinkDown_length {α : Type} (p : Nat → Bool) :
    ∀ (l : List α) (i : Nat), (sinkDown p i l).length = l.length := by
  intro l
  induction l with
  | nil => intro i; rfl
  | cons x xs ih =>
    intro i
    have := ih (i + 1)
    cases h : p i with
    | false => simp [sinkDown, h, this]
    | true =>
      simp only [sinkDown, h, if_true]
      cases hs : sinkDown p (i + 1) xs with
      | nil => rw [hs] at this; simp [insertSecond, ← this]
      | cons y ys => rw [hs] at this; simp [insertSecond, ← this]

theorem sinkDown_congr {α : Type} (p q : Nat → Bool) :
    ∀ (l : List α) (i : Nat), (∀ j, i ≤ j → j < i + l.length → p j = q j) →
      sinkDown p i l = sinkDown q i l := by
  intro l
  induction l with
  | nil => intro i _; rfl
  | cons x xs ih =>
    intro i h
    have h1 := h i (Nat.le_refl i) (by simp)
    have h2 : sinkDown p (i + 1) xs = sinkDown q (i + 1) xs :=
      ih (i + 1) (fun j hj1 hj2 => h j (by omega) (by simp; omega))
    simp [sinkDown, h1, h2]

theorem moveDownLoop_append {α : Type} (last : Int) :
    ∀ (a b : List Int) (nt : List α),
      moveDownLoop last (a ++ b) nt = (moveDownLoop last a nt).bind (moveDownLoop last b) := by
  intro a
  induction a with
  | nil => intro b nt; simp [moveDownLoop]
  | cons k a1 ih =>
    intro b nt
    by_cases h : k > last
    · simp [moveDownLoop, h, ih]
    · simp only [List.cons_append, moveDownLoop, h, if_false]
      cases sliceSwap nt (wrapInt (k + 1)) k with
      | none => rfl
      | some s1 => simp [ih]

theorem moveDownLoop_filter {α : Type} (last : Int) :
    ∀ (l : List Int) (nt : List α),
      moveDownLoop last l nt = moveDownLoop last (l.filter (fun i => !decide (i > last))) nt := by
  intro l
  induction l with
  | nil => intro nt; rfl
  | cons i rest ih =>
    intro nt
    by_cases h : i > last
    · simp [moveDownLoop, h, ih nt]
    · simp only [moveDownLoop, h, if_false, List.filter_cons, decide_False, Bool.not_false,
        if_true]
      congr 1
      funext s
      exact ih s

/-- The `MoveDown` loop over the reverse of a strictly ascending list of
indexes, none skipped, all inside the block `rest` and none its last
position, is one downward pass over that block. -/
theorem moveDownLoop_sink {α : Type} (last : Int) (suf : List α) :
    ∀ (rest pre : List α) (l : List Int),
      l.Pairwise (· < ·) →
      (∀ k ∈ l, (pre.length : Int) ≤ k ∧ k + 1 < (pre.length : Int) + (rest.length : Int)
        ∧ ¬ k > last) →
      (pre.length : Int) + (rest.length : Int) < 9223372036854775808 →
      moveDownLoop last l.reverse (pre ++ rest ++ suf)
        = some (pre ++ sinkDown (fun (j : Nat) => decide ((j : Int) ∈ l)) pre.length rest
            ++ suf) := by
  intro rest
  induction rest with
  | nil =>
    intro pre l _ hl _
    cases l with
    | nil => simp [moveDownLoop, sinkDown]
    | cons k l1 =>
      have := hl k (List.mem_cons_self _ _)
      simp at this
      omega
  | cons x xs ih =>
    intro pre l hs hl hlen
    simp only [List.length_cons, Nat.cast_add, Nat.cast_one] at hl hlen
    by_cases hm : (pre.length : Int) ∈ l
    · cases l with
      | nil => simp at hm
      | cons k l1 =>
        have hk := hl k (List.mem_cons_self _ _)
        have hsc := List.pairwise_cons.1 hs
        have hkeq : k = (pre.length : Int) := by
          rcases List.mem_cons.1 hm with h | h
          · exact h.symm
          · have := hsc.1 _ h
            omega
        have hw : wrapInt (k + 1) = (pre.length : Int) + 1 := by
          rw [wrapInt_eq_self (by omega) (by omega)]; omega
        have hrec := ih (pre ++ [x]) l1 hsc.2
          (by
            intro k1 hk1
            have h1 := hl k1 (List.mem_cons_of_mem _ hk1)
            have h2 := hsc.1 _ hk1
            simp only [List.length_append, List.length_singleton, Nat.cast_add, Nat.cast_one]
            refine ⟨by omega, by omega, h1.2.2⟩)
          (by
            simp only [List.length_append, List.length_singleton, Nat.cast_add, Nat.cast_one]
            omega)
        have hcongr : sinkDown (fun (j : Nat) => decide ((j : Int) ∈ l1)) (pre.length + 1) xs
            = sinkDown (fun (j : Nat) => decide ((j : Int) ∈ k :: l1)) (pre.length + 1) xs := by
          apply sinkDown_congr
          intro j hj _
          have : (j : Int) ≠ k := by omega
          simp [this]
        have hne : (sinkDown (fun (j : Nat) => decide ((j : Int) ∈ k :: l1)) (pre.length + 1)
            xs).length = xs.length := sinkDown_length _ _ _
        have hxs : 0 < xs.length := by omega
        simp only [List.length_append, List.length_singleton, hcongr] at hrec
        have e : pre ++ x :: xs ++ suf = (pre ++ [x]) ++ xs ++ suf := by simp
        rw [List.reverse_cons, moveDownLoop_append, e, hrec, Option.some_bind]
        cases hsd : sinkDown (fun (j : Nat) => decide ((j : Int) ∈ k :: l1)) (pre.length + 1)
            xs with
        | nil => rw [hsd] at hne; simp at hne; omega
        | cons y ys =>
          have hswap := sliceSwap_adjacent pre x y (ys ++ suf)
          have e2 : pre ++ [x] ++ y :: ys ++ suf = pre ++ x :: y :: (ys ++ suf) := by simp
          simp only [moveDownLoop, hk.2.2, if_false, hw, e2]
          rw [hkeq, hswap]
          rw [hkeq] at hsd
          have hp : decide (((pre.length : Nat) : Int) ∈ (pre.length : Int) :: l1) = true := by
            simp
          simp only [sinkDown, hp, if_true, hsd, insertSecond]
          simp
    · have hrec := ih (pre ++ [x]) l hs
        (by
          intro k1 hk1
          have h1 := hl k1 hk1
          have h2 : k1 ≠ (pre.length : Int) := fun h => hm (h ▸ hk1)
          simp only [List.length_append, List.length_singleton, Nat.cast_add, Nat.cast_one]
          refine ⟨by omega, by omega, h1.2.2⟩)
        (by
          simp only [List.length_append, List.length_singleton, Nat.cast_add, Nat.cast_one]
          omega)
      have e : pre ++ x :: xs ++ suf = (pre ++ [x]) ++ xs ++ suf := by simp
      rw [e, hrec]
      simp [sinkDown, hm]

/-! ## The boundary of `MoveDown` -/

theorem lastIdxLoop_run :
    ∀ (l : List Int) (prev : Int), l.Pairwise (· > ·) → (∀ x ∈ l, x < prev) →
      (∀ x ∈ l, 0 ≤ x) → 0 ≤ prev → prev ≤ 9223372036854775808 →
      ∀ j ∈ l, lastIdxLoop prev l < j → ∀ i, j ≤ i → i < prev → i ∈ l := by
  intro l
  induction l with
  | nil => intro prev _ _ _ _ _ j hj; simp at hj
  | cons idx rest ih =>
    intro prev hs hlt hnn hp1 hp2 j hj hjf i hji hi
    have hsc := List.pairwise_cons.1 hs
    have hidx := hlt idx (List.mem_cons_self _ _)
    have hidx0 := hnn idx (List.mem_cons_self _ _)
    have hw : wrapInt (prev - 1) = prev - 1 := wrapInt_eq_self (by omega) (by omega)
    unfold lastIdxLoop at hjf
    rw [hw] at hjf
    by_cases hc : idx < prev - 1
    · rw [if_pos hc] at hjf
      rcases List.mem_cons.1 hj with h | h
      · omega
      · have := hsc.1 _ h
        omega
    · rw [if_neg hc] at hjf
      by_cases hii : i = idx
      · rw [hii]; exact List.mem_cons_self _ _
      · have hjr : j ∈ rest := by
          rcases List.mem_cons.1 hj with h | h
          · omega
          · exact h
        apply List.mem_cons_of_mem
        exact ih idx hsc.2 (fun x hx => hsc.1 x hx)
          (fun x hx => hnn x (List.mem_cons_of_mem _ hx)) hidx0 (by omega) j hjr hjf i hji
          (by omega)

theorem lastIdxLoop_gap :
    ∀ (l : List Int) (prev : Int), l.Pairwise (· > ·) → (∀ x ∈ l, x < prev) →
      (∀ x ∈ l, 0 ≤ x) → 0 ≤ prev → prev ≤ 9223372036854775808 →
      lastIdxLoop prev l ≠ -1 →
      (lastIdxLoop prev l + 1) ∉ l ∧ lastIdxLoop prev l + 1 < prev := by
  intro l
  induction l with
  | nil => intro prev _ _ _ _ _ hne; simp [lastIdxLoop] at hne
  | cons idx rest ih =>
    intro prev hs hlt hnn hp1 hp2 hne
    have hsc := List.pairwise_cons.1 hs
    have hidx := hlt idx (List.mem_cons_self _ _)
    have hidx0 := hnn idx (List.mem_cons_self _ _)
    have hw : wrapInt (prev - 1) = prev - 1 := wrapInt_eq_self (by omega) (by omega)
    unfold lastIdxLoop at hne ⊢
    rw [hw] at hne ⊢
    by_cases hc : idx < prev - 1
    · rw [if_pos hc]
      refine ⟨?_, by omega⟩
      intro hmem
      rcases List.mem_cons.1 hmem with h | h
      · omega
      · have := hsc.1 _ h
        omega
    · rw [if_neg hc] at hne ⊢
      have := ih idx hsc.2 (fun x hx => hsc.1 x hx)
        (fun x hx => hnn x (List.mem_cons_of_mem _ hx)) hidx0 (by omega) hne
      refine ⟨?_, by omega⟩
      intro hmem
      rcases List.mem_cons.1 hmem with h | h
      · omega
      · exact this.1 h

theorem takeWhile_reverse_range_run (p : Nat → Bool) :
    ∀ (n : Nat),
      ((List.range n).reverse.takeWhile p).length ≤ n ∧
      (∀ i, n - ((List.range n).reverse.takeWhile p).length ≤ i → i < n → p i = true) ∧
      (((List.range n).reverse.takeWhile p).length < n →
        p (n - ((List.range n).reverse.takeWhile p).length - 1) = false) := by
  intro n
  induction n with
  | zero =>
    simp only [List.range_zero, List.reverse_nil, List.takeWhile_nil, List.length_nil]
    exact ⟨le_refl _, fun i _ h2 => absurd h2 (by omega), fun h => absurd h (by omega)⟩
  | succ n ih =>
    rw [List.range_succ, List.reverse_append, List.reverse_singleton, List.singleton_append]
    cases h : p n with
    | false =>
      simp only [List.takeWhile_cons, h, Bool.false_eq_true, if_false, List.length_nil]
      refine ⟨Nat.zero_le _, fun i h1 h2 => absurd h2 (by omega), fun _ => ?_⟩
      simpa using h
    | true =>
      obtain ⟨h1, h2, h3⟩ := ih
      simp only [List.takeWhile_cons, h, if_true, List.length_cons]
      refine ⟨by omega, ?_, ?_⟩
      · intro i hi1 hi2
        by_cases hs : i = n
        · rw [hs]; exact h
        · exact h2 i (by omega) (by omega)
      · intro hlt
        have := h3 (by omega)
        have e : n + 1 - (((List.range n).reverse.takeWhile p).length + 1) - 1
            = n - ((List.range n).reverse.takeWhile p).length - 1 := by omega
        rw [e]; exact this

theorem pinnedBottom_run (n : Nat) (idxToMove : List Int) :
    pinnedBottom n idxToMove ≤ n ∧
    (∀ i : Nat, n - pinnedBottom n idxToMove ≤ i → i < n → (i : Int) ∈ idxToMove) ∧
    (pinnedBottom n idxToMove < n →
      ((n - pinnedBottom n idxToMove - 1 : Nat) : Int) ∉ idxToMove) := by
  have := takeWhile_reverse_range_run (fun (i : Nat) => decide ((i : Int) ∈ idxToMove)) n
  unfold pinnedBottom
  obtain ⟨h1, h2, h3⟩ := this
  refine ⟨h1, ?_, ?_⟩
  · intro i hi1 hi2
    have := h2 i hi1 hi2
    simpa using this
  · intro hlt
    have := h3 hlt
    simpa using this

/-- For a selected index, being above the boundary that `lastIdxCanMoveDown`
returns is being in the pinned run. -/
theorem last_boundary {n : Nat} {idxToMove : List Int} (h : ValidIdx n idxToMove)
    (hn : n < 9223372036854775808) :
    ∀ j ∈ idxToMove,
      (j > (lastIdxCanMoveDown idxToMove (n : Int)).2
        ↔ ((n - pinnedBottom n idxToMove : Nat) : Int) ≤ j) := by
  intro j hj
  obtain ⟨hs, hmem⟩ := sorted_idx h
  obtain ⟨p1, p2, p3⟩ := pinnedBottom_run n idxToMove
  have hs' : (idxToMove.insertionSort (· ≤ ·)).reverse.Pairwise (· > ·) :=
    List.pairwise_reverse.2 hs
  have hmem' : ∀ x, x ∈ (idxToMove.insertionSort (· ≤ ·)).reverse ↔ x ∈ idxToMove :=
    fun x => List.mem_reverse.trans (hmem x)
  have hlt : ∀ x ∈ (idxToMove.insertionSort (· ≤ ·)).reverse, x < (n : Int) :=
    fun x hx => (h.2 x ((hmem' x).1 hx)).2
  have hnn : ∀ x ∈ (idxToMove.insertionSort (· ≤ ·)).reverse, (0 : Int) ≤ x :=
    fun x hx => (h.2 x ((hmem' x).1 hx)).1
  have hj' := (hmem' j).2 hj
  have hjv := h.2 j hj
  simp only [lastIdxCanMoveDown]
  constructor
  · intro hgt
    by_contra hge
    have hrn : pinnedBottom n idxToMove < n := by omega
    have := lastIdxLoop_run _ (n : Int) hs' hlt hnn (by omega) (by omega) j hj' hgt
      ((n - pinnedBottom n idxToMove - 1 : Nat) : Int) (by omega) (by omega)
    exact p3 hrn ((hmem' _).1 this)
  · intro hge
    by_contra hle
    have hne : lastIdxLoop (n : Int) (idxToMove.insertionSort (· ≤ ·)).reverse ≠ -1 := by
      intro e
      rw [e] at hle
      omega
    have hgap := lastIdxLoop_gap _ (n : Int) hs' hlt hnn (by omega) (by omega) hne
    have hf0 : 0 ≤ lastIdxLoop (n : Int) (idxToMove.insertionSort (· ≤ ·)).reverse + 1 := by
      omega
    have hin := p2 (lastIdxLoop (n : Int) (idxToMove.insertionSort (· ≤ ·)).reverse + 1).toNat
      (by omega) (by omega)
    rw [Int.toNat_of_nonneg hf0] at hin
    exact hgap.1 ((hmem' _).2 hin)

theorem moveDown_run {α : Type} [Inhabited α] (tracks : List α) (idxToMove : List Int)
    (h : ValidIdx tracks.length idxToMove) (hn : tracks.length < 9223372036854775808) :
    ReorderTracks tracks idxToMove .MoveDown = some (moveDownResult tracks idxToMove) := by
  obtain ⟨hs, hmem⟩ := sorted_idx h
  obtain ⟨p1, p2, p3⟩ := pinnedBottom_run tracks.length idxToMove
  have hb := last_boundary h hn
  have hloop : moveDownLoop (lastIdxCanMoveDown idxToMove (tracks.length : Int)).2
      (lastIdxCanMoveDown idxToMove (tracks.length : Int)).1.reverse tracks
      = some (moveDownResult tracks idxToMove) := by
    rw [moveDownLoop_filter]
    have hfst : (lastIdxCanMoveDown idxToMove (tracks.length : Int)).1
        = idxToMove.insertionSort (· ≤ ·) := rfl
    rw [hfst, List.filter_reverse]
    unfold moveDownResult
    have htl : (tracks.take (tracks.length - pinnedBottom tracks.length idxToMove)).length
        = tracks.length - pinnedBottom tracks.length idxToMove := by
      rw [List.length_take]; omega
    have key := moveDownLoop_sink (lastIdxCanMoveDown idxToMove (tracks.length : Int)).2
      (tracks.drop (tracks.length - pinnedBottom tracks.length idxToMove))
      (tracks.take (tracks.length - pinnedBottom tracks.length idxToMove)) []
      ((idxToMove.insertionSort (· ≤ ·)).filter
        (fun i => !decide (i > (lastIdxCanMoveDown idxToMove (tracks.length : Int)).2)))
      (hs.filter _)
      (by
        intro k hk
        rw [htl]
        simp only [List.mem_filter, Bool.not_eq_true', decide_eq_false_iff_not] at hk
        have hk' := (hmem k).1 hk.1
        have h1 : ¬ ((tracks.length - pinnedBottom tracks.length idxToMove : Nat) : Int) ≤ k :=
          fun hle => hk.2 ((hb k hk').2 hle)
        have h3 := h.2 k hk'
        have hr : pinnedBottom tracks.length idxToMove < tracks.length := by omega
        have h2 : k ≠ ((tracks.length - pinnedBottom tracks.length idxToMove - 1 : Nat) : Int) :=
          fun e => p3 hr (e ▸ hk')
        simp only [List.length_nil, Nat.cast_zero]
        refine ⟨by omega, by omega, hk.2⟩)
      (by rw [htl]; simp only [List.length_nil, Nat.cast_zero]; omega)
    have hcongr : sinkDown (fun (j : Nat) => decide ((j : Int) ∈
          (idxToMove.insertionSort (· ≤ ·)).filter
            (fun i => !decide (i > (lastIdxCanMoveDown idxToMove (tracks.length : Int)).2))))
          0 (tracks.take (tracks.length - pinnedBottom tracks.length idxToMove))
        = sinkDown (fun (j : Nat) => decide ((j : Int) ∈ idxToMove))
          0 (tracks.take (tracks.length - pinnedBottom tracks.length idxToMove)) := by
      apply sinkDown_congr
      intro j _ hj
      rw [htl] at hj
      by_cases hjm : (j : Int) ∈ idxToMove
      · have h1 : ¬ (j : Int) > (lastIdxCanMoveDown idxToMove (tracks.length : Int)).2 := by
          intro hgt
          have := (hb _ hjm).1 hgt
          omega
        simp [List.mem_filter, hmem, hjm, h1]
      · simp [List.mem_filter, hmem, hjm]
    simp only [List.nil_append, List.length_nil, hcongr, List.take_append_drop] at key
    exact key
  simp only [ReorderTracks, ReorderTracksRun, Option.map_map, hloop]
  rfl

/-! ## Properties of the passes -/

theorem pickFrom_append {α : Type} (p : Nat → Bool) :
    ∀ (a b : List α) (i : Nat),
      pickFrom p i (a ++ b) = pickFrom p i a ++ pickFrom p (i + a.length) b := by
  intro a
  induction a with
  | nil => intro b i; simp [pickFrom]
  | cons x xs ih =>
    intro b i
    have e : i + (xs.length + 1) = i + 1 + xs.length := by omega
    cases h : p i <;> simp [pickFrom, h, ih, e]

theorem pickFrom_congr {α : Type} (p q : Nat → Bool) :
    ∀ (l : List α) (i : Nat), (∀ j, i ≤ j → j < i + l.length → p j = q j) →
      pickFrom p i l = pickFrom q i l := by
  intro l
  induction l with
  | nil => intro i _; rfl
  | cons x xs ih =>
    intro i h
    have h1 := h i (Nat.le_refl i) (by simp)
    have h2 : pickFrom p (i + 1) xs = pickFrom q (i + 1) xs :=
      ih (i + 1) (fun j hj1 hj2 => h j (by omega) (by simp; omega))
    simp [pickFrom, h1, h2]

theorem pickFrom_false {α : Type} (p : Nat → Bool) :
    ∀ (l : List α) (i : Nat), (∀ j, i ≤ j → j < i + l.length → p j = false) →
      pickFrom p i l = [] := by
  intro l
  induction l with
  | nil => intro i _; rfl
  | cons x xs ih =>
    intro i h
    have h1 := h i (Nat.le_refl i) (by simp)
    have h2 : pickFrom p (i + 1) xs = [] :=
      ih (i + 1) (fun j hj1 hj2 => h j (by omega) (by simp; omega))
    simp [pickFrom, h1, h2]

theorem pickFrom_shift {α : Type} (p : Nat → Bool) :
    ∀ (l : List α) (i : Nat),
      pickFrom p (i + 1) l = pickFrom (fun j => p (j + 1)) i l := by
  intro l
  induction l with
  | nil => intro i; rfl
  | cons x xs ih =>
    intro i
    simp [pickFrom, ih]

theorem bubbleUp_length {α : Type} (p : Nat → Bool) :
    ∀ (rest : List α) (i : Nat) (u : α), (bubbleUp p i u rest).length = rest.length + 1 := by
  intro rest
  induction rest with
  | nil => intro i u; rfl
  | cons y ys ih =>
    intro i u
    cases h : p i <;> simp [bubbleUp, h, ih]

theorem bubbleUp_perm {α : Type} (p : Nat → Bool) :
    ∀ (rest : List α) (i : Nat) (u : α), (bubbleUp p i u rest).Perm (u :: rest) := by
  intro rest
  induction rest with
  | nil => intro i u; exact List.Perm.refl _
  | cons y ys ih =>
    intro i u
    cases h : p i with
    | true =>
      simp only [bubbleUp, h, if_true]
      exact ((ih (i + 1) u).cons y).trans (List.Perm.swap u y ys)
    | false =>
      simp only [bubbleUp, h, Bool.false_eq_true, if_false]
      exact (ih (i + 1) y).cons u

/-- A selected element of the rest ends one position further up. -/
theorem bubbleUp_selected {α : Type} (p : Nat → Bool) :
    ∀ (rest : List α) (i : Nat) (u : α) (k : Nat), p (i + k) = true → k < rest.length →
      (bubbleUp p i u rest)[k]? = rest[k]? := by
  intro rest
  induction rest with
  | nil =>
    intro i u k _ hlt
    simp at hlt
  | cons y ys ih =>
    intro i u k hk hlt
    cases k with
    | zero =>
      have h : p i = true := by simpa using hk
      simp [bubbleUp, h]
    | succ k =>
      have e : i + (k + 1) = i + 1 + k := by omega
      rw [e] at hk
      have hlt1 : k < ys.length := by simpa using hlt
      cases h : p i with
      | true => simp [bubbleUp, h, ih (i + 1) u k hk hlt1]
      | false => simp [bubbleUp, h, ih (i + 1) y k hk hlt1]

/-- The positions an upward pass leaves to the unselected elements hold them
in their original order. -/
theorem bubbleUp_unselected {α : Type} (p : Nat → Bool) :
    ∀ (rest : List α) (i : Nat) (u : α), (∀ j, i + 1 + rest.length ≤ j → p j = false) →
      pickFrom (fun j => !p (j + 1)) i (bubbleUp p (i + 1) u rest)
        = u :: pickFrom (fun j => !p j) (i + 1) rest := by
  intro rest
  induction rest with
  | nil =>
    intro i u h
    have := h (i + 1) (by simp)
    simp [bubbleUp, pickFrom, this]
  | cons y ys ih =>
    intro i u h
    have hrec : ∀ v, pickFrom (fun j => !p (j + 1)) (i + 1) (bubbleUp p (i + 1 + 1) v ys)
        = v :: pickFrom (fun j => !p j) (i + 1 + 1) ys :=
      fun v => ih (i + 1) v (fun j hj => h j (by simp at hj ⊢; omega))
    cases hp : p (i + 1) with
    | true => simp [bubbleUp, pickFrom, hp, hrec]
    | false => simp [bubbleUp, pickFrom, hp, hrec]

theorem insertSecond_perm {α : Type} (x : α) (l : List α) :
    (insertSecond x l).Perm (x :: l) := by
  cases l with
  | nil => exact List.Perm.refl _
  | cons y ys => exact List.Perm.swap x y ys

theorem insertSecond_getElem?_succ_succ {α : Type} (x : α) (l : List α) (k : Nat) :
    (insertSecond x l)[k + 2]? = l[k + 1]? := by
  cases l <;> simp [insertSecond]

theorem sinkDown_perm {α : Type} (p : Nat → Bool) :
    ∀ (l : List α) (i : Nat), (sinkDown p i l).Perm l := by
  intro l
  induction l with
  | nil => intro i; exact List.Perm.refl _
  | cons x xs ih =>
    intro i
    cases h : p i with
    | true =>
      simp only [sinkDown, h, if_true]
      exact (insertSecond_perm x _).trans ((ih (i + 1)).cons x)
    | false =>
      simp only [sinkDown, h, Bool.false_eq_true, if_false]
      exact (ih (i + 1)).cons x

/-- A selected element that is not at the last position ends one position
further down. -/
theorem sinkDown_selected {α : Type} (p : Nat → Bool) :
    ∀ (l : List α) (i : Nat) (k : Nat), p (i + k) = true → k + 1 < l.length →
      (sinkDown p i l)[k + 1]? = l[k]? := by
  intro l
  induction l with
  | nil =>
    intro i k _ hlt
    simp at hlt
  | cons x xs ih =>
    intro i k hk hlt
    have hxs : k < xs.length := by simpa using hlt
    cases k with
    | zero =>
      have h : p i = true := by simpa using hk
      have hlen := sinkDown_length p xs (i + 1)
      cases hsd : sinkDown p (i + 1) xs with
      | nil => rw [hsd] at hlen; simp at hlen; omega
      | cons y ys => simp [sinkDown, h, hsd, insertSecond]
    | succ k =>
      have e : i + (k + 1) = i + 1 + k := by omega
      rw [e] at hk
      have hrec := ih (i + 1) k hk hxs
      cases h : p i with
      | true =>
        simp only [sinkDown, h, if_true, insertSecond_getElem?_succ_succ, hrec]
        simp
      | false =>
        simp only [sinkDown, h, Bool.false_eq_true, if_false]
        simp [hrec]

/-- Behind its first element, a downward pass holds the unselected elements
in their original order at the positions it leaves to them. -/
theorem sinkDown_unselected {α : Type} (p : Nat → Bool) :
    ∀ (l : List α) (i : Nat), (∀ j, i + l.length = j + 1 → p j = false) →
      ∀ (y : α) (ys : List α), sinkDown p i l = y :: ys →
        y :: pickFrom (fun j => !p j) i ys = pickFrom (fun j => !p j) i l := by
  intro l
  induction l with
  | nil =>
    intro i _ y ys hsd
    simp [sinkDown] at hsd
  | cons x xs ih =>
    intro i h y ys hsd
    have hlen := sinkDown_length p xs (i + 1)
    have hrec := ih (i + 1) (fun j hj => h j (by simp at hj ⊢; omega))
    cases hp : p i with
    | true =>
      have hxs : xs ≠ [] := by
        intro e
        have := h i (by simp [e])
        rw [hp] at this
        exact Bool.noConfusion this
      cases hL : sinkDown p (i + 1) xs with
      | nil =>
        rw [hL] at hlen
        exact absurd (List.length_eq_zero.1 hlen.symm) hxs
      | cons y1 ys1 =>
        simp only [sinkDown, hp, if_true, hL, insertSecond, List.cons.injEq] at hsd
        obtain ⟨e1, e2⟩ := hsd
        subst e1; subst e2
        have := hrec y1 ys1 hL
        simp [pickFrom, hp, this]
    | false =>
      simp only [sinkDown, hp, Bool.false_eq_true, if_false, List.cons.injEq] at hsd
      obtain ⟨e1, e2⟩ := hsd
      subst e1; subst e2
      cases hL : sinkDown p (i + 1) xs with
      | nil =>
        rw [hL] at hlen
        have hx : xs = [] := List.length_eq_zero.1 hlen.symm
        simp [pickFrom, hp, hx]
      | cons y1 ys1 =>
        have := hrec y1 ys1 hL
        simp [pickFrom, hp, this]

/-- What an upward pass behind a fully selected prefix `pre` does, position
by position. -/
theorem bubbleUp_props {α : Type} (idxToMove : List Int) (pre : List α) (u : α)
    (rest : List α) (hpre : ∀ j : Nat, j < pre.length → (j : Int) ∈ idxToMove)
    (hu : ((pre.length : Nat) : Int) ∉ idxToMove)
    (hv : ∀ j : Nat, pre.length + 1 + rest.length ≤ j → (j : Int) ∉ idxToMove) :
    (∀ i : Nat, i < pre.length →
      (pre ++ bubbleUp (fun (j : Nat) => decide ((j : Int) ∈ idxToMove)) (pre.length + 1) u
        rest)[i]? = (pre ++ u :: rest)[i]?) ∧
    (∀ i : Nat, (i : Int) ∈ idxToMove → pre.length ≤ i →
      (pre ++ bubbleUp (fun (j : Nat) => decide ((j : Int) ∈ idxToMove)) (pre.length + 1) u
        rest)[i - 1]? = (pre ++ u :: rest)[i]?) ∧
    pickFrom (fun (j : Nat) => decide (pre.length ≤ j) && !decide (((j + 1 : Nat) : Int) ∈ idxToMove))
        0 (pre ++ bubbleUp (fun (j : Nat) => decide ((j : Int) ∈ idxToMove)) (pre.length + 1) u
          rest)
      = pickFrom (fun (j : Nat) => !decide ((j : Int) ∈ idxToMove)) 0 (pre ++ u :: rest) := by
  refine ⟨?_, ?_, ?_⟩
  · intro i hi
    rw [List.getElem?_append_left hi, List.getElem?_append_left hi]
  · intro i him hi
    have hne : i ≠ pre.length := fun e => hu (e ▸ him)
    have hlt : i < pre.length + 1 + rest.length := by
      by_contra hge
      exact hv i (by omega) him
    have h1 : pre.length ≤ i - 1 := by omega
    have h2 : pre.length ≤ i := hi
    rw [List.getElem?_append_right h1, List.getElem?_append_right h2]
    have e1 : i - pre.length = (i - 1 - pre.length) + 1 := by omega
    rw [e1, List.getElem?_cons_succ]
    apply bubbleUp_selected
    · have e2 : pre.length + 1 + (i - 1 - pre.length) = i := by omega
      rw [e2]
      simpa using him
    · omega
  · rw [pickFrom_append, pickFrom_append]
    have hA : pickFrom (fun (j : Nat) => decide (pre.length ≤ j)
        && !decide (((j + 1 : Nat) : Int) ∈ idxToMove)) 0 pre = [] := by
      apply pickFrom_false
      intro j _ hj
      have : ¬ pre.length ≤ j := by omega
      simp [this]
    have hB : pickFrom (fun (j : Nat) => !decide ((j : Int) ∈ idxToMove)) 0 pre = [] := by
      apply pickFrom_false
      intro j _ hj
      have := hpre j (by omega)
      simp [this]
    have hC : pickFrom (fun (j : Nat) => decide (pre.length ≤ j)
          && !decide (((j + 1 : Nat) : Int) ∈ idxToMove)) (0 + pre.length)
          (bubbleUp (fun (j : Nat) => decide ((j : Int) ∈ idxToMove)) (pre.length + 1) u rest)
        = pickFrom (fun (j : Nat) => !decide (((j + 1 : Nat) : Int) ∈ idxToMove)) pre.length
          (bubbleUp (fun (j : Nat) => decide ((j : Int) ∈ idxToMove)) (pre.length + 1) u
            rest) := by
      rw [Nat.zero_add]
      apply pickFrom_congr
      intro j hj _
      simp [hj]
    have hD := bubbleUp_unselected (fun (j : Nat) => decide ((j : Int) ∈ idxToMove)) rest
      pre.length u (by
        intro j hj
        have := hv j hj
        simpa using this)
    rw [hA, hB, hC, hD]
    simp [pickFrom, hu]

theorem moveUpResult_perm {α : Type} (tracks : List α) (idxToMove : List Int) :
    (moveUpResult tracks idxToMove).Perm tracks := by
  unfold moveUpResult
  cases hd : tracks.drop (pinnedTop tracks.length idxToMove) with
  | nil =>
    have := List.take_append_drop (pinnedTop tracks.length idxToMove) tracks
    rw [hd] at this
    simp only [this]
    exact List.Perm.refl _
  | cons u rest =>
    have := List.take_append_drop (pinnedTop tracks.length idxToMove) tracks
    rw [hd] at this
    simp only
    exact ((bubbleUp_perm _ rest _ u).append_left _).trans (List.Perm.of_eq this)

/-- What a downward pass in front of a fully selected suffix `suf` does,
position by position. -/
theorem sinkDown_props {α : Type} (idxToMove : List Int) (A suf : List α)
    (hsuf : ∀ j : Nat, A.length ≤ j → j < A.length + suf.length → (j : Int) ∈ idxToMove)
    (hlast : ∀ j : Nat, j + 1 = A.length → (j : Int) ∉ idxToMove) :
    (∀ i : Nat, A.length ≤ i →
      (sinkDown (fun (j : Nat) => decide ((j : Int) ∈ idxToMove)) 0 A ++ suf)[i]?
        = (A ++ suf)[i]?) ∧
    (∀ i : Nat, (i : Int) ∈ idxToMove → i < A.length →
      (sinkDown (fun (j : Nat) => decide ((j : Int) ∈ idxToMove)) 0 A ++ suf)[i + 1]?
        = (A ++ suf)[i]?) ∧
    pickFrom (fun (j : Nat) => decide (j < A.length)
          && !(decide (1 ≤ j) && decide (((j - 1 : Nat) : Int) ∈ idxToMove)))
        0 (sinkDown (fun (j : Nat) => decide ((j : Int) ∈ idxToMove)) 0 A ++ suf)
      = pickFrom (fun (j : Nat) => !decide ((j : Int) ∈ idxToMove)) 0 (A ++ suf) := by
  have hlen := sinkDown_length (fun (j : Nat) => decide ((j : Int) ∈ idxToMove)) A 0
  refine ⟨?_, ?_, ?_⟩
  · intro i hi
    rw [List.getElem?_append_right (by omega), List.getElem?_append_right hi, hlen]
  · intro i him hi
    have hne : i + 1 ≠ A.length := fun e => hlast i e him
    have h1 : i + 1 < A.length := by omega
    rw [List.getElem?_append_left (by omega), List.getElem?_append_left hi]
    apply sinkDown_selected
    · simpa using him
    · exact h1
  · rw [pickFrom_append, pickFrom_append, hlen]
    have hA : pickFrom (fun (j : Nat) => decide (j < A.length)
        && !(decide (1 ≤ j) && decide (((j - 1 : Nat) : Int) ∈ idxToMove))) (0 + A.length) suf
        = [] := by
      apply pickFrom_false
      intro j hj _
      have : ¬ j < A.length := by omega
      simp [this]
    have hB : pickFrom (fun (j : Nat) => !decide ((j : Int) ∈ idxToMove)) (0 + A.length) suf
        = [] := by
      apply pickFrom_false
      intro j hj1 hj2
      have := hsuf j (by omega) (by omega)
      simp [this]
    rw [hA, hB, List.append_nil, List.append_nil]
    cases hsd : sinkDown (fun (j : Nat) => decide ((j : Int) ∈ idxToMove)) 0 A with
    | nil =>
      rw [hsd] at hlen
      have hAnil : A = [] := List.length_eq_zero.1 hlen.symm
      simp [hAnil, pickFrom]
    | cons y ys =>
      rw [hsd] at hlen
      have hApos : 0 < A.length := by rw [← hlen]; simp
      have hys : ys.length + 1 = A.length := by rw [← hlen]; simp
      have hun := sinkDown_unselected (fun (j : Nat) => decide ((j : Int) ∈ idxToMove)) A 0
        (by
          intro j hj
          have := hlast j (by omega)
          simpa using this) y ys hsd
      have hshift : pickFrom (fun (j : Nat) => decide (j < A.length)
            && !(decide (1 ≤ j) && decide (((j - 1 : Nat) : Int) ∈ idxToMove))) (0 + 1) ys
          = pickFrom (fun (j : Nat) => !decide ((j : Int) ∈ idxToMove)) 0 ys := by
        rw [pickFrom_shift]
        apply pickFrom_congr
        intro j _ hj
        have : j + 1 < A.length := by omega
        simp [this]
      simp only [pickFrom, hApos, decide_True, Bool.true_and, Nat.not_succ_le_zero,
        decide_False, Bool.false_and, Bool.not_false, if_true, hshift]
      simpa using hun

theorem moveDownResult_perm {α : Type} (tracks : List α) (idxToMove : List Int) :
    (moveDownResult tracks idxToMove).Perm tracks := by
  unfold moveDownResult
  have := List.take_append_drop (tracks.length - pinnedBottom tracks.length idxToMove) tracks
  exact ((sinkDown_perm _ _ 0).append_right _).trans (List.Perm.of_eq this)

theorem moveUpResult_props {α : Type} (tracks : List α) (idxToMove : List Int)
    (h : ValidIdx tracks.length idxToMove) :
    (∀ i : Nat, i < pinnedTop tracks.length idxToMove →
      (moveUpResult tracks idxToMove)[i]? = tracks[i]?) ∧
    (∀ i : Nat, (i : Int) ∈ idxToMove → pinnedTop tracks.length idxToMove ≤ i →
      (moveUpResult tracks idxToMove)[i - 1]? = tracks[i]?) ∧
    pickFrom (remainingUp tracks.length idxToMove) 0 (moveUpResult tracks idxToMove)
      = unselectedOf tracks idxToMove := by
  obtain ⟨p1, p2, p3⟩ := pinnedTop_run tracks.length idxToMove
  have hsplit := List.take_append_drop (pinnedTop tracks.length idxToMove) tracks
  have htl : (tracks.take (pinnedTop tracks.length idxToMove)).length
      = pinnedTop tracks.length idxToMove := by
    rw [List.length_take]; omega
  cases hd : tracks.drop (pinnedTop tracks.length idxToMove) with
  | nil =>
    have hr : pinnedTop tracks.length idxToMove = tracks.length := by
      have := List.drop_eq_nil_iff.1 hd
      omega
    have hout : moveUpResult tracks idxToMove = tracks := by
      unfold moveUpResult
      rw [hd] at hsplit ⊢
      exact hsplit
    rw [hout]
    refine ⟨fun _ _ => rfl, ?_, ?_⟩
    · intro i him hi
      have := (h.2 _ him).2
      omega
    · have e1 : pickFrom (remainingUp tracks.length idxToMove) 0 tracks = [] := by
        apply pickFrom_false
        intro j _ hj
        have : ¬ pinnedTop tracks.length idxToMove ≤ j := by omega
        simp [remainingUp, this]
      have e2 : unselectedOf tracks idxToMove = [] := by
        apply pickFrom_false
        intro j _ hj
        have := p2 j (by omega)
        simp [this]
      rw [e1, e2]
  | cons u rest =>
    rw [hd] at hsplit
    have hlen : tracks.length = pinnedTop tracks.length idxToMove + 1 + rest.length := by
      have := congrArg List.length hsplit
      simp only [List.length_append, List.length_cons, htl] at this
      omega
    have hout : moveUpResult tracks idxToMove
        = tracks.take (pinnedTop tracks.length idxToMove)
          ++ bubbleUp (fun (j : Nat) => decide ((j : Int) ∈ idxToMove))
            (pinnedTop tracks.length idxToMove + 1) u rest := by
      unfold moveUpResult
      rw [hd]
    have key := bubbleUp_props idxToMove (tracks.take (pinnedTop tracks.length idxToMove)) u rest
      (by intro j hj; rw [htl] at hj; exact p2 j hj)
      (by rw [htl]; exact p3 (by omega))
      (by
        intro j hj him
        rw [htl] at hj
        have := (h.2 _ him).2
        omega)
    rw [htl, hsplit, ← hout] at key
    exact key

theorem moveDownResult_props {α : Type} (tracks : List α) (idxToMove : List Int) :
    (∀ i : Nat, tracks.length - pinnedBottom tracks.length idxToMove ≤ i →
      (moveDownResult tracks idxToMove)[i]? = tracks[i]?) ∧
    (∀ i : Nat, (i : Int) ∈ idxToMove →
      i < tracks.length - pinnedBottom tracks.length idxToMove →
      (moveDownResult tracks idxToMove)[i + 1]? = tracks[i]?) ∧
    pickFrom (remainingDown tracks.length idxToMove) 0 (moveDownResult tracks idxToMove)
      = unselectedOf tracks idxToMove := by
  obtain ⟨p1, p2, p3⟩ := pinnedBottom_run tracks.length idxToMove
  have hsplit := List.take_append_drop
    (tracks.length - pinnedBottom tracks.length idxToMove) tracks
  have htl : (tracks.take (tracks.length - pinnedBottom tracks.length idxToMove)).length
      = tracks.length - pinnedBottom tracks.length idxToMove := by
    rw [List.length_take]; omega
  have hdl : (tracks.drop (tracks.length - pinnedBottom tracks.length idxToMove)).length
      = pinnedBottom tracks.length idxToMove := by
    rw [List.length_drop]; omega
  have key := sinkDown_props idxToMove
    (tracks.take (tracks.length - pinnedBottom tracks.length idxToMove))
    (tracks.drop (tracks.length - pinnedBottom tracks.length idxToMove))
    (by
      intro j hj1 hj2
      rw [htl] at hj1 hj2
      rw [hdl] at hj2
      exact p2 j hj1 (by omega))
    (by
      intro j hj
      rw [htl] at hj
      have e : j = tracks.length - pinnedBottom tracks.length idxToMove - 1 := by omega
      rw [e]
      exact p3 (by omega))
  rw [htl, hsplit] at key
  exact key

/-! ## The reorder engine: main results -/

/-- C1: for every sequence (of a length a Go slice can have), every
`idxToMove` of distinct valid positions and each of the four operations,
`ReorderTracks` returns a slice of the same length holding the same multiset
of elements as the input. -/
theorem ReorderTracks_permutation {α : Type} [Inhabited α] (tracks : List α)
    (idxToMove : List Int) (op : TrackReorderOp)
    (h : ValidIdx tracks.length idxToMove) (hn : tracks.length < 9223372036854775808) :
    ∃ out, ReorderTracks tracks idxToMove op = some out ∧
      out.length = tracks.length ∧ out.Perm tracks := by
  cases op with
  | MoveToTop =>
    have hp := pickFrom_perm (fun (i : Nat) => decide ((i : Int) ∈ idxToMove)) tracks 0
    exact ⟨_, moveToTop_run tracks idxToMove h, hp.length_eq, hp⟩
  | MoveToBottom =>
    have hp := List.perm_append_comm.trans
      (pickFrom_perm (fun (i : Nat) => decide ((i : Int) ∈ idxToMove)) tracks 0)
    exact ⟨_, moveToBottom_run tracks idxToMove h, hp.length_eq, hp⟩
  | MoveUp =>
    have hp := moveUpResult_perm tracks idxToMove
    exact ⟨_, moveUp_run tracks idxToMove h hn, hp.length_eq, hp⟩
  | MoveDown =>
    have hp := moveDownResult_perm tracks idxToMove
    exact ⟨_, moveDown_run tracks idxToMove h hn, hp.length_eq, hp⟩

theorem ReorderTracks_permutation_witness :
    ValidIdx 5 [4, 0, 2] ∧
    ∃ out, ReorderTracks ["A", "B", "C", "D", "E"] [4, 0, 2] .MoveUp = some out ∧
      out.length = 5 ∧ out.Perm ["A", "B", "C", "D", "E"] :=
  ⟨by decide,
    ReorderTracks_permutation ["A", "B", "C", "D", "E"] [4, 0, 2] .MoveUp (by decide)
      (by decide)⟩

/-- C2: for every sequence and every `idxToMove` of distinct valid positions,
`ReorderTracks` with `MoveToTop` returns the selected elements in their
original relative order followed by the unselected elements in their original
relative order. -/
theorem ReorderTracks_MoveToTop {α : Type} [Inhabited α] (tracks : List α)
    (idxToMove : List Int) (h : ValidIdx tracks.length idxToMove) :
    ReorderTracks tracks idxToMove .MoveToTop
      = some (selectedOf tracks idxToMove ++ unselectedOf tracks idxToMove) :=
  moveToTop_run tracks idxToMove h

theorem ReorderTracks_MoveToTop_witness :
    ValidIdx 4 [1, 3] ∧
    ReorderTracks ["A", "B", "C", "D"] [1, 3] .MoveToTop
      = some (selectedOf ["A", "B", "C", "D"] [1, 3] ++ unselectedOf ["A", "B", "C", "D"] [1, 3]) ∧
    selectedOf ["A", "B", "C", "D"] [1, 3] ++ unselectedOf ["A", "B", "C", "D"] [1, 3]
      = ["B", "D", "A", "C"] :=
  ⟨by decide, ReorderTracks_MoveToTop ["A", "B", "C", "D"] [1, 3] (by decide), by decide⟩

/-- C3: for every sequence and every `idxToMove` of distinct valid positions,
`ReorderTracks` with `MoveToBottom` returns the unselected elements in their
original relative order followed by the selected elements in their original
relative order. -/
theorem ReorderTracks_MoveToBottom {α : Type} [Inhabited α] (tracks : List α)
    (idxToMove : List Int) (h : ValidIdx tracks.length idxToMove) :
    ReorderTracks tracks idxToMove .MoveToBottom
      = some (unselectedOf tracks idxToMove ++ selectedOf tracks idxToMove) :=
  moveToBottom_run tracks idxToMove h

theorem ReorderTracks_MoveToBottom_witness :
    ValidIdx 4 [1, 3] ∧
    ReorderTracks ["A", "B", "C", "D"] [1, 3] .MoveToBottom
      = some (unselectedOf ["A", "B", "C", "D"] [1, 3] ++ selectedOf ["A", "B", "C", "D"] [1, 3]) ∧
    unselectedOf ["A", "B", "C", "D"] [1, 3] ++ selectedOf ["A", "B", "C", "D"] [1, 3]
      = ["A", "C", "B", "D"] :=
  ⟨by decide, ReorderTracks_MoveToBottom ["A", "B", "C", "D"] [1, 3] (by decide), by decide⟩

/-- C4: for every sequence and every set of distinct valid positions, with
`r = pinnedTop` the length of the maximal selected run `0, ..., r - 1`,
`ReorderTracks` with `MoveUp` returns a slice of the same length in which
every pinned element stays at its position, every selected element at a
non-pinned index `i` is at position `i - 1`, and the remaining positions hold
the unselected elements in their original relative order. -/
theorem ReorderTracks_MoveUp {α : Type} [Inhabited α] (tracks : List α)
    (idxToMove : List Int) (h : ValidIdx tracks.length idxToMove)
    (hn : tracks.length < 9223372036854775808) :
    ∃ out, ReorderTracks tracks idxToMove .MoveUp = some out ∧
      out.length = tracks.length ∧
      (∀ i : Nat, i < pinnedTop tracks.length idxToMove → out[i]? = tracks[i]?) ∧
      (∀ i : Nat, (i : Int) ∈ idxToMove → pinnedTop tracks.length idxToMove ≤ i →
        out[i - 1]? = tracks[i]?) ∧
      pickFrom (remainingUp tracks.length idxToMove) 0 out = unselectedOf tracks idxToMove := by
  obtain ⟨h1, h2, h3⟩ := moveUpResult_props tracks idxToMove h
  exact ⟨_, moveUp_run tracks idxToMove h hn, (moveUpResult_perm tracks idxToMove).length_eq,
    h1, h2, h3⟩

theorem ReorderTracks_MoveUp_witness :
    ValidIdx 5 [0, 1, 3] ∧
    (∃ out, ReorderTracks ["A", "B", "C", "D", "E"] [0, 1, 3] .MoveUp = some out ∧
      out.length = 5 ∧
      (∀ i : Nat, i < pinnedTop 5 [0, 1, 3] → out[i]? = ["A", "B", "C", "D", "E"][i]?) ∧
      (∀ i : Nat, (i : Int) ∈ ([0, 1, 3] : List Int) → pinnedTop 5 [0, 1, 3] ≤ i →
        out[i - 1]? = ["A", "B", "C", "D", "E"][i]?) ∧
      pickFrom (remainingUp 5 [0, 1, 3]) 0 out
        = unselectedOf ["A", "B", "C", "D", "E"] [0, 1, 3]) ∧
    ReorderTracks ["A", "B", "C", "D", "E"] [0, 1, 3] .MoveUp
      = some ["A", "B", "D", "C", "E"] ∧
    pinnedTop 5 [0, 1, 3] = 2 :=
  ⟨by decide,
    ReorderTracks_MoveUp ["A", "B", "C", "D", "E"] [0, 1, 3] (by decide) (by decide),
    by decide, by decide⟩

/-- C5: for every sequence of length `n` and every set of distinct valid
positions, with `t = pinnedBottom` the length of the maximal selected run
`n - t, ..., n - 1`, `ReorderTracks` with `MoveDown` returns a slice of the
same length in which every pinned element stays at its position, every
selected element at a non-pinned index `i` is at position `i + 1`, and the
remaining positions hold the unselected elements in their original relative
order. -/
theorem ReorderTracks_MoveDown {α : Type} [Inhabited α] (tracks : List α)
    (idxToMove : List Int) (h : ValidIdx tracks.length idxToMove)
    (hn : tracks.length < 9223372036854775808) :
    ∃ out, ReorderTracks tracks idxToMove .MoveDown = some out ∧
      out.length = tracks.length ∧
      (∀ i : Nat, tracks.length - pinnedBottom tracks.length idxToMove ≤ i →
        out[i]? = tracks[i]?) ∧
      (∀ i : Nat, (i : Int) ∈ idxToMove →
        i < tracks.length - pinnedBottom tracks.length idxToMove →
        out[i + 1]? = tracks[i]?) ∧
      pickFrom (remainingDown tracks.length idxToMove) 0 out
        = unselectedOf tracks idxToMove := by
  obtain ⟨h1, h2, h3⟩ := moveDownResult_props tracks idxToMove
  exact ⟨_, moveDown_run tracks idxToMove h hn,
    (moveDownResult_perm tracks idxToMove).length_eq, h1, h2, h3⟩

theorem ReorderTracks_MoveDown_witness :
    ValidIdx 5 [1, 3, 4] ∧
    (∃ out, ReorderTracks ["A", "B", "C", "D", "E"] [1, 3, 4] .MoveDown = some out ∧
      out.length = 5 ∧
      (∀ i : Nat, 5 - pinnedBottom 5 [1, 3, 4] ≤ i → out[i]? = ["A", "B", "C", "D", "E"][i]?) ∧
      (∀ i : Nat, (i : Int) ∈ ([1, 3, 4] : List Int) → i < 5 - pinnedBottom 5 [1, 3, 4] →
        out[i + 1]? = ["A", "B", "C", "D", "E"][i]?) ∧
      pickFrom (remainingDown 5 [1, 3, 4]) 0 out
        = unselectedOf ["A", "B", "C", "D", "E"] [1, 3, 4]) ∧
    pinnedBottom 5 [1, 3, 4] = 2 :=
  ⟨by decide,
    ReorderTracks_MoveDown ["A", "B", "C", "D", "E"] [1, 3, 4] (by decide) (by decide),
    by decide⟩

/-- C6, as the code has it: `ReorderTracks` applied to `[A,B,C,D,E]` with
selection `{1,3,4}` and `MoveDown` returns `[A,C,B,D,E]`; the positions 3 and 4
are pinned, so `D` and `E` stay where they are. -/
theorem ReorderTracks_MoveDown_example :
    ReorderTracks ["A", "B", "C", "D", "E"] [1, 3, 4] .MoveDown
      = some ["A", "C", "B", "D", "E"] := by
  decide

/-- C6, as stated, fails: the result for `[A,B,C,D,E]`, `{1,3,4}`, `MoveDown`
is not `[A,C,B,E,D]`. -/
theorem ReorderTracks_MoveDown_example_not_swapped :
    ReorderTracks ["A", "B", "C", "D", "E"] [1, 3, 4] .MoveDown
      ≠ some ["A", "C", "B", "E", "D"] := by
  decide

/-- C7: the result of `ReorderTracks` depends only on the set of selected
positions: for every sequence, every `idxToMove`, every rearrangement
`idxToMove2` of it and each operation, both calls return the same (also
without the precondition on `idxToMove`). For `MoveUp` and `MoveDown` both
calls run their swap loop over the same sorted list. -/
theorem ReorderTracks_order_independent {α : Type} [Inhabited α] (tracks : List α)
    (idxToMove idxToMove2 : List Int) (op : TrackReorderOp)
    (hp : idxToMove.Perm idxToMove2) :
    ReorderTracks tracks idxToMove op = ReorderTracks tracks idxToMove2 op := by
  have hsort : idxToMove.insertionSort (· ≤ ·) = idxToMove2.insertionSort (· ≤ ·) :=
    List.eq_of_perm_of_sorted
      (((List.perm_insertionSort (· ≤ ·) idxToMove).trans hp).trans
        (List.perm_insertionSort (· ≤ ·) idxToMove2).symm)
      (List.sorted_insertionSort (· ≤ ·) idxToMove)
      (List.sorted_insertionSort (· ≤ ·) idxToMove2)
  have hset : ToSet idxToMove = ToSet idxToMove2 := by
    funext t
    simp only [ToSet, hp.mem_iff]
  have hlen : idxToMove.length = idxToMove2.length := hp.length_eq
  cases op <;>
    simp [ReorderTracks, ReorderTracksRun, firstIdxCanMoveUp, lastIdxCanMoveDown, hsort, hset,
      hlen, Function.comp_def]

/-- The swap loop itself is sensitive to the order of its index list: over
`[2, 1]` it returns another slice than over the sorted `[1, 2]`. -/
theorem moveUpLoop_order_sensitive :
    moveUpLoop 1 [2, 1] ["A", "B", "C"] ≠ moveUpLoop 1 [1, 2] ["A", "B", "C"] := by
  decide

theorem ReorderTracks_order_independent_witness :
    ([3, 0, 1] : List Int).Perm [0, 1, 3] ∧
    ReorderTracks ["A", "B", "C", "D", "E"] [3, 0, 1] .MoveUp
      = ReorderTracks ["A", "B", "C", "D", "E"] [0, 1, 3] .MoveUp :=
  ⟨by decide,
    ReorderTracks_order_independent ["A", "B", "C", "D", "E"] [3, 0, 1] [0, 1, 3] .MoveUp
      (by decide)⟩

/-- C8: under the documented precondition every slice read and write of
`ReorderTracks` is in range for all four operations (no access panics): the
swap of `MoveUp` is only reached with `i ≥ 1`, the swap of `MoveDown` only with
`idx ≤ len - 2`, and the writes at the two cursors of `MoveToTop` and
`MoveToBottom` all succeed. -/
theorem ReorderTracks_in_range {α : Type} [Inhabited α] (tracks : List α)
    (idxToMove : List Int) (op : TrackReorderOp)
    (h : ValidIdx tracks.length idxToMove) (hn : tracks.length < 9223372036854775808) :
    (ReorderTracks tracks idxToMove op).isSome = true ∧
    (∀ i ∈ (firstIdxCanMoveUp idxToMove).1, ¬ i < (firstIdxCanMoveUp idxToMove).2 → 1 ≤ i) ∧
    (∀ idx ∈ (lastIdxCanMoveDown idxToMove (tracks.length : Int)).1,
      ¬ idx > (lastIdxCanMoveDown idxToMove (tracks.length : Int)).2 →
        idx ≤ (tracks.length : Int) - 2) := by
  obtain ⟨_, hmem⟩ := sorted_idx h
  refine ⟨?_, ?_, ?_⟩
  · cases op with
    | MoveToTop => rw [moveToTop_run tracks idxToMove h]; rfl
    | MoveToBottom => rw [moveToBottom_run tracks idxToMove h]; rfl
    | MoveUp => rw [moveUp_run tracks idxToMove h hn]; rfl
    | MoveDown => rw [moveDown_run tracks idxToMove h hn]; rfl
  · intro i hi hge
    have hi2 : i ∈ idxToMove := (hmem i).1 hi
    obtain ⟨p1, p2, p3⟩ := pinnedTop_run tracks.length idxToMove
    have hb := (first_boundary h hn i hi2).not.1 hge
    have hv := h.2 i hi2
    have hne : i ≠ ((pinnedTop tracks.length idxToMove : Nat) : Int) :=
      fun e => p3 (by omega) (e ▸ hi2)
    omega
  · intro idx hi hle
    have hi2 : idx ∈ idxToMove := (hmem idx).1 hi
    obtain ⟨p1, p2, p3⟩ := pinnedBottom_run tracks.length idxToMove
    have hb := (last_boundary h hn idx hi2).not.1 hle
    have hv := h.2 idx hi2
    have hne : idx ≠ ((tracks.length - pinnedBottom tracks.length idxToMove - 1 : Nat) : Int) :=
      fun e => p3 (by omega) (e ▸ hi2)
    omega

theorem ReorderTracks_in_range_witness :
    ValidIdx ["A", "B", "C", "D"].length [3, 1] ∧
    ReorderTracks ["A", "B", "C", "D"] [3, 1] .MoveDown = some ["A", "C", "B", "D"] ∧
    ReorderTracks ["A", "B", "C", "D"] [3, 1] .MoveUp = some ["B", "A", "D", "C"] ∧
    firstIdxCanMoveUp [3, 1] = ([1, 3], 1) ∧
    lastIdxCanMoveDown [3, 1] ((["A", "B", "C", "D"].length : Nat) : Int) = ([1, 3], 1) ∧
    ((ReorderTracks ["A", "B", "C", "D"] [3, 1] .MoveDown).isSome = true ∧
      (∀ i ∈ (firstIdxCanMoveUp [3, 1]).1, ¬ i < (firstIdxCanMoveUp [3, 1]).2 → 1 ≤ i) ∧
      (∀ idx ∈ (lastIdxCanMoveDown [3, 1] ((["A", "B", "C", "D"].length : Nat) : Int)).1,
        ¬ idx > (lastIdxCanMoveDown [3, 1] ((["A", "B", "C", "D"].length : Nat) : Int)).2 →
          idx ≤ ((["A", "B", "C", "D"].length : Nat) : Int) - 2)) ∧
    (ReorderTracks ["A", "B", "C", "D"] [3, 1] .MoveUp).isSome = true ∧
    (ReorderTracks ["A", "B", "C", "D"] [3, 1] .MoveToTop).isSome = true ∧
    (ReorderTracks ["A", "B", "C", "D"] [3, 1] .MoveToBottom).isSome = true :=
  ⟨by decide, by decide, by decide, by decide, by decide,
    ReorderTracks_in_range ["A", "B", "C", "D"] [3, 1] .MoveDown (by decide) (by decide),
    (ReorderTracks_in_range ["A", "B", "C", "D"] [3, 1] .MoveUp (by decide) (by decide)).1,
    (ReorderTracks_in_range ["A", "B", "C", "D"] [3, 1] .MoveToTop (by decide) (by decide)).1,
    (ReorderTracks_in_range ["A", "B", "C", "D"] [3, 1] .MoveToBottom (by decide) (by decide)).1⟩

end sharedutil

namespace jellyfin

/-! ## The filter translator -/

/-- C9: for every album filter with `MinYear > 0` and `MaxYear` unset (0),
`jfFilterFromFilter` emits the provider year range `[MinYear, currentYear]`
and leaves `MinYear = 0` and `MaxYear = 0` in the residual filter. -/
theorem jfFilterFromFilter_min_only (currentYear : Int) (f : AlbumFilterOptions)
    (hmin : f.MinYear > 0) (hmax : f.MaxYear = 0) :
    (jfFilterFromFilter currentYear f).1.YearRange = (f.MinYear, currentYear) ∧
    (jfFilterFromFilter currentYear f).2.MinYear = 0 ∧
    (jfFilterFromFilter currentYear f).2.MaxYear = 0 := by
  cases hf : f.ExcludeUnfavorited <;> simp [jfFilterFromFilter, emptyFilter, hf, hmin, hmax]

theorem jfFilterFromFilter_min_only_witness :
    (jfFilterFromFilter 2026 ⟨false, 2000, 0, []⟩).1.YearRange = (2000, 2026) ∧
    (jfFilterFromFilter 2026 ⟨false, 2000, 0, []⟩).2.MinYear = 0 ∧
    (jfFilterFromFilter 2026 ⟨false, 2000, 0, []⟩).2.MaxYear = 0 :=
  jfFilterFromFilter_min_only 2026 ⟨false, 2000, 0, []⟩ (by decide) rfl

/-- C10: for every album filter with `MaxYear > 0` and `MinYear` unset (0),
`jfFilterFromFilter` emits the provider year range `[1900, MaxYear]` and
leaves `MinYear = 0` and `MaxYear = 0` in the residual filter. -/
theorem jfFilterFromFilter_max_only (currentYear : Int) (f : AlbumFilterOptions)
    (hmax : f.MaxYear > 0) (hmin : f.MinYear = 0) :
    (jfFilterFromFilter currentYear f).1.YearRange = (1900, f.MaxYear) ∧
    (jfFilterFromFilter currentYear f).2.MinYear = 0 ∧
    (jfFilterFromFilter currentYear f).2.MaxYear = 0 := by
  cases hf : f.ExcludeUnfavorited <;> simp [jfFilterFromFilter, emptyFilter, hf, hmin, hmax]

theorem jfFilterFromFilter_max_only_witness :
    (jfFilterFromFilter 2026 ⟨true, 0, 1995, ["Jazz"]⟩).1.YearRange = (1900, 1995) ∧
    (jfFilterFromFilter 2026 ⟨true, 0, 1995, ["Jazz"]⟩).2.MinYear = 0 ∧
    (jfFilterFromFilter 2026 ⟨true, 0, 1995, ["Jazz"]⟩).2.MaxYear = 0 :=
  jfFilterFromFilter_max_only 2026 ⟨true, 0, 1995, ["Jazz"]⟩ (by decide) rfl

/-- C11: for every album filter with `MinYear > 0` and `MaxYear > 0`,
`jfFilterFromFilter` emits the provider year range `[MinYear, MaxYear]` as
given, whatever the relation between the two bounds, and leaves `MinYear = 0`
and `MaxYear = 0` in the residual filter. -/
theorem jfFilterFromFilter_both_years (currentYear : Int) (f : AlbumFilterOptions)
    (hmin : f.MinYear > 0) (hmax : f.MaxYear > 0) :
    (jfFilterFromFilter currentYear f).1.YearRange = (f.MinYear, f.MaxYear) ∧
    (jfFilterFromFilter currentYear f).2.MinYear = 0 ∧
    (jfFilterFromFilter currentYear f).2.MaxYear = 0 := by
  cases hf : f.ExcludeUnfavorited <;> simp [jfFilterFromFilter, emptyFilter, hf, hmin, hmax]

theorem jfFilterFromFilter_both_years_witness :
    (jfFilterFromFilter 2026 ⟨false, 2001, 1995, []⟩).1.YearRange = (2001, 1995) ∧
    (jfFilterFromFilter 2026 ⟨false, 2001, 1995, []⟩).2.MinYear = 0 ∧
    (jfFilterFromFilter 2026 ⟨false, 2001, 1995, []⟩).2.MaxYear = 0 :=
  jfFilterFromFilter_both_years 2026 ⟨false, 2001, 1995, []⟩ (by decide) (by decide)

/-- After a translation neither year of the residual filter is positive. -/
theorem jfFilterFromFilter_residual_years (currentYear : Int) (f : AlbumFilterOptions) :
    ¬ (jfFilterFromFilter currentYear f).2.MinYear > 0 ∧
    ¬ (jfFilterFromFilter currentYear f).2.MaxYear > 0 := by
  by_cases h1 : f.MinYear > 0 <;> by_cases h2 : f.MaxYear > 0 <;>
    cases hf : f.ExcludeUnfavorited <;>
    simp [jfFilterFromFilter, emptyFilter, hf, h1, h2]

/-- C12: re-translation is a no-op: for every album filter `f`, applying
`jfFilterFromFilter` to the residual filter that a first application on `f`
leaves returns that residual unchanged and emits the empty provider filter
(favorite flag false, no year range, no genres). -/
theorem jfFilterFromFilter_idempotent (currentYear currentYear2 : Int)
    (f : AlbumFilterOptions) :
    jfFilterFromFilter currentYear2 (jfFilterFromFilter currentYear f).2
      = (emptyFilter, (jfFilterFromFilter currentYear f).2) := by
  obtain ⟨h1, h2⟩ := jfFilterFromFilter_residual_years currentYear f
  have h3 : (jfFilterFromFilter currentYear f).2.ExcludeUnfavorited = false := by
    cases hf : f.ExcludeUnfavorited <;>
      by_cases g1 : f.MinYear > 0 <;> by_cases g2 : f.MaxYear > 0 <;>
      simp [jfFilterFromFilter, hf, g1, g2]
  have h4 : (jfFilterFromFilter currentYear f).2.Genres = [] := by
    cases hf : f.ExcludeUnfavorited <;>
      by_cases g1 : f.MinYear > 0 <;> by_cases g2 : f.MaxYear > 0 <;>
      simp [jfFilterFromFilter, hf, g1, g2]
  generalize (jfFilterFromFilter currentYear f).2 = r at h1 h2 h3 h4
  cases r with
  | mk eu mn mx gs =>
    simp only at h1 h2 h3 h4
    subst h3; subst h4
    simp [jfFilterFromFilter, emptyFilter, h1, h2]

/-- C13: for every album filter the provider filter has its favorite flag set
if and only if the input's `ExcludeUnfavorited` flag is set, and the residual
filter's `ExcludeUnfavorited` flag is false. -/
theorem jfFilterFromFilter_favorite (currentYear : Int) (f : AlbumFilterOptions) :
    ((jfFilterFromFilter currentYear f).1.Favorite = true ↔ f.ExcludeUnfavorited = true) ∧
    (jfFilterFromFilter currentYear f).2.ExcludeUnfavorited = false := by
  cases hf : f.ExcludeUnfavorited <;>
    by_cases g1 : f.MinYear > 0 <;> by_cases g2 : f.MaxYear > 0 <;>
    simp [jfFilterFromFilter, emptyFilter, hf, g1, g2]

/-- C14: for every album filter the provider filter carries exactly the
input's genre names, and the residual filter's genre set is empty. -/
theorem jfFilterFromFilter_genres (currentYear : Int) (f : AlbumFilterOptions) :
    (jfFilterFromFilter currentYear f).1.Genres = f.Genres ∧
    (jfFilterFromFilter currentYear f).2.Genres = [] := by
  cases hf : f.ExcludeUnfavorited <;>
    by_cases g1 : f.MinYear > 0 <;> by_cases g2 : f.MaxYear > 0 <;>
    simp [jfFilterFromFilter, emptyFilter, hf, g1, g2]

end jellyfin

namespace backend

/-! ## The login attempts of `connect` -/

/-- C15: a login attempt reports a "reached" signal if and only if its login
response has no error or has an error classified as an authentication error,
and then it forwards exactly the response's error (nil on success, the
authentication error on rejection) together with its own `val`; a response
with a non-authentication error reports nothing. -/
theorem pingFunc_reports (resp : LoginResponse) (val : Bool) :
    (pingFunc resp val = some (resp.Error, val)
      ↔ (resp.Error = none ∨ (resp.Error ≠ none ∧ resp.IsAuthError = true))) ∧
    (pingFunc resp val = none ↔ (resp.Error ≠ none ∧ resp.IsAuthError = false)) ∧
    (∀ err v, pingFunc resp val = some (err, v) → err = resp.Error ∧ v = val) := by
  obtain ⟨e, a⟩ := resp
  cases e <;> cases a <;> simp [pingFunc]

/-- In the concurrent part an attempt whose `Login` has returned runs as
`pingFunc` says: without a report it ends at once, with a report it stores
the response's error in `authError` and appends its `val` to `pingChan`. -/
theorem attempt_run (x : Race) (s : ConnState) (val : Bool) (readyAt : Nat)
    (hw : s.attempt val = .waiting readyAt) (hr : readyAt ≤ s.now) :
    (pingFunc (x.resp val) val = none →
      run x s [.login val] = some (s.setAttempt val .done)) ∧
    (pingFunc (x.resp val) val ≠ none →
      run x s [.login val, .write val, .send val]
        = some ({ s with authError := (x.resp val).Error,
                         pingChan := s.pingChan ++ [val] }.setAttempt val .done)) := by
  obtain ⟨h1, h2, h3⟩ := pingFunc_reports (x.resp val) val
  constructor
  · intro hn
    simp [run, step, hw, hr, hn]
  · intro hn
    have hs : pingFunc (x.resp val) val = some ((x.resp val).Error, val) := by
      cases hp : pingFunc (x.resp val) val with
      | none => exact absurd hp hn
      | some r =>
        obtain ⟨err, v⟩ := r
        obtain ⟨e1, e2⟩ := h3 err v hp
        rw [e1, e2]
    cases val <;>
      simp [run, step, hr, hs, ConnState.attempt, ConnState.setAttempt] at hw ⊢ <;>
      simp [hw, hr]

/-- C16, at the failing schedule: with the primary login accepted, the
alternate login rejected and both returning at the same time, `connect`
receives the primary's signal and returns the primary's client together with
the authentication error of the alternate (losing) attempt. -/
theorem connect_returns_loser_error :
    connect raceEnv raceConnection raceResp raceDur raceSchedule
      = some (some (Server.JellyfinServer "https://music.example.org" false),
          some (GoError.foreign "invalid credentials")) ∧
    (run ⟨Server.JellyfinServer "https://music.example.org" false,
          some (Server.JellyfinServer "http://192.168.1.10:8096" false), raceResp, raceDur⟩
        (initState raceConnection raceDur) (raceSchedule.take 7)).map (fun s => s.main)
      = some (Main.received false) ∧
    (raceResp false).Error = none := by
  decide

theorem initState_eq (connection : ServerConnection) (dur : Bool → Nat) :
    initState connection dur
      = { now := 0, authError := none, pingChan := [],
          primary := .waiting (0 + dur false),
          alt := if connection.AltHostname ≠ "" then .waiting (staggerMs + dur true)
            else .absent,
          main := .selecting } := by
  by_cases h : connection.AltHostname = "" <;>
    simp [initState, launches, startAttempt, List.find?, h]

/-- C18, as the code has it: for the Jellyfin server type, whenever client
construction succeeds, `connect` builds exactly one client when the alternate
hostname is empty and exactly two (one per hostname) when it is non-empty;
for every other server type it builds two clients, one per hostname field,
whatever the alternate hostname, and starts an attempt with the second one
only when the alternate hostname is non-empty. -/
theorem connectClients_count (env : Env) (connection : ServerConnection) :
    (connection.ServerType = ServerTypeJellyfin →
      (∀ r, connectClients env connection = .ok r →
        r.1.host = connection.Hostname ∧
        (connection.AltHostname = "" → numClients r = 1) ∧
        (connection.AltHostname ≠ "" →
          numClients r = 2 ∧ r.2.map Server.host = some connection.AltHostname)) ∧
      (env.NewClientError connection.Hostname = none →
        (connection.AltHostname ≠ "" → env.NewClientError connection.AltHostname = none) →
        ∃ r, connectClients env connection = .ok r)) ∧
    (connection.ServerType ≠ ServerTypeJellyfin →
      ∃ r, connectClients env connection = .ok r ∧ numClients r = 2 ∧
        r.1.host = connection.Hostname ∧
        r.2.map Server.host = some connection.AltHostname) ∧
    (connection.AltHostname = "" → ∀ dur, (initState connection dur).alt = .absent) := by
  refine ⟨?_, ?_, ?_⟩
  · intro hj
    constructor
    · intro r hr
      unfold connectClients at hr
      rw [if_pos hj] at hr
      cases h1 : env.NewClientError connection.Hostname with
      | some err => simp [h1] at hr
      | none =>
        by_cases ha : connection.AltHostname = ""
        · simp [h1, ha] at hr
          subst hr
          simp [numClients, Server.host, ha]
        · cases h2 : env.NewClientError connection.AltHostname with
          | some err => simp [h1, ha, h2] at hr
          | none =>
            simp [h1, ha, h2] at hr
            subst hr
            simp [numClients, Server.host, ha]
    · intro h1 h2
      by_cases ha : connection.AltHostname = ""
      · exact ⟨(Server.JellyfinServer connection.Hostname env.SkipSSLVerify, none),
          by simp [connectClients, hj, h1, ha]⟩
      · exact ⟨(Server.JellyfinServer connection.Hostname env.SkipSSLVerify,
            some (Server.JellyfinServer connection.AltHostname env.SkipSSLVerify)),
          by simp [connectClients, hj, h1, ha, h2 ha]⟩
  · intro hj
    exact ⟨(Server.SubsonicServer (env.appName ++ "/" ++ env.appVersion) connection.Hostname
          connection.Username connection.LegacyAuth env.resAppName env.SkipSSLVerify,
        some (Server.SubsonicServer (env.appName ++ "/" ++ env.appVersion)
          connection.AltHostname connection.Username connection.LegacyAuth env.resAppName
          env.SkipSSLVerify)),
      by simp [connectClients, hj], by simp [numClients], by simp [Server.host],
      by simp [Server.host]⟩
  · intro ha dur
    simp [initState_eq, ha]

/-- C18, as stated, fails: for a Subsonic connection without an alternate
hostname `connect` builds two clients, not one. -/
theorem connectClients_subsonic_two :
    subsonicConnection.AltHostname = "" ∧
    ∃ r, connectClients raceEnv subsonicConnection = .ok r ∧ numClients r = 2 ∧
      numClients r ≠ 1 :=
  ⟨rfl, _, rfl, rfl, by decide⟩

/-! ## Runs of the concurrent part -/

theorem run_invariant (x : Race) (Inv : ConnState → Prop)
    (hstep : ∀ s e s1, Inv s → step x s e = some s1 → Inv s1) :
    ∀ (schedule : List Event) (s s1 : ConnState),
      Inv s → run x s schedule = some s1 → Inv s1 := by
  intro schedule
  induction schedule with
  | nil =>
    intro s s1 hi hr
    simp only [run, Option.some.injEq] at hr
    exact hr ▸ hi
  | cons e rest ih =>
    intro s s1 hi hr
    simp only [run] at hr
    cases hs : step x s e with
    | none => simp [hs] at hr
    | some s2 =>
      rw [hs, Option.some_bind] at hr
      exact ih s2 s1 (hstep s e s2 hi hs) hr

/-- The steps of the attempts and of the clock leave `connect` where it is. -/
theorem step_main (x : Race) (s s1 : ConnState) (e : Event)
    (he : e ≠ .receive ∧ e ≠ .deadline ∧ e ≠ .ret) (hs : step x s e = some s1) :
    s1.main = s.main := by
  obtain ⟨now, ae, ch, p, a, m⟩ := s
  cases e with
  | advance t =>
    simp only [step] at hs
    split at hs
    · simp only [Option.some.injEq] at hs; subst hs; rfl
    · simp at hs
  | login val =>
    cases val
    · cases p <;> simp [step, ConnState.attempt, ConnState.setAttempt] at hs
      cases hp : pingFunc (x.resp false) false with
      | none => simp [hp] at hs; rw [← hs.2]
      | some r => simp [hp] at hs; rw [← hs.2]
    · cases a <;> simp [step, ConnState.attempt, ConnState.setAttempt] at hs
      cases hp : pingFunc (x.resp true) true with
      | none => simp [hp] at hs; rw [← hs.2]
      | some r => simp [hp] at hs; rw [← hs.2]
  | write val =>
    cases val
    · cases p <;> simp [step, ConnState.attempt, ConnState.setAttempt] at hs
      rw [← hs]
    · cases a <;> simp [step, ConnState.attempt, ConnState.setAttempt] at hs
      rw [← hs]
  | send val =>
    cases val
    · cases p <;> simp [step, ConnState.attempt, ConnState.setAttempt] at hs
      rw [← hs]
    · cases a <;> simp [step, ConnState.attempt, ConnState.setAttempt] at hs
      rw [← hs]
  | receive => exact absurd rfl he.1
  | deadline => exact absurd rfl he.2.1
  | ret => exact absurd rfl he.2.2

/-- Once `connect` has returned, no step changes what it returned. -/
theorem step_returned (x : Race) (s s1 : ConnState) (e : Event) (c : Option Server)
    (err : Option GoError) (hm : s.main = .returned c err) (hs : step x s e = some s1) :
    s1.main = .returned c err := by
  by_cases he : e ≠ .receive ∧ e ≠ .deadline ∧ e ≠ .ret
  · rw [step_main x s s1 e he hs, hm]
  · obtain ⟨now, ae, ch, p, a, m⟩ := s
    simp only at hm
    subst hm
    cases e <;> simp [step] at hs he

/-- An invariant kept by every step that happens without lag holds after
every run without lag. -/
theorem run_invariant_prompt (x : Race) (Inv : ConnState → Prop)
    (hstep : ∀ s e s1, Inv s → e.prompt s = true → step x s e = some s1 → Inv s1) :
    ∀ (schedule : List Event) (s s1 : ConnState),
      Inv s → promptRun x s schedule = true → run x s schedule = some s1 → Inv s1 := by
  intro schedule
  induction schedule with
  | nil =>
    intro s s1 hi _ hr
    simp only [run, Option.some.injEq] at hr
    exact hr ▸ hi
  | cons e rest ih =>
    intro s s1 hi hp hr
    simp only [run] at hr
    cases hs : step x s e with
    | none => simp [hs] at hr
    | some s2 =>
      rw [hs, Option.some_bind] at hr
      simp only [promptRun, hs, Bool.and_eq_true] at hp
      exact ih s2 s1 (hstep s e s2 hi hp.1 hs) hp.2 hr

/-- Steps whose `Login` returns fail without an authentication error keep the
channel empty. -/
theorem silent_step (x : Race) (s : ConnState) (e : Event) (s1 : ConnState)
    (hi : Silent s) (hl : ∀ val, e = .login val → pingFunc (x.resp val) val = none)
    (hs : step x s e = some s1) : Silent s1 := by
  rcases hi with h | ⟨hm, hch, hp, ha⟩
  · exact Or.inl (step_returned x s s1 e _ _ h hs)
  · obtain ⟨now, ae, ch, p, a, m⟩ := s
    simp only at hm hch hp ha
    subst hm; subst hch
    cases e with
    | advance t =>
      simp only [step] at hs
      split at hs
      · simp only [Option.some.injEq] at hs
        subst hs
        exact Or.inr ⟨rfl, rfl, hp, ha⟩
      · simp at hs
    | login val =>
      have hn := hl val rfl
      cases val
      · cases p <;> simp [step, ConnState.attempt, ConnState.setAttempt] at hs
        simp [hn] at hs
        rw [← hs.2]
        exact Or.inr ⟨rfl, rfl, rfl, ha⟩
      · cases a <;> simp [step, ConnState.attempt, ConnState.setAttempt] at hs
        simp [hn] at hs
        rw [← hs.2]
        exact Or.inr ⟨rfl, rfl, hp, rfl⟩
    | write val =>
      cases val
      · cases p <;> simp [step, ConnState.attempt, ConnState.setAttempt] at hs
        exact absurd hp (by simp [Attempt.idle])
      · cases a <;> simp [step, ConnState.attempt, ConnState.setAttempt] at hs
        exact absurd ha (by simp [Attempt.idle])
    | send val =>
      cases val
      · cases p <;> simp [step, ConnState.attempt, ConnState.setAttempt] at hs
        exact absurd hp (by simp [Attempt.idle])
      · cases a <;> simp [step, ConnState.attempt, ConnState.setAttempt] at hs
        exact absurd ha (by simp [Attempt.idle])
    | receive => simp [step] at hs
    | deadline =>
      simp only [step] at hs
      split at hs
      · simp only [Option.some.injEq] at hs
        subst hs
        exact Or.inl rfl
      · simp at hs
    | ret => simp [step] at hs

/-- A run in which every `Login` that returns has failed without an
authentication error keeps the channel empty. -/
theorem silent_run (x : Race) :
    ∀ (schedule : List Event) (s s1 : ConnState), Silent s →
      (∀ val, Event.login val ∈ schedule → pingFunc (x.resp val) val = none) →
      run x s schedule = some s1 → Silent s1 := by
  intro schedule
  induction schedule with
  | nil =>
    intro s s1 hi _ hr
    simp only [run, Option.some.injEq] at hr
    exact hr ▸ hi
  | cons e rest ih =>
    intro s s1 hi hl hr
    simp only [run] at hr
    cases hs : step x s e with
    | none => simp [hs] at hr
    | some s2 =>
      rw [hs, Option.some_bind] at hr
      have h2 := silent_step x s e s2 hi
        (fun val he => hl val (he ▸ List.mem_cons_self _ _)) hs
      exact ih s2 s1 h2 (fun val hv => hl val (List.mem_cons_of_mem _ hv)) hr

theorem silent_init (connection : ServerConnection) (dur : Bool → Nat) :
    Silent (initState connection dur) := by
  rw [initState_eq]
  refine Or.inr ⟨rfl, rfl, rfl, ?_⟩
  by_cases ha : connection.AltHostname = "" <;> simp [ha, Attempt.idle]

theorem noSignal_step (x : Race) (s : ConnState) (e : Event) (s1 : ConnState)
    (hi : NoSignal x s) (hpr : e.prompt s = true) (hs : step x s e = some s1) :
    NoSignal x s1 := by
  rcases hi with h | ⟨hm, hnow, hch, hp, ha⟩
  · exact Or.inl (step_returned x s s1 e _ _ h hs)
  · obtain ⟨now, ae, ch, p, a, m⟩ := s
    simp only at hm hch hnow hp ha
    subst hm; subst hch
    cases e with
    | advance t =>
      simp only [Event.prompt, ConnState.mainCanWait, List.isEmpty_nil, Bool.true_and,
        Bool.and_eq_true, decide_eq_true_eq] at hpr
      simp only [step] at hs
      split at hs
      · simp only [Option.some.injEq] at hs
        subst hs
        exact Or.inr ⟨rfl, hpr.2, rfl, hp, ha⟩
      · simp at hs
    | login val =>
      cases val
      · cases p <;> simp [step, ConnState.attempt, ConnState.setAttempt] at hs
        rename_i r
        simp only [Attempt.quiet] at hp
        have hn : pingFunc (x.resp false) false = none := by
          rcases hp with h | h
          · exact h
          · omega
        simp [hn] at hs
        rw [← hs.2]
        exact Or.inr ⟨rfl, hnow, rfl, trivial, ha⟩
      · cases a <;> simp [step, ConnState.attempt, ConnState.setAttempt] at hs
        rename_i r
        simp only [Attempt.quiet] at ha
        have hn : pingFunc (x.resp true) true = none := by
          rcases ha with h | h
          · exact h
          · omega
        simp [hn] at hs
        rw [← hs.2]
        exact Or.inr ⟨rfl, hnow, rfl, hp, trivial⟩
    | write val =>
      cases val
      · cases p <;> simp [step, ConnState.attempt, ConnState.setAttempt] at hs
        exact absurd hp (by simp [Attempt.quiet])
      · cases a <;> simp [step, ConnState.attempt, ConnState.setAttempt] at hs
        exact absurd ha (by simp [Attempt.quiet])
    | send val =>
      cases val
      · cases p <;> simp [step, ConnState.attempt, ConnState.setAttempt] at hs
        exact absurd hp (by simp [Attempt.quiet])
      · cases a <;> simp [step, ConnState.attempt, ConnState.setAttempt] at hs
        exact absurd ha (by simp [Attempt.quiet])
    | receive => simp [step] at hs
    | deadline =>
      simp only [step] at hs
      split at hs
      · simp only [Option.some.injEq] at hs
        subst hs
        exact Or.inl rfl
      · simp at hs
    | ret => simp [step] at hs

theorem noSignal_init (connection : ServerConnection) (x : Race)
    (hq : ∀ l ∈ launches connection,
      pingFunc (x.resp l.2) l.2 = none ∨ deadlineMs < l.1 + x.dur l.2) :
    NoSignal x (initState connection x.dur) := by
  rw [initState_eq]
  refine Or.inr ⟨rfl, Nat.zero_le _, rfl, ?_, ?_⟩
  · exact hq (0, false) (by simp [launches])
  · by_cases ha : connection.AltHostname = ""
    · simp [ha, Attempt.quiet]
    · simp only [ne_eq, ha, not_false_eq_true, if_true, Attempt.quiet]
      exact hq (staggerMs, true) (by simp [launches, ha])

/-- A schedule on which `connect` runs into the deadline, when no attempt can
report before it. -/
theorem noSignal_schedule (connection : ServerConnection) (x : Race)
    (hq : ∀ l ∈ launches connection,
      pingFunc (x.resp l.2) l.2 = none ∨ deadlineMs < l.1 + x.dur l.2) :
    ∃ schedule s, run x (initState connection x.dur) schedule = some s ∧
      promptRun x (initState connection x.dur) schedule = true ∧
      s.main = .returned none (some ErrUnreachable) := by
  rw [initState_eq]
  have hP := hq (0, false) (by simp [launches])
  simp only [Nat.zero_add] at hP ⊢
  by_cases hPl : deadlineMs < x.dur false
  · -- the primary login is still running at the deadline
    by_cases ha : connection.AltHostname = ""
    · refine ⟨[.advance deadlineMs, .deadline], ?_⟩
      simp [run, step, promptRun, Event.prompt, ha, Attempt.canWait, ConnState.mainCanWait, le_of_lt hPl]
    · have hA := hq (staggerMs, true) (by simp [launches, ha])
      simp only at hA
      by_cases hAl : deadlineMs < staggerMs + x.dur true
      · refine ⟨[.advance deadlineMs, .deadline], ?_⟩
        simp [run, step, promptRun, Event.prompt, ha, Attempt.canWait, ConnState.mainCanWait, le_of_lt hPl,
          le_of_lt hAl]
      · have hAn : pingFunc (x.resp true) true = none := by
          rcases hA with h | h
          · exact h
          · exact absurd h hAl
        have h1 : staggerMs + x.dur true ≤ deadlineMs := by omega
        have h2 : staggerMs + x.dur true ≤ x.dur false := by omega
        refine ⟨[.advance (staggerMs + x.dur true), .login true, .advance deadlineMs,
          .deadline], ?_⟩
        simp [run, step, promptRun, Event.prompt, ha, Attempt.canWait, ConnState.mainCanWait, ConnState.attempt,
          ConnState.setAttempt, hAn, h1, h2, le_of_lt hPl]
  · have hPn : pingFunc (x.resp false) false = none := by
      rcases hP with h | h
      · exact h
      · exact absurd h hPl
    have h0 : x.dur false ≤ deadlineMs := by omega
    by_cases ha : connection.AltHostname = ""
    · refine ⟨[.advance (x.dur false), .login false, .advance deadlineMs, .deadline], ?_⟩
      simp [run, step, promptRun, Event.prompt, ha, Attempt.canWait, ConnState.mainCanWait, ConnState.attempt,
        ConnState.setAttempt, hPn, h0]
    · have hA := hq (staggerMs, true) (by simp [launches, ha])
      simp only at hA
      by_cases hAl : deadlineMs < staggerMs + x.dur true
      · have h2 : x.dur false ≤ staggerMs + x.dur true := by omega
        refine ⟨[.advance (x.dur false), .login false, .advance deadlineMs, .deadline], ?_⟩
        simp [run, step, promptRun, Event.prompt, ha, Attempt.canWait, ConnState.mainCanWait, ConnState.attempt,
          ConnState.setAttempt, hPn, h0, h2, le_of_lt hAl]
      · have hAn : pingFunc (x.resp true) true = none := by
          rcases hA with h | h
          · exact h
          · exact absurd h hAl
        have h1 : staggerMs + x.dur true ≤ deadlineMs := by omega
        by_cases hord : x.dur false ≤ staggerMs + x.dur true
        · refine ⟨[.advance (x.dur false), .login false,
            .advance (staggerMs + x.dur true), .login true, .advance deadlineMs, .deadline], ?_⟩
          simp [run, step, promptRun, Event.prompt, ha, Attempt.canWait, ConnState.mainCanWait, ConnState.attempt,
            ConnState.setAttempt, hPn, hAn, h0, h1, hord]
        · have hord2 : staggerMs + x.dur true ≤ x.dur false := by omega
          refine ⟨[.advance (staggerMs + x.dur true), .login true,
            .advance (x.dur false), .login false, .advance deadlineMs, .deadline], ?_⟩
          simp [run, step, promptRun, Event.prompt, ha, Attempt.canWait, ConnState.mainCanWait, ConnState.attempt,
            ConnState.setAttempt, hPn, hAn, h0, h1, hord2]

/-- C17 (as amended): once both clients are built, if no login attempt
reports a "reached" signal (every attempt whose `Login` returns during the
run ends in a non-authentication error, the others are still in their
`Login`), `connect` returns no session and the error `ErrUnreachable`: on
every schedule on which it returns, and there is such a schedule. On the
schedules without lag an attempt whose `Login` returns after the 5-second
deadline counts as still running, and there is such a schedule too. -/
theorem connect_unreachable (env : Env) (connection : ServerConnection)
    (resp : Bool → LoginResponse) (dur : Bool → Nat) (cli : Server) (altCli : Option Server)
    (hc : connectClients env connection = .ok (cli, altCli)) :
    (∀ schedule r, connect env connection resp dur schedule = some r →
      (∀ val, Event.login val ∈ schedule → pingFunc (resp val) val = none) →
      r = (none, some ErrUnreachable)) ∧
    (∃ schedule, (∀ val, Event.login val ∉ schedule) ∧
      connect env connection resp dur schedule = some (none, some ErrUnreachable)) ∧
    ((∀ l ∈ launches connection,
        pingFunc (resp l.2) l.2 = none ∨ deadlineMs < l.1 + dur l.2) →
      (∀ schedule r, connect env connection resp dur schedule = some r →
        promptRun ⟨cli, altCli, resp, dur⟩ (initState connection dur) schedule = true →
        r = (none, some ErrUnreachable)) ∧
      (∃ schedule,
        promptRun ⟨cli, altCli, resp, dur⟩ (initState connection dur) schedule = true ∧
        connect env connection resp dur schedule = some (none, some ErrUnreachable))) := by
  refine ⟨?_, ?_, ?_⟩
  · intro schedule r hr hl
    simp only [connect, hc] at hr
    cases hrun : run ⟨cli, altCli, resp, dur⟩ (initState connection dur) schedule with
    | none => simp [hrun] at hr
    | some s =>
      have hinv := silent_run ⟨cli, altCli, resp, dur⟩ schedule _ s
        (silent_init connection dur) hl hrun
      rw [hrun] at hr
      rcases hinv with h | h
      · simp only [h, Option.some.injEq] at hr
        exact hr.symm
      · simp [h.1] at hr
  · refine ⟨[.advance deadlineMs, .deadline], by simp, ?_⟩
    simp only [connect, hc, initState_eq]
    simp [run, step]
  · intro hq
    constructor
    · intro schedule r hr hpr
      simp only [connect, hc] at hr
      cases hrun : run ⟨cli, altCli, resp, dur⟩ (initState connection dur) schedule with
      | none => simp [hrun] at hr
      | some s =>
        have hinv := run_invariant_prompt ⟨cli, altCli, resp, dur⟩
          (NoSignal ⟨cli, altCli, resp, dur⟩) (noSignal_step _) schedule _ s
          (noSignal_init connection ⟨cli, altCli, resp, dur⟩ hq) hpr hrun
        rw [hrun] at hr
        rcases hinv with h | h
        · simp only [h, Option.some.injEq] at hr
          exact hr.symm
        · simp [h.1] at hr
    · obtain ⟨schedule, s, hrun, hpr, hm⟩ :=
        noSignal_schedule connection ⟨cli, altCli, resp, dur⟩ hq
      refine ⟨schedule, hpr, ?_⟩
      simp only [connect, hc, hrun, hm]

theorem connect_unreachable_witness :
    connectClients raceEnv raceConnection
      = .ok (Server.JellyfinServer "https://music.example.org" false,
          some (Server.JellyfinServer "http://192.168.1.10:8096" false)) ∧
    connect raceEnv raceConnection refusedResp (fun _ => 20)
        [.advance 20, .login false, .advance 353, .login true, .advance 5000, .deadline]
      = some (none, some ErrUnreachable) ∧
    (∀ schedule r, connect raceEnv raceConnection refusedResp (fun _ => 20) schedule = some r →
      (∀ val, Event.login val ∈ schedule → pingFunc (refusedResp val) val = none) →
      r = (none, some ErrUnreachable)) ∧
    (∃ schedule, (∀ val, Event.login val ∉ schedule) ∧
      connect raceEnv raceConnection refusedResp (fun _ => 20) schedule
        = some (none, some ErrUnreachable)) ∧
    (∀ schedule r, connect raceEnv raceConnection refusedResp (fun _ => 20) schedule = some r →
      promptRun ⟨Server.JellyfinServer "https://music.example.org" false,
          some (Server.JellyfinServer "http://192.168.1.10:8096" false), refusedResp,
          fun _ => 20⟩ (initState raceConnection (fun _ => 20)) schedule = true →
      r = (none, some ErrUnreachable)) ∧
    (∃ schedule,
      promptRun ⟨Server.JellyfinServer "https://music.example.org" false,
          some (Server.JellyfinServer "http://192.168.1.10:8096" false), refusedResp,
          fun _ => 20⟩ (initState raceConnection (fun _ => 20)) schedule = true ∧
      connect raceEnv raceConnection refusedResp (fun _ => 20) schedule
        = some (none, some ErrUnreachable)) :=
  have hw := connect_unreachable raceEnv raceConnection refusedResp (fun _ => 20)
    (Server.JellyfinServer "https://music.example.org" false)
    (some (Server.JellyfinServer "http://192.168.1.10:8096" false)) rfl
  ⟨rfl, by decide, hw.1, hw.2.1, (hw.2.2 (by decide)).1, (hw.2.2 (by decide)).2⟩

/-- C17 (counterexample): every login fails with a network error, so no
attempt can report, but no Jellyfin client can be constructed: on every
schedule `connect` returns the construction error, not `ErrUnreachable`.
And with both clients built and both logins still running when the 5 seconds
are over (they take 5001 ms), the primary attempt reports before `connect`
has taken the deadline case, and `connect` returns the primary's session. -/
theorem connect_client_error_not_unreachable :
    (∀ val, pingFunc (refusedResp val) val = none) ∧
    connect failingEnv raceConnection refusedResp (fun _ => 20) [.advance 5000, .deadline]
      = some (none, some (GoError.foreign "invalid URL")) ∧
    (∀ schedule, connect failingEnv raceConnection refusedResp (fun _ => 20) schedule
      = some (none, some (GoError.foreign "invalid URL"))) ∧
    GoError.foreign "invalid URL" ≠ ErrUnreachable ∧
    (∀ l ∈ launches raceConnection, deadlineMs < l.1 + (fun _ => 5001) l.2) ∧
    connect raceEnv raceConnection acceptResp (fun _ => 5001)
        [.advance 5001, .login false, .write false, .send false, .receive, .ret]
      = some (some (Server.JellyfinServer "https://music.example.org" false), none) := by
  refine ⟨by decide, by decide, fun schedule => rfl, by decide, by decide, by decide⟩

theorem primaryAhead_step (x : Race) (tP tA : Nat)
    (hP : pingFunc (x.resp false) false = some ((x.resp false).Error, false))
    (hlt : tP < tA) (hd : tP < deadlineMs) (s : ConnState) (e : Event) (s1 : ConnState)
    (hi : PrimaryAhead x tP tA s) (hpr : e.prompt s = true) (hs : step x s e = some s1) :
    PrimaryAhead x tP tA s1 := by
  rcases hi with h | ⟨hnow, halt, hcase⟩
  · exact Or.inl (step_returned x s s1 e _ _ h hs)
  · obtain ⟨now, ae, ch, p, a, m⟩ := s
    simp only at hnow halt hcase
    rcases hcase with ⟨hm, hch, hp⟩ | ⟨hm, hch, hp⟩ | ⟨hm, hch, hp, hae⟩ | ⟨hm, hch, hp, hae⟩ |
      ⟨hm, hp, hae⟩
    · -- the primary `Login` has not returned
      subst hm; subst hch; subst hp
      cases e with
      | advance t =>
        simp only [Event.prompt, Attempt.canWait, Bool.and_eq_true, decide_eq_true_eq] at hpr
        simp only [step] at hs
        split at hs
        · simp only [Option.some.injEq] at hs
          subst hs
          exact Or.inr ⟨hpr.1.1, halt, Or.inl ⟨rfl, rfl, rfl⟩⟩
        · simp at hs
      | login val =>
        cases val
        · simp [step, ConnState.attempt, ConnState.setAttempt, hP] at hs
          rw [← hs.2]
          exact Or.inr ⟨hnow, halt, Or.inr (Or.inl ⟨rfl, rfl, rfl⟩)⟩
        · rcases halt with h | h <;> subst h <;>
            simp [step, ConnState.attempt, ConnState.setAttempt] at hs
          omega
      | write val =>
        cases val
        · simp [step, ConnState.attempt] at hs
        · rcases halt with h | h <;> subst h <;> simp [step, ConnState.attempt] at hs
      | send val =>
        cases val
        · simp [step, ConnState.attempt] at hs
        · rcases halt with h | h <;> subst h <;> simp [step, ConnState.attempt] at hs
      | receive => simp [step] at hs
      | deadline =>
        simp [step] at hs
        omega
      | ret => simp [step] at hs
    · -- the primary attempt is about to store its outcome
      subst hm; subst hch; subst hp
      cases e with
      | advance t => simp [Event.prompt, Attempt.canWait] at hpr
      | login val =>
        cases val
        · simp [step, ConnState.attempt] at hs
        · rcases halt with h | h <;> subst h <;>
            simp [step, ConnState.attempt, ConnState.setAttempt] at hs
          omega
      | write val =>
        cases val
        · simp [step, ConnState.attempt, ConnState.setAttempt] at hs
          rw [← hs]
          exact Or.inr ⟨hnow, halt, Or.inr (Or.inr (Or.inl ⟨rfl, rfl, rfl, rfl⟩))⟩
        · rcases halt with h | h <;> subst h <;> simp [step, ConnState.attempt] at hs
      | send val =>
        cases val
        · simp [step, ConnState.attempt] at hs
        · rcases halt with h | h <;> subst h <;> simp [step, ConnState.attempt] at hs
      | receive => simp [step] at hs
      | deadline =>
        simp [step] at hs
        omega
      | ret => simp [step] at hs
    · -- the primary attempt is about to signal
      subst hm; subst hch; subst hp; subst hae
      cases e with
      | advance t => simp [Event.prompt, Attempt.canWait] at hpr
      | login val =>
        cases val
        · simp [step, ConnState.attempt] at hs
        · rcases halt with h | h <;> subst h <;>
            simp [step, ConnState.attempt, ConnState.setAttempt] at hs
          omega
      | write val =>
        cases val
        · simp [step, ConnState.attempt] at hs
        · rcases halt with h | h <;> subst h <;> simp [step, ConnState.attempt] at hs
      | send val =>
        cases val
        · simp [step, ConnState.attempt, ConnState.setAttempt] at hs
          rw [← hs]
          exact Or.inr ⟨hnow, halt, Or.inr (Or.inr (Or.inr (Or.inl ⟨rfl, rfl, rfl, rfl⟩)))⟩
        · rcases halt with h | h <;> subst h <;> simp [step, ConnState.attempt] at hs
      | receive => simp [step] at hs
      | deadline =>
        simp [step] at hs
        omega
      | ret => simp [step] at hs
    · -- the primary signal is in the channel
      subst hm; subst hch; subst hp; subst hae
      cases e with
      | advance t => simp [Event.prompt, ConnState.mainCanWait] at hpr
      | login val =>
        cases val
        · simp [step, ConnState.attempt] at hs
        · rcases halt with h | h <;> subst h <;>
            simp [step, ConnState.attempt, ConnState.setAttempt] at hs
          omega
      | write val =>
        cases val
        · simp [step, ConnState.attempt] at hs
        · rcases halt with h | h <;> subst h <;> simp [step, ConnState.attempt] at hs
      | send val =>
        cases val
        · simp [step, ConnState.attempt] at hs
        · rcases halt with h | h <;> subst h <;> simp [step, ConnState.attempt] at hs
      | receive =>
        simp [step] at hs
        rw [← hs]
        exact Or.inr ⟨hnow, halt, Or.inr (Or.inr (Or.inr (Or.inr ⟨rfl, rfl, rfl⟩)))⟩
      | deadline =>
        simp [step] at hs
        omega
      | ret => simp [step] at hs
    · -- `connect` has received the primary signal
      subst hm; subst hp; subst hae
      cases e with
      | advance t => simp [Event.prompt, ConnState.mainCanWait] at hpr
      | login val =>
        cases val
        · simp [step, ConnState.attempt] at hs
        · rcases halt with h | h <;> subst h <;>
            simp [step, ConnState.attempt, ConnState.setAttempt] at hs
          omega
      | write val =>
        cases val
        · simp [step, ConnState.attempt] at hs
        · rcases halt with h | h <;> subst h <;> simp [step, ConnState.attempt] at hs
      | send val =>
        cases val
        · simp [step, ConnState.attempt] at hs
        · rcases halt with h | h <;> subst h <;> simp [step, ConnState.attempt] at hs
      | receive => simp [step] at hs
      | deadline => simp [step] at hs
      | ret =>
        simp [step] at hs
        rw [← hs]
        exact Or.inl rfl

/-- C19 (as amended): once both clients are built, `connect` starts the
primary attempt with delay 0 and an alternate attempt, delayed by the 333 ms
stagger, if and only if the alternate hostname is non-empty; consequently,
when the primary host is reached before the deadline and its login takes no
longer than the alternate's, `connect` returns the primary's session with the
primary's outcome on every schedule without lag on which it returns, and
there is such a schedule. -/
theorem connect_primary_head_start (env : Env) (connection : ServerConnection)
    (resp : Bool → LoginResponse) (dur : Bool → Nat) (cli : Server) (altCli : Option Server)
    (hc : connectClients env connection = .ok (cli, altCli))
    (hP : pingFunc (resp false) false ≠ none)
    (hdur : dur false ≤ dur true) (hin : dur false < deadlineMs) :
    launches connection
      = (0, false) :: (if connection.AltHostname ≠ "" then [(333, true)] else []) ∧
    (initState connection dur).primary = .waiting (0 + dur false) ∧
    (initState connection dur).alt
      = (if connection.AltHostname ≠ "" then .waiting (333 + dur true) else .absent) ∧
    (∀ schedule r, connect env connection resp dur schedule = some r →
      promptRun ⟨cli, altCli, resp, dur⟩ (initState connection dur) schedule = true →
      r = (some cli, (resp false).Error)) ∧
    (∃ schedule,
      promptRun ⟨cli, altCli, resp, dur⟩ (initState connection dur) schedule = true ∧
      connect env connection resp dur schedule = some (some cli, (resp false).Error)) := by
  have hs : pingFunc (resp false) false = some ((resp false).Error, false) := by
    obtain ⟨_, _, h3⟩ := pingFunc_reports (resp false) false
    cases hp : pingFunc (resp false) false with
    | none => exact absurd hp hP
    | some r =>
      obtain ⟨err, v⟩ := r
      obtain ⟨e1, e2⟩ := h3 err v hp
      rw [e1, e2]
  have hinit : PrimaryAhead ⟨cli, altCli, resp, dur⟩ (0 + dur false) (staggerMs + dur true)
      (initState connection dur) := by
    rw [initState_eq]
    refine Or.inr ⟨Nat.zero_le _, ?_, Or.inl ⟨rfl, rfl, rfl⟩⟩
    by_cases ha : connection.AltHostname = "" <;> simp [ha]
  refine ⟨rfl, by rw [initState_eq], by rw [initState_eq]; rfl, ?_, ?_⟩
  · intro schedule r hr hpr
    simp only [connect, hc] at hr
    cases hrun : run ⟨cli, altCli, resp, dur⟩ (initState connection dur) schedule with
    | none => simp [hrun] at hr
    | some s =>
      have hinv := run_invariant_prompt ⟨cli, altCli, resp, dur⟩
        (PrimaryAhead ⟨cli, altCli, resp, dur⟩ (0 + dur false) (staggerMs + dur true))
        (primaryAhead_step _ _ _ hs (by simp only [staggerMs]; omega) (by omega))
        schedule _ s hinit hpr hrun
      rw [hrun] at hr
      rcases hinv with h | ⟨_, _, h | h | h | h | h⟩
      · simp only [h, Option.some.injEq] at hr
        exact hr.symm
      all_goals simp [h.1] at hr
  · refine ⟨[.advance (dur false), .login false, .write false, .send false, .receive, .ret], ?_⟩
    have hle : dur false ≤ deadlineMs := by omega
    have hle2 : dur false ≤ staggerMs + dur true := by omega
    simp only [connect, hc, initState_eq]
    by_cases ha : connection.AltHostname = "" <;>
      simp [run, step, promptRun, Event.prompt, ha, Attempt.canWait, ConnState.mainCanWait,
        ConnState.attempt, ConnState.setAttempt, hs, hle, hle2]

theorem connect_primary_head_start_witness :
    pingFunc (acceptResp false) false ≠ none ∧
    (launches raceConnection
      = (0, false) :: (if raceConnection.AltHostname ≠ "" then [(333, true)] else []) ∧
    (initState raceConnection (fun _ => 50)).primary = .waiting (0 + (fun _ => 50) false) ∧
    (initState raceConnection (fun _ => 50)).alt
      = (if raceConnection.AltHostname ≠ "" then .waiting (333 + (fun _ => 50) true)
          else .absent) ∧
    (∀ schedule r, connect raceEnv raceConnection acceptResp (fun _ => 50) schedule = some r →
      promptRun ⟨Server.JellyfinServer "https://music.example.org" false,
          some (Server.JellyfinServer "http://192.168.1.10:8096" false), acceptResp,
          fun _ => 50⟩ (initState raceConnection (fun _ => 50)) schedule = true →
      r = (some (Server.JellyfinServer "https://music.example.org" false),
        (acceptResp false).Error)) ∧
    (∃ schedule,
      promptRun ⟨Server.JellyfinServer "https://music.example.org" false,
          some (Server.JellyfinServer "http://192.168.1.10:8096" false), acceptResp,
          fun _ => 50⟩ (initState raceConnection (fun _ => 50)) schedule = true ∧
      connect raceEnv raceConnection acceptResp (fun _ => 50) schedule
        = some (some (Server.JellyfinServer "https://music.example.org" false),
            (acceptResp false).Error))) :=
  ⟨by decide,
    connect_primary_head_start raceEnv raceConnection acceptResp (fun _ => 50)
      (Server.JellyfinServer "https://music.example.org" false)
      (some (Server.JellyfinServer "http://192.168.1.10:8096" false)) rfl (by decide)
      (by decide) (by decide)⟩

/-- C19 (counterexample): both hosts accept the login and both logins take
50 ms, so the primary `Login` returns at 50 ms and the alternate one at
383 ms. The primary goroutine is not run in between; the alternate attempt
signals first and `connect` returns the alternate's session. The schedule
has a lag: time moves on while the primary attempt has a statement ready.
And when no Jellyfin client can be constructed, `connect` returns the
construction error on every schedule: no attempt is started. -/
theorem connect_alternate_overtakes :
    connectClients raceEnv raceConnection
      = .ok (Server.JellyfinServer "https://music.example.org" false,
          some (Server.JellyfinServer "http://192.168.1.10:8096" false)) ∧
    pingFunc (acceptResp false) false ≠ none ∧ pingFunc (acceptResp true) true ≠ none ∧
    connect raceEnv raceConnection acceptResp (fun _ => 50) lagSchedule
      = some (some (Server.JellyfinServer "http://192.168.1.10:8096" false), none) ∧
    promptRun ⟨Server.JellyfinServer "https://music.example.org" false,
        some (Server.JellyfinServer "http://192.168.1.10:8096" false), acceptResp,
        fun _ => 50⟩ (initState raceConnection (fun _ => 50)) lagSchedule = false ∧
    (∀ schedule, connect failingEnv raceConnection acceptResp (fun _ => 50) schedule
      = some (none, some (GoError.foreign "invalid URL"))) := by
  refine ⟨rfl, by decide, by decide, by decide, by decide, fun schedule => rfl⟩

end backend

namespace helpers

theorem take_append_drop_length {α : Type} (l : List α) (p : Nat) :
    l.take p ++ l.drop (l.take p).length = l := by
  rw [List.length_take]
  by_cases h : p ≤ l.length
  · rw [Nat.min_eq_left h, List.take_append_drop]
  · have h1 : l.length ≤ p := by omega
    rw [Nat.min_eq_right h1, List.take_of_length_le h1, List.drop_of_length_le (le_refl _),
      List.append_nil]

theorem next_pagesOf {ε α : Type} (dataset : List α) (pageSize count : Nat)
    (hp : 0 < pageSize) (hc : 0 < count) (it : CatalogIterator α)
    (hi : CatalogIterator.Inv dataset pageSize it) :
    ∃ items it1,
      it.next (pagesOf (ε := ε) dataset) pageSize count = (.ok items, it1) ∧
      items ++ it1.remaining dataset = it.remaining dataset ∧
      CatalogIterator.Inv dataset pageSize it1 ∧
      (items = [] → it.remaining dataset = [] ∧
        it1 = ⟨[], dataset.length, true, fullLog dataset.length pageSize⟩) := by
  obtain ⟨buffer, offset, exhausted, fetches⟩ := it
  by_cases hb : buffer.length < count
  · rcases hi with ⟨hex, k, hk, hle, hf⟩ | ⟨hex, hoff, hf⟩
    · -- one more page is fetched
      simp only at hex hk hle hf
      subst hex; subst hk; subst hf
      have hpl : ((dataset.drop (k * pageSize)).take pageSize).length
          = min pageSize (dataset.length - k * pageSize) := by
        rw [List.length_take, List.length_drop]
      have hnext : CatalogIterator.next (pagesOf (ε := ε) dataset) pageSize count
            ⟨buffer, k * pageSize, false, (List.range k).map fun i => (i * pageSize, pageSize)⟩
          = (.ok ((buffer ++ (dataset.drop (k * pageSize)).take pageSize).take count),
              ⟨(buffer ++ (dataset.drop (k * pageSize)).take pageSize).drop count,
                k * pageSize + ((dataset.drop (k * pageSize)).take pageSize).length,
                decide (((dataset.drop (k * pageSize)).take pageSize).length < pageSize),
                ((List.range k).map fun i => (i * pageSize, pageSize))
                  ++ [(k * pageSize, pageSize)]⟩) := by
        simp [CatalogIterator.next, pagesOf, hb]
      have hlog : ((List.range k).map fun i => (i * pageSize, pageSize))
            ++ [(k * pageSize, pageSize)]
          = (List.range (k + 1)).map fun i => (i * pageSize, pageSize) := by
        rw [List.range_succ, List.map_append]
        rfl
      have hinv : CatalogIterator.Inv dataset pageSize
          ⟨(buffer ++ (dataset.drop (k * pageSize)).take pageSize).drop count,
            k * pageSize + ((dataset.drop (k * pageSize)).take pageSize).length,
            decide (((dataset.drop (k * pageSize)).take pageSize).length < pageSize),
            ((List.range k).map fun i => (i * pageSize, pageSize))
              ++ [(k * pageSize, pageSize)]⟩ := by
        by_cases hshort : ((dataset.drop (k * pageSize)).take pageSize).length < pageSize
        · refine Or.inr ⟨decide_eq_true hshort, ?_, ?_⟩
          · show k * pageSize + ((dataset.drop (k * pageSize)).take pageSize).length
              = dataset.length
            omega
          · have hdiv : dataset.length / pageSize = k :=
              Nat.div_eq_of_lt_le hle (by rw [Nat.succ_mul]; omega)
            simp only [fullLog, hdiv, hlog]
        · refine Or.inl ⟨decide_eq_false hshort, k + 1, ?_, ?_, ?_⟩
          · show k * pageSize + ((dataset.drop (k * pageSize)).take pageSize).length
              = (k + 1) * pageSize
            rw [Nat.succ_mul]
            omega
          · rw [Nat.succ_mul]
            omega
          · exact hlog
      refine ⟨_, _, hnext, ?_, hinv, ?_⟩
      · simp only [CatalogIterator.remaining]
        rw [← List.append_assoc, List.take_append_drop, List.append_assoc, ← List.drop_drop,
          take_append_drop_length]
      · intro h
        have hall : buffer ++ (dataset.drop (k * pageSize)).take pageSize = [] := by
          rcases List.take_eq_nil_iff.1 h with h0 | h0
          · omega
          · exact h0
        have hbn : buffer = [] := (List.append_eq_nil.1 hall).1
        have hpn : (dataset.drop (k * pageSize)).take pageSize = [] :=
          (List.append_eq_nil.1 hall).2
        have hp0 : ((dataset.drop (k * pageSize)).take pageSize).length = 0 := by
          rw [hpn]; rfl
        have hdl : dataset.length - k * pageSize = 0 := by
          rw [hpl] at hp0
          omega
        have hdn : dataset.drop (k * pageSize) = [] :=
          List.drop_eq_nil_iff.2 (by omega)
        have hdiv : dataset.length / pageSize = k :=
          Nat.div_eq_of_lt_le hle (by rw [Nat.succ_mul]; omega)
        constructor
        · simp [CatalogIterator.remaining, hbn, hdn]
        · subst hbn
          simp only [hpn, List.append_nil, List.drop_nil, List.length_nil, Nat.add_zero, hp,
            decide_True, hlog, fullLog, hdiv]
          congr 1
          omega
    · -- exhausted: the rest of the buffer is served
      simp only at hex hoff hf
      subst hex; subst hoff; subst hf
      refine ⟨buffer, ⟨[], dataset.length, true, fullLog dataset.length pageSize⟩, ?_, ?_, ?_, ?_⟩
      · simp [CatalogIterator.next, List.take_of_length_le (le_of_lt hb),
          List.drop_of_length_le (le_of_lt hb)]
      · simp [CatalogIterator.remaining]
      · exact Or.inr ⟨rfl, rfl, rfl⟩
      · intro h
        subst h
        simp [CatalogIterator.remaining]
  · -- the buffer suffices
    have hb1 : count ≤ buffer.length := by omega
    refine ⟨buffer.take count, ⟨buffer.drop count, offset, exhausted, fetches⟩, ?_, ?_, ?_, ?_⟩
    · simp [CatalogIterator.next, hb]
    · simp only [CatalogIterator.remaining]
      rw [← List.append_assoc, List.take_append_drop]
    · exact hi
    · intro h
      have := congrArg List.length h
      simp only [List.length_take, List.length_nil] at this
      omega

/-- Enough calls of `next` return everything that is left of the dataset and
leave the iterator at its end, with one fetch per page in its log. -/
theorem drain_pagesOf {ε α : Type} (dataset : List α) (pageSize count : Nat)
    (hp : 0 < pageSize) (hc : 0 < count) :
    ∀ (fuel : Nat) (it : CatalogIterator α), CatalogIterator.Inv dataset pageSize it →
      (it.remaining dataset).length < fuel →
      CatalogIterator.drain (pagesOf (ε := ε) dataset) pageSize count fuel it
        = (it.remaining dataset, ⟨[], dataset.length, true, fullLog dataset.length pageSize⟩) := by
  intro fuel
  induction fuel with
  | zero => intro it _ h; omega
  | succ fuel ih =>
    intro it hi hlen
    obtain ⟨items, it1, hnext, hrem, hinv, hend⟩ :=
      next_pagesOf (ε := ε) dataset pageSize count hp hc it hi
    cases items with
    | nil =>
      obtain ⟨h1, h2⟩ := hend rfl
      simp only [CatalogIterator.drain, hnext, h1, h2]
    | cons a as =>
      have hl : (it1.remaining dataset).length < fuel := by
        have := congrArg List.length hrem
        simp only [List.length_append, List.length_cons] at this
        omega
      simp only [CatalogIterator.drain, hnext, ih it1 hinv hl, hrem]

theorem next_at_end {ε α : Type} (fetch : Nat → Nat → Except ε (List α))
    (pageSize count n : Nat) (log : List (Nat × Nat)) :
    CatalogIterator.next fetch pageSize count ⟨[], n, true, log⟩
      = (.ok [], ⟨[], n, true, log⟩) := by
  simp [CatalogIterator.next]

theorem pages_full_then_short {α : Type} (dataset : List α) (pageSize : Nat)
    (hp : 0 < pageSize) :
    (∀ i, i < dataset.length / pageSize →
      ((dataset.drop (i * pageSize)).take pageSize).length = pageSize) ∧
    ((dataset.drop (dataset.length / pageSize * pageSize)).take pageSize).length < pageSize := by
  have h1 := Nat.div_mul_le_self dataset.length pageSize
  have h2 := Nat.div_add_mod dataset.length pageSize
  have h3 := Nat.mod_lt dataset.length hp
  rw [Nat.mul_comm] at h2
  constructor
  · intro i hi
    have h4 : (i + 1) * pageSize ≤ dataset.length / pageSize * pageSize :=
      Nat.mul_le_mul_right pageSize hi
    rw [Nat.succ_mul] at h4
    rw [List.length_take, List.length_drop]
    omega
  · rw [List.length_take, List.length_drop]
    omega

end helpers

namespace jellyfin

theorem albumFetcher_pages {ε J A : Type} (GetAlbums : QueryOpts → Except ε (List J))
    (toAlbum : J → A) (jfSort : JfSort) (jfFilt : Filter) (dataset : List J)
    (hget : ∀ offs limit,
      GetAlbums ⟨jfSort, jfFilt, ⟨offs, limit⟩⟩ = .ok ((dataset.drop offs).take limit)) :
    albumFetcher GetAlbums toAlbum jfSort jfFilt = helpers.pagesOf (dataset.map toAlbum) := by
  funext offs limit
  simp [albumFetcher, hget, helpers.pagesOf, sharedutil.MapSlice, List.map_take, List.map_drop]

/-- C20: for every dataset, page size and request size (both positive), when
the client call behind the album iterator that `IterateAlbums` returns for a
non-random sort order serves the dataset in full pages until a final short
page, the concatenation of all results of `next` is the full dataset in
order (enough calls give it); the fetches issued are one per full page and
one for the short page, which is the last, and a call after the end returns
the end indication without another fetch. -/
theorem IterateAlbums_traversal {ε J A : Type} (GetAlbums : QueryOpts → Except ε (List J))
    (toAlbum : J → A) (currentYear : Int) (sortOrder : String) (filter : AlbumFilterOptions)
    (dataset : List J) (pageSize count : Nat) (hp : 0 < pageSize) (hc : 0 < count)
    (hsort : sortOrder ≠ AlbumSortRandom)
    (hget : ∀ offs limit,
      GetAlbums ⟨albumSort sortOrder, (jfFilterFromFilter currentYear filter).1, ⟨offs, limit⟩⟩
        = .ok ((dataset.drop offs).take limit)) :
    ∃ fetcher residual,
      IterateAlbums GetAlbums toAlbum currentYear sortOrder filter
        = .NewAlbumIterator fetcher residual ∧
      (∀ fuel, dataset.length < fuel →
        helpers.CatalogIterator.drain fetcher pageSize count fuel helpers.CatalogIterator.fresh
          = (dataset.map toAlbum,
              ⟨[], dataset.length, true, helpers.fullLog dataset.length pageSize⟩)) ∧
      helpers.CatalogIterator.next fetcher pageSize count
          ⟨[], dataset.length, true, helpers.fullLog dataset.length pageSize⟩
        = (.ok [], ⟨[], dataset.length, true, helpers.fullLog dataset.length pageSize⟩) ∧
      (∀ i, i < dataset.length / pageSize →
        ((dataset.drop (i * pageSize)).take pageSize).length = pageSize) ∧
      ((dataset.drop (dataset.length / pageSize * pageSize)).take pageSize).length
        < pageSize := by
  refine ⟨albumFetcher GetAlbums toAlbum (albumSort sortOrder)
      (jfFilterFromFilter currentYear filter).1, (jfFilterFromFilter currentYear filter).2,
    ?_, ?_, helpers.next_at_end _ _ _ _ _, helpers.pages_full_then_short dataset pageSize hp⟩
  · simp [IterateAlbums, hsort]
  · intro fuel hfuel
    rw [albumFetcher_pages GetAlbums toAlbum _ _ dataset hget]
    have hinit : helpers.CatalogIterator.Inv (dataset.map toAlbum) pageSize
        (helpers.CatalogIterator.fresh : helpers.CatalogIterator A) :=
      Or.inl ⟨rfl, 0, by simp [helpers.CatalogIterator.fresh], by simp, by simp [helpers.CatalogIterator.fresh]⟩
    have hrem : (helpers.CatalogIterator.fresh : helpers.CatalogIterator A).remaining
        (dataset.map toAlbum) = dataset.map toAlbum := by
      simp [helpers.CatalogIterator.remaining, helpers.CatalogIterator.fresh]
    have := helpers.drain_pagesOf (ε := ε) (dataset.map toAlbum) pageSize count hp hc fuel
      helpers.CatalogIterator.fresh hinit (by rw [hrem, List.length_map]; exact hfuel)
    rw [this, hrem, List.length_map]

theorem IterateAlbums_traversal_witness :
    ∃ fetcher residual,
      IterateAlbums (ε := String)
          (fun (q : QueryOpts) =>
            .ok (([10, 20, 30, 40, 50, 60, 70].drop q.Paging.StartIndex).take q.Paging.Limit))
          (fun (j : Nat) => j + 1) 2026 AlbumSortTitleAZ ⟨true, 2000, 0, ["Rock"]⟩
        = .NewAlbumIterator fetcher residual ∧
      (∀ fuel, [10, 20, 30, 40, 50, 60, 70].length < fuel →
        helpers.CatalogIterator.drain fetcher 3 2 fuel helpers.CatalogIterator.fresh
          = ([10, 20, 30, 40, 50, 60, 70].map (fun (j : Nat) => j + 1),
              ⟨[], [10, 20, 30, 40, 50, 60, 70].length, true,
                helpers.fullLog [10, 20, 30, 40, 50, 60, 70].length 3⟩)) ∧
      helpers.CatalogIterator.next fetcher 3 2
          ⟨[], [10, 20, 30, 40, 50, 60, 70].length, true,
            helpers.fullLog [10, 20, 30, 40, 50, 60, 70].length 3⟩
        = (.ok [], ⟨[], [10, 20, 30, 40, 50, 60, 70].length, true,
            helpers.fullLog [10, 20, 30, 40, 50, 60, 70].length 3⟩) ∧
      (∀ i, i < [10, 20, 30, 40, 50, 60, 70].length / 3 →
        (([10, 20, 30, 40, 50, 60, 70].drop (i * 3)).take 3).length = 3) ∧
      (([10, 20, 30, 40, 50, 60, 70].drop ([10, 20, 30, 40, 50, 60, 70].length / 3 * 3)).take
        3).length < 3 :=
  IterateAlbums_traversal (ε := String)
    (fun (q : QueryOpts) =>
      .ok (([10, 20, 30, 40, 50, 60, 70].drop q.Paging.StartIndex).take q.Paging.Limit))
    (fun (j : Nat) => j + 1) 2026 AlbumSortTitleAZ ⟨true, 2000, 0, ["Rock"]⟩
    [10, 20, 30, 40, 50, 60, 70] 3 2 (by decide) (by decide) (by decide) (fun _ _ => rfl)

end jellyfin

namespace sharedutil

/-! ## The state `ReorderTracks` leaves behind -/

/-- The second component of a run is `idxToMove` untouched for the partition
operations and `idxToMove` sorted for the two one-step operations. -/
theorem ReorderTracksRun_snd {α : Type} [Inhabited α] (tracks : List α) (idxToMove : List Int)
    (op : TrackReorderOp) (r : List α × List Int)
    (h : ReorderTracksRun tracks idxToMove op = some r) :
    r.2 = if op = .MoveToTop ∨ op = .MoveToBottom then idxToMove
      else idxToMove.insertionSort (· ≤ ·) := by
  cases op <;>
    simp only [ReorderTracksRun, Option.map_eq_some'] at h <;>
    obtain ⟨x, _, hx⟩ := h <;> subst hx <;> rfl

/-- Under the documented precondition every operation returns. -/
theorem ReorderTracks_returns {α : Type} [Inhabited α] (tracks : List α)
    (idxToMove : List Int) (op : TrackReorderOp)
    (h : ValidIdx tracks.length idxToMove) (hn : tracks.length < 9223372036854775808) :
    ∃ out, ReorderTracks tracks idxToMove op = some out := by
  cases op with
  | MoveToTop => exact ⟨_, moveToTop_run tracks idxToMove h⟩
  | MoveToBottom => exact ⟨_, moveToBottom_run tracks idxToMove h⟩
  | MoveUp => exact ⟨_, moveUp_run tracks idxToMove h hn⟩
  | MoveDown => exact ⟨_, moveDown_run tracks idxToMove h hn⟩

/-! ## ReorderTracks in memory -/

theorem concat_set_length {α : Type} (h : List α) (x y : α) :
    (h ++ [x]).set h.length y = h ++ [y] := by
  induction h with
  | nil => rfl
  | cons a t ih => simp [List.set, ih]

theorem heapGet_old {α : Type} (h : Heap α) (cur ts : List α) (a : Nat) (i : Int)
    (ha : h[a]? = some ts) : heapGet (h ++ [cur]) a i = sliceGet ts i := by
  have hlt : a < h.length := by
    by_contra hn
    rw [List.getElem?_eq_none (by omega)] at ha
    exact absurd ha (by simp)
  unfold heapGet
  rw [List.getElem?_append_left hlt, ha]
  rfl

theorem heapGet_new {α : Type} (h : Heap α) (cur : List α) (i : Int) :
    heapGet (h ++ [cur]) h.length i = sliceGet cur i := by
  unfold heapGet
  rw [List.getElem?_concat_length]
  rfl

theorem heapSet_new {α : Type} (h : Heap α) (cur : List α) (i : Int) (v : α) :
    heapSet (h ++ [cur]) h.length i v = (sliceSet cur i v).map fun c => h ++ [c] := by
  unfold heapSet
  rw [List.getElem?_concat_length]
  simp only [Option.some_bind, concat_set_length]

theorem heapSwap_new {α : Type} (h : Heap α) (cur : List α) (i j : Int) :
    heapSwap (h ++ [cur]) h.length i j = (sliceSwap cur i j).map fun c => h ++ [c] := by
  unfold heapSwap sliceSwap
  rw [heapGet_new, heapGet_new]
  cases sliceGet cur j with
  | none => rfl
  | some x =>
    cases sliceGet cur i with
    | none => rfl
    | some y =>
      simp only [Option.some_bind]
      rw [heapSet_new]
      cases sliceSet cur i x with
      | none => rfl
      | some c1 =>
        simp only [Option.map_some', Option.some_bind]
        rw [heapSet_new]

theorem memUpLoop_new {α : Type} (h : Heap α) (first : Int) (l : List Int) :
    ∀ cur : List α,
      memUpLoop first h.length l (h ++ [cur])
        = (moveUpLoop first l cur).map fun c => h ++ [c] := by
  induction l with
  | nil => intro cur; rfl
  | cons i rest ih =>
    intro cur
    simp only [memUpLoop, moveUpLoop]
    split
    · exact ih cur
    · rw [heapSwap_new]
      cases sliceSwap cur (wrapInt (i - 1)) i with
      | none => rfl
      | some c => simp only [Option.map_some', Option.some_bind]; exact ih c

theorem memDownLoop_new {α : Type} (h : Heap α) (last : Int) (l : List Int) :
    ∀ cur : List α,
      memDownLoop last h.length l (h ++ [cur])
        = (moveDownLoop last l cur).map fun c => h ++ [c] := by
  induction l with
  | nil => intro cur; rfl
  | cons i rest ih =>
    intro cur
    simp only [memDownLoop, moveDownLoop]
    split
    · exact ih cur
    · rw [heapSwap_new]
      cases sliceSwap cur (wrapInt (i + 1)) i with
      | none => rfl
      | some c => simp only [Option.map_some', Option.some_bind]; exact ih c

theorem memToTopLoop_new {α : Type} (q : Int → Bool) (h : Heap α) (tracks : Nat)
    (ts : List α) (ha : h[tracks]? = some ts) :
    ∀ (k i : Nat) (a b : Int) (cur : List α), i + k = ts.length →
      memToTopLoop q tracks h.length k i ⟨a, b, h ++ [cur]⟩
        = (moveToTopLoop q i (ts.drop i) ⟨a, b, cur⟩).map
            fun st => (⟨st.topIdx, st.botIdx, h ++ [st.newTracks]⟩ : MemCursors α) := by
  intro k
  induction k with
  | zero =>
    intro i a b cur hik
    rw [List.drop_of_length_le (by omega)]
    rfl
  | succ k ih =>
    intro i a b cur hik
    have hi : i < ts.length := by omega
    rw [List.drop_eq_getElem_cons hi]
    have hget : sliceGet ts (i : Int) = some ts[i] := by
      simp [sliceGet, List.getElem?_eq_getElem hi]
    simp only [memToTopLoop, moveToTopLoop, heapGet_old h cur ts tracks _ ha, hget,
      Option.some_bind]
    split
    · rw [heapSet_new]
      cases sliceSet cur a ts[i] with
      | none => rfl
      | some c =>
        simp only [Option.map_some', Option.some_bind]
        exact ih (i + 1) _ _ c (by omega)
    · rw [heapSet_new]
      cases sliceSet cur b ts[i] with
      | none => rfl
      | some c =>
        simp only [Option.map_some', Option.some_bind]
        exact ih (i + 1) _ _ c (by omega)

theorem memToBottomLoop_new {α : Type} (q : Int → Bool) (h : Heap α) (tracks : Nat)
    (ts : List α) (ha : h[tracks]? = some ts) :
    ∀ (k i : Nat) (a b : Int) (cur : List α), i + k = ts.length →
      memToBottomLoop q tracks h.length k i ⟨a, b, h ++ [cur]⟩
        = (moveToBottomLoop q i (ts.drop i) ⟨a, b, cur⟩).map
            fun st => (⟨st.topIdx, st.botIdx, h ++ [st.newTracks]⟩ : MemCursors α) := by
  intro k
  induction k with
  | zero =>
    intro i a b cur hik
    rw [List.drop_of_length_le (by omega)]
    rfl
  | succ k ih =>
    intro i a b cur hik
    have hi : i < ts.length := by omega
    rw [List.drop_eq_getElem_cons hi]
    have hget : sliceGet ts (i : Int) = some ts[i] := by
      simp [sliceGet, List.getElem?_eq_getElem hi]
    simp only [memToBottomLoop, moveToBottomLoop, heapGet_old h cur ts tracks _ ha, hget,
      Option.some_bind]
    split
    · rw [heapSet_new]
      cases sliceSet cur b ts[i] with
      | none => rfl
      | some c =>
        simp only [Option.map_some', Option.some_bind]
        exact ih (i + 1) _ _ c (by omega)
    · rw [heapSet_new]
      cases sliceSet cur a ts[i] with
      | none => rfl
      | some c =>
        simp only [Option.map_some', Option.some_bind]
        exact ih (i + 1) _ _ c (by omega)

theorem heapCopy_new {α : Type} [Inhabited α] (h : Heap α) (tracks : Nat) (ts : List α)
    (ha : h[tracks]? = some ts) :
    heapCopy (h ++ [List.replicate ts.length default]) h.length tracks = some (h ++ [ts]) := by
  have hlt : tracks < h.length := by
    by_contra hn
    rw [List.getElem?_eq_none (by omega)] at ha
    exact absurd ha (by simp)
  unfold heapCopy
  rw [List.getElem?_append_left hlt, ha, List.getElem?_concat_length]
  simp [concat_set_length]

/-- In memory, a call of `ReorderTracks` puts one new array behind the
existing ones, holding what `ReorderTracks` returns, and leaves `idxToMove` as
the run on values does; it panics exactly when the run on values does. -/
theorem ReorderTracksMem_run {α : Type} [Inhabited α] (h : Heap α) (tracks : Nat)
    (ts : List α) (idxToMove : List Int) (op : TrackReorderOp) (ha : h[tracks]? = some ts) :
    ReorderTracksMem h tracks idxToMove op
      = (ReorderTracksRun ts idxToMove op).map fun r => (h ++ [r.1], r.2, h.length) := by
  unfold ReorderTracksMem
  rw [ha]
  simp only [Option.some_bind]
  cases op with
  | MoveToTop =>
    simp only [ReorderTracksRun]
    rw [memToTopLoop_new _ h tracks ts ha ts.length 0 _ _ _ (by omega), List.drop_zero]
    cases moveToTopLoop (ToSet idxToMove) 0 ts
      ⟨0, (idxToMove.length : Int), List.replicate ts.length default⟩ <;> rfl
  | MoveToBottom =>
    simp only [ReorderTracksRun]
    rw [memToBottomLoop_new _ h tracks ts ha ts.length 0 _ _ _ (by omega), List.drop_zero]
    cases moveToBottomLoop (ToSet idxToMove) 0 ts
      ⟨0, (ts.length : Int) - (idxToMove.length : Int),
        List.replicate ts.length default⟩ <;> rfl
  | MoveUp =>
    simp only [ReorderTracksRun]
    rw [heapCopy_new h tracks ts ha]
    simp only [Option.some_bind]
    rw [memUpLoop_new]
    cases moveUpLoop (firstIdxCanMoveUp idxToMove).2 (firstIdxCanMoveUp idxToMove).1 ts <;> rfl
  | MoveDown =>
    simp only [ReorderTracksRun]
    rw [heapCopy_new h tracks ts ha]
    simp only [Option.some_bind]
    rw [memDownLoop_new]
    cases moveDownLoop (lastIdxCanMoveDown idxToMove (ts.length : Int)).2
      (lastIdxCanMoveDown idxToMove (ts.length : Int)).1.reverse ts <;> rfl

/-- C22 (as amended): under the documented precondition the call returns;
it leaves the input sequence, and every other track slice that existed
before, with the same elements in the same order, and puts the reordering
into a new slice, which it returns. It leaves `idxToMove` as it was for
`MoveToTop` and `MoveToBottom`, and sorted in ascending order for `MoveUp`
and `MoveDown`: the same values, in the same order as before exactly when the
list was sorted already. -/
theorem ReorderTracks_arguments_after {α : Type} [Inhabited α] (h : Heap α) (tracks : Nat)
    (ts : List α) (idxToMove : List Int) (op : TrackReorderOp)
    (ha : h[tracks]? = some ts) (hv : ValidIdx ts.length idxToMove)
    (hn : ts.length < 9223372036854775808) :
    ∃ h1 out,
      ReorderTracksMem h tracks idxToMove op = some (h1,
        (if op = .MoveToTop ∨ op = .MoveToBottom then idxToMove
          else idxToMove.insertionSort (· ≤ ·)), h.length) ∧
      ReorderTracks ts idxToMove op = some out ∧
      h1[tracks]? = some ts ∧
      (∀ a, a < h.length → h1[a]? = h[a]?) ∧
      h1.length = h.length + 1 ∧
      h1[h.length]? = some out ∧
      (idxToMove.insertionSort (· ≤ ·)).Perm idxToMove ∧
      (idxToMove.insertionSort (· ≤ ·) = idxToMove ↔ idxToMove.Sorted (· ≤ ·)) := by
  have hlt : tracks < h.length := by
    by_contra hnlt
    rw [List.getElem?_eq_none (by omega)] at ha
    exact absurd ha (by simp)
  obtain ⟨out, hout⟩ := ReorderTracks_returns ts idxToMove op hv hn
  have hout2 := hout
  unfold ReorderTracks at hout2
  obtain ⟨r, hr, hfst⟩ := Option.map_eq_some'.1 hout2
  have hsnd := ReorderTracksRun_snd ts idxToMove op r hr
  refine ⟨h ++ [out], out, ?_, hout, ?_, ?_, ?_, ?_, List.perm_insertionSort _ _, ?_⟩
  · rw [ReorderTracksMem_run h tracks ts idxToMove op ha, hr, ← hfst, ← hsnd]
    rfl
  · rw [List.getElem?_append_left hlt, ha]
  · intro a hal
    rw [List.getElem?_append_left hal]
  · simp
  · exact List.getElem?_concat_length _ _
  · constructor
    · intro e
      rw [← e]
      exact List.sorted_insertionSort _ _
    · intro hs
      exact List.Sorted.insertionSort_eq hs

theorem ReorderTracks_arguments_after_witness :
    ([["A", "B", "C"]] : Heap String)[0]? = some ["A", "B", "C"] ∧
    ValidIdx ["A", "B", "C"].length [2, 1] ∧
    ReorderTracksMem [["A", "B", "C"]] 0 [2, 1] .MoveUp
      = some ([["A", "B", "C"], ["B", "C", "A"]], [1, 2], 1) ∧
    ∃ h1 out,
      ReorderTracksMem ([["A", "B", "C"]] : Heap String) 0 [2, 1] .MoveUp = some (h1,
        (if TrackReorderOp.MoveUp = .MoveToTop ∨ TrackReorderOp.MoveUp = .MoveToBottom
          then ([2, 1] : List Int) else ([2, 1] : List Int).insertionSort (· ≤ ·)),
        ([["A", "B", "C"]] : Heap String).length) ∧
      ReorderTracks ["A", "B", "C"] [2, 1] .MoveUp = some out ∧
      h1[0]? = some ["A", "B", "C"] ∧
      (∀ a, a < ([["A", "B", "C"]] : Heap String).length →
        h1[a]? = ([["A", "B", "C"]] : Heap String)[a]?) ∧
      h1.length = ([["A", "B", "C"]] : Heap String).length + 1 ∧
      h1[([["A", "B", "C"]] : Heap String).length]? = some out ∧
      (([2, 1] : List Int).insertionSort (· ≤ ·)).Perm [2, 1] ∧
      (([2, 1] : List Int).insertionSort (· ≤ ·) = [2, 1] ↔
        ([2, 1] : List Int).Sorted (· ≤ ·)) :=
  ⟨rfl, by decide, by decide,
    ReorderTracks_arguments_after [["A", "B", "C"]] 0 ["A", "B", "C"] [2, 1] .MoveUp rfl
      (by decide) (by decide)⟩

/-- C22 (counterexample): `MoveUp` with the selection `[2, 1]` on a three
element slice returns with `idxToMove` holding `[1, 2]`: the caller's list
was reordered by the call. -/
theorem ReorderTracks_idxToMove_reordered :
    ValidIdx 3 [2, 1] ∧
    ReorderTracksRun ["A", "B", "C"] [2, 1] .MoveUp = some (["B", "C", "A"], [1, 2]) ∧
    ReorderTracksMem [["A", "B", "C"]] 0 [2, 1] .MoveUp
      = some ([["A", "B", "C"], ["B", "C", "A"]], [1, 2], 1) ∧
    ([1, 2] : List Int) ≠ [2, 1] := by
  refine ⟨by decide, by decide, by decide, by decide⟩

/-! ## ReorderMediaItems against ReorderTracks -/

theorem sliceGet_map {α β : Type} (f : α → β) (s : List α) (i : Int) :
    sliceGet (s.map f) i = (sliceGet s i).map f := by
  unfold sliceGet
  split <;> simp

theorem sliceSet_map {α β : Type} (f : α → β) (s : List α) (i : Int) (v : α) :
    sliceSet (s.map f) i (f v) = (sliceSet s i v).map (List.map f) := by
  unfold sliceSet
  by_cases h : 0 ≤ i ∧ i < (s.length : Int)
  · simp [h, List.map_set]
  · simp [h]

theorem sliceSwap_map {α β : Type} (f : α → β) (s : List α) (i j : Int) :
    sliceSwap (s.map f) i j = (sliceSwap s i j).map (List.map f) := by
  unfold sliceSwap
  rw [sliceGet_map, sliceGet_map]
  cases hj : sliceGet s j with
  | none => simp
  | some a =>
    cases hi : sliceGet s i with
    | none => simp
    | some b =>
      simp only [Option.map_some', Option.some_bind]
      rw [sliceSet_map]
      cases h1 : sliceSet s i a with
      | none => simp
      | some s1 =>
        simp only [Option.map_some', Option.some_bind]
        rw [sliceSet_map]

theorem itemsToTopLoop_map {α β : Type} (f : α → β) (q : Int → Bool) (ts : List α) :
    ∀ (i : Nat) (a b : Int) (nt : List α),
      itemsToTopLoop q i (ts.map f) ⟨a, b, nt.map f⟩
        = (moveToTopLoop q i ts ⟨a, b, nt⟩).map
            fun c => (⟨c.topIdx, c.botIdx, c.newTracks.map f⟩ : Cursors β) := by
  induction ts with
  | nil => intro i a b nt; simp [itemsToTopLoop, moveToTopLoop]
  | cons t rest ih =>
    intro i a b nt
    simp only [List.map_cons, itemsToTopLoop, moveToTopLoop]
    split
    · rw [sliceSet_map]
      cases h1 : sliceSet nt a t with
      | none => simp
      | some s1 => simp only [Option.map_some', Option.some_bind]; exact ih _ _ _ _
    · rw [sliceSet_map]
      cases h1 : sliceSet nt b t with
      | none => simp
      | some s1 => simp only [Option.map_some', Option.some_bind]; exact ih _ _ _ _

theorem itemsToBottomLoop_map {α β : Type} (f : α → β) (q : Int → Bool) (ts : List α) :
    ∀ (i : Nat) (a b : Int) (nt : List α),
      itemsToBottomLoop q i (ts.map f) ⟨a, b, nt.map f⟩
        = (moveToBottomLoop q i ts ⟨a, b, nt⟩).map
            fun c => (⟨c.topIdx, c.botIdx, c.newTracks.map f⟩ : Cursors β) := by
  induction ts with
  | nil => intro i a b nt; simp [itemsToBottomLoop, moveToBottomLoop]
  | cons t rest ih =>
    intro i a b nt
    simp only [List.map_cons, itemsToBottomLoop, moveToBottomLoop]
    split
    · rw [sliceSet_map]
      cases h1 : sliceSet nt b t with
      | none => simp
      | some s1 => simp only [Option.map_some', Option.some_bind]; exact ih _ _ _ _
    · rw [sliceSet_map]
      cases h1 : sliceSet nt a t with
      | none => simp
      | some s1 => simp only [Option.map_some', Option.some_bind]; exact ih _ _ _ _

theorem itemsUpLoop_map {α β : Type} (f : α → β) (first : Int) (l : List Int) :
    ∀ nt : List α,
      itemsUpLoop first l (nt.map f) = (moveUpLoop first l nt).map (List.map f) := by
  induction l with
  | nil => intro nt; simp [itemsUpLoop, moveUpLoop]
  | cons i rest ih =>
    intro nt
    simp only [itemsUpLoop, moveUpLoop]
    split
    · exact ih nt
    · rw [sliceSwap_map]
      cases h1 : sliceSwap nt (wrapInt (i - 1)) i with
      | none => simp
      | some s1 => simp only [Option.map_some', Option.some_bind]; exact ih s1

theorem itemsDownLoop_map {α β : Type} (f : α → β) (last : Int) (l : List Int) :
    ∀ nt : List α,
      itemsDownLoop last l (nt.map f) = (moveDownLoop last l nt).map (List.map f) := by
  induction l with
  | nil => intro nt; simp [itemsDownLoop, moveDownLoop]
  | cons i rest ih =>
    intro nt
    simp only [itemsDownLoop, moveDownLoop]
    split
    · exact ih nt
    · rw [sliceSwap_map]
      cases h1 : sliceSwap nt (wrapInt (i + 1)) i with
      | none => simp
      | some s1 => simp only [Option.map_some', Option.some_bind]; exact ih s1

/-- The run of `ReorderMediaItems` on the image of a slice is the image of
the run of `ReorderTracks`, for an element map that sends nil to nil. -/
theorem ReorderMediaItemsRun_map {α β : Type} [Inhabited α] [Inhabited β] (f : α → β)
    (hf : f default = default) (tracks : List α) (idxToMove : List Int) (op : TrackReorderOp) :
    ReorderMediaItemsRun (tracks.map f) idxToMove op
      = (ReorderTracksRun tracks idxToMove op).map fun r => (r.1.map f, r.2) := by
  have hrep : List.replicate tracks.length (default : β)
      = (List.replicate tracks.length (default : α)).map f := by
    simp [hf]
  cases op with
  | MoveToTop =>
    simp only [ReorderMediaItemsRun, ReorderTracksRun, List.length_map]
    rw [hrep, itemsToTopLoop_map]
    cases moveToTopLoop (ToSet idxToMove) 0 tracks
      ⟨0, (idxToMove.length : Int), List.replicate tracks.length default⟩ <;> rfl
  | MoveToBottom =>
    simp only [ReorderMediaItemsRun, ReorderTracksRun, List.length_map]
    rw [hrep, itemsToBottomLoop_map]
    cases moveToBottomLoop (ToSet idxToMove) 0 tracks
      ⟨0, (tracks.length : Int) - (idxToMove.length : Int),
        List.replicate tracks.length default⟩ <;> rfl
  | MoveUp =>
    simp only [ReorderMediaItemsRun, ReorderTracksRun]
    rw [itemsUpLoop_map]
    cases moveUpLoop (firstIdxCanMoveUp idxToMove).2 (firstIdxCanMoveUp idxToMove).1 tracks <;> rfl
  | MoveDown =>
    simp only [ReorderMediaItemsRun, ReorderTracksRun, List.length_map]
    rw [itemsDownLoop_map]
    cases moveDownLoop (lastIdxCanMoveDown idxToMove (tracks.length : Int)).2
      (lastIdxCanMoveDown idxToMove (tracks.length : Int)).1.reverse tracks <;> rfl

/-- C23: `ReorderMediaItems` is `ReorderTracks` up to the element type. For
every element map `f` that sends nil to nil, every slice, every `idxToMove`
and every operation, `ReorderMediaItems` on the image of the slice returns the
image of what `ReorderTracks` returns (so the element at each output position
comes from the same input position), panics exactly when `ReorderTracks`
does, and leaves `idxToMove` in the same state. -/
theorem ReorderMediaItems_eq_ReorderTracks {α β : Type} [Inhabited α] [Inhabited β]
    (f : α → β) (hf : f default = default) (tracks : List α) (idxToMove : List Int)
    (op : TrackReorderOp) :
    ReorderMediaItems (tracks.map f) idxToMove op
      = (ReorderTracks tracks idxToMove op).map (List.map f) ∧
    (ReorderMediaItemsRun (tracks.map f) idxToMove op).map Prod.snd
      = (ReorderTracksRun tracks idxToMove op).map Prod.snd := by
  unfold ReorderMediaItems ReorderTracks
  rw [ReorderMediaItemsRun_map f hf]
  cases ReorderTracksRun tracks idxToMove op <;> exact ⟨rfl, rfl⟩

theorem ReorderMediaItems_eq_ReorderTracks_witness :
    (fun n : Nat => 2 * n) default = default ∧
    (ReorderMediaItems ([5, 6, 7].map fun n : Nat => 2 * n) [2, 1] .MoveUp
      = (ReorderTracks [5, 6, 7] [2, 1] .MoveUp).map (List.map fun n : Nat => 2 * n) ∧
    (ReorderMediaItemsRun ([5, 6, 7].map fun n : Nat => 2 * n) [2, 1] .MoveUp).map Prod.snd
      = (ReorderTracksRun [5, 6, 7] [2, 1] .MoveUp).map Prod.snd) :=
  ⟨rfl, ReorderMediaItems_eq_ReorderTracks (fun n : Nat => 2 * n) rfl [5, 6, 7] [2, 1] .MoveUp⟩

/-! ## MoveDown after MoveUp -/

/-- Sinking the selection shifted by one undoes bubbling the selection. -/
theorem sinkDown_bubbleUp {α : Type} (p : Nat → Bool) (rest : List α) :
    ∀ (i : Nat) (u : α),
      sinkDown (fun j => p (j + 1)) i (bubbleUp p (i + 1) u rest) = u :: rest := by
  induction rest with
  | nil =>
    intro i u
    simp [bubbleUp, sinkDown, insertSecond]
  | cons y ys ih =>
    intro i u
    by_cases hp : p (i + 1) = true
    · simp [bubbleUp, sinkDown, hp, ih, insertSecond]
    · simp [bubbleUp, sinkDown, hp, ih]

/-- C24: `MoveDown` undoes `MoveUp` when nothing is pinned. For a selection of
distinct valid positions that does not contain 0, `MoveUp` returns a slice on
which `MoveDown` with every selected position lowered by one returns the
original slice. -/
theorem ReorderTracks_MoveDown_undoes_MoveUp {α : Type} [Inhabited α] (tracks : List α)
    (idxToMove : List Int) (h : ValidIdx tracks.length idxToMove)
    (h0 : (0 : Int) ∉ idxToMove) (hn : tracks.length < 9223372036854775808) :
    ∃ out, ReorderTracks tracks idxToMove .MoveUp = some out ∧
      ReorderTracks out (idxToMove.map fun i => i - 1) .MoveDown = some tracks := by
  have hlen : (moveUpResult tracks idxToMove).length = tracks.length :=
    (moveUpResult_perm tracks idxToMove).length_eq
  have hv : ValidIdx (moveUpResult tracks idxToMove).length (idxToMove.map fun i => i - 1) := by
    rw [hlen]
    refine ⟨?_, ?_⟩
    · exact h.1.map (fun a b hab => by omega)
    · intro i hi
      obtain ⟨j, hj, rfl⟩ := List.mem_map.1 hi
      have hj2 := h.2 j hj
      have : j ≠ 0 := fun e => h0 (e ▸ hj)
      omega
  refine ⟨moveUpResult tracks idxToMove, moveUp_run tracks idxToMove h hn, ?_⟩
  rw [moveDown_run _ _ hv (by rw [hlen]; exact hn)]
  obtain ⟨_, p2, _⟩ := pinnedTop_run tracks.length idxToMove
  have hr : pinnedTop tracks.length idxToMove = 0 := by
    by_contra hne
    exact h0 (by simpa using p2 0 (Nat.pos_of_ne_zero hne))
  obtain ⟨_, q2, _⟩ := pinnedBottom_run (moveUpResult tracks idxToMove).length
    (idxToMove.map fun i => i - 1)
  have ht : pinnedBottom (moveUpResult tracks idxToMove).length
      (idxToMove.map fun i => i - 1) = 0 := by
    by_contra hne
    rw [hlen] at q2 hne
    have hpos : 0 < tracks.length := by
      obtain ⟨q1, _, _⟩ := pinnedBottom_run tracks.length (idxToMove.map fun i => i - 1)
      omega
    have hm := q2 (tracks.length - 1) (by omega) (by omega)
    obtain ⟨j, hj, hje⟩ := List.mem_map.1 hm
    have hj2 := h.2 j hj
    omega
  unfold moveDownResult
  rw [ht]
  simp only [Nat.sub_zero, List.take_length, List.drop_length, List.append_nil]
  unfold moveUpResult
  rw [hr]
  cases tracks with
  | nil => simp [sinkDown]
  | cons u rest =>
    simp only [List.take_zero, List.drop_zero, List.nil_append, Nat.zero_add]
    have key := sinkDown_bubbleUp (fun k : Nat => decide ((k : Int) ∈ idxToMove)) rest 0 u
    simp only [Nat.zero_add] at key
    have hfun : (fun (j : Nat) => decide ((j : Int) ∈ idxToMove.map fun i => i - 1))
        = fun (j : Nat) => decide (((j + 1 : Nat) : Int) ∈ idxToMove) := by
      funext j
      simp only [List.mem_map, decide_eq_decide, Nat.cast_add, Nat.cast_one]
      constructor
      · rintro ⟨a, ha, hae⟩
        have : a = (j : Int) + 1 := by omega
        exact this ▸ ha
      · intro hj
        exact ⟨_, hj, by omega⟩
    rw [hfun, key]

theorem ReorderTracks_MoveDown_undoes_MoveUp_witness :
    ValidIdx ["A", "B", "C", "D"].length [3, 1] ∧ (0 : Int) ∉ ([3, 1] : List Int) ∧
    ∃ out, ReorderTracks ["A", "B", "C", "D"] [3, 1] .MoveUp = some out ∧
      ReorderTracks out (([3, 1] : List Int).map fun i => i - 1) .MoveDown
        = some ["A", "B", "C", "D"] :=
  ⟨by decide, by decide,
    ReorderTracks_MoveDown_undoes_MoveUp ["A", "B", "C", "D"] [3, 1] (by decide) (by decide)
      (by decide)⟩

end sharedutil

namespace backend

/-! ## Stored passwords -/

/-- Deleting a key leaves no secret under it and keeps every other secret. -/
theorem keyringGet_delete (kr : Keyring) (service user : String) :
    keyringGet (keyringDelete kr service user) service user = none ∧
    ∀ other, other ≠ user →
      keyringGet (keyringDelete kr service user) service other = keyringGet kr service other := by
  constructor
  · induction kr with
    | nil => rfl
    | cons e rest ih =>
      unfold keyringGet keyringDelete at ih ⊢
      by_cases he : e.1 = (service, user)
      · rw [List.filter_cons_of_neg (by simpa using he)]
        exact ih
      · rw [List.filter_cons_of_pos (by simpa using he),
          List.find?_cons_of_neg _ (by simpa using he)]
        exact ih
  · intro other hne
    induction kr with
    | nil => rfl
    | cons e rest ih =>
      unfold keyringGet keyringDelete at ih ⊢
      by_cases he : e.1 = (service, user)
      · have hne2 : e.1 ≠ (service, other) := by
          rw [he]; intro h; exact hne (Prod.mk.inj h).2.symm
        rw [List.filter_cons_of_neg (by simpa using he),
          List.find?_cons_of_neg _ (by simpa using hne2)]
        exact ih
      · rw [List.filter_cons_of_pos (by simpa using he)]
        by_cases ho : e.1 = (service, other)
        · rw [List.find?_cons_of_pos _ (by simpa using ho),
            List.find?_cons_of_pos _ (by simpa using ho)]
        · rw [List.find?_cons_of_neg _ (by simpa using ho),
            List.find?_cons_of_neg _ (by simpa using ho)]
          exact ih

/-- With the keyring enabled, `deleteServerPassword` removes the password of
the connected server `s.ServerID`, whatever its argument is, and keeps the
password of every other server. -/
theorem deleteServerPassword_connected (env : Env) (s : ServerManager) (kr : Keyring)
    (serverID : UUID) (h : s.useKeyring = true) :
    keyringGet (deleteServerPassword env s kr serverID) env.appName s.ServerID = none ∧
    ∀ other, other ≠ s.ServerID →
      keyringGet (deleteServerPassword env s kr serverID) env.appName other
        = keyringGet kr env.appName other := by
  simp only [deleteServerPassword, h, if_true]
  exact keyringGet_delete kr env.appName s.ServerID

/-- C25 (the code departs from the claim): with the keyring enabled and the
manager connected to the first of two servers, `DeleteServer` for the second
server removes it from the list, keeps its password in the keyring and
removes the password of the connected server. -/
theorem DeleteServer_keeps_password :
    homeManager.useKeyring = true ∧
    GetServerPassword raceEnv homeManager homeKeyring "22222222-2222-2222-2222-222222222222"
      = .ok "pw-office" ∧
    (DeleteServer raceEnv homeManager homeKeyring "22222222-2222-2222-2222-222222222222").1
      = [(("supersonic", "22222222-2222-2222-2222-222222222222"), "pw-office")] ∧
    GetServerPassword raceEnv homeManager
      (deleteServerPassword raceEnv homeManager homeKeyring
        "22222222-2222-2222-2222-222222222222")
      "22222222-2222-2222-2222-222222222222" = .ok "pw-office" ∧
    GetServerPassword raceEnv homeManager
      (deleteServerPassword raceEnv homeManager homeKeyring
        "22222222-2222-2222-2222-222222222222")
      "11111111-1111-1111-1111-111111111111"
      = .error (GoError.foreign "secret not found in keyring") ∧
    ((DeleteServer raceEnv homeManager homeKeyring
        "22222222-2222-2222-2222-222222222222").2.map fun m => m.Servers.map fun c => c.ID)
      = some ["11111111-1111-1111-1111-111111111111"] := by
  refine ⟨by decide, rfl, by decide, rfl, rfl, by decide⟩

/-! ## The default server -/

theorem setDefaultLoop_fst (serverID : UUID) (l : List ServerConfig) :
    ∀ found, (setDefaultLoop serverID l found).1
      = l.map fun c => { c with Default := decide (c.ID = serverID) } := by
  induction l with
  | nil => intro found; rfl
  | cons c rest ih => intro found; simp [setDefaultLoop, ih]

theorem setDefaultLoop_snd (serverID : UUID) (l : List ServerConfig) :
    ∀ found, (setDefaultLoop serverID l found).2
      = (found || l.any fun c => decide (c.ID = serverID)) := by
  induction l with
  | nil => intro found; simp [setDefaultLoop]
  | cons c rest ih =>
    intro found
    by_cases hc : c.ID = serverID
    · simp [setDefaultLoop, ih, hc]
    · simp [setDefaultLoop, ih, hc]

/-- The servers `SetDefaultServer` leaves: every flag says whether the ID is
the given one, and when no server has that ID the first flag is set. -/
theorem SetDefaultServer_servers (s : ServerManager) (serverID : UUID) :
    SetDefaultServer s serverID = { s with Servers :=
      (if (s.Servers.any fun c => decide (c.ID = serverID)) = true then
        s.Servers.map fun c => { c with Default := decide (c.ID = serverID) }
      else
        match s.Servers with
        | [] => []
        | c0 :: rest =>
          { c0 with Default := true } :: rest.map fun c => { c with Default := false }) } := by
  unfold SetDefaultServer
  simp only [setDefaultLoop_fst, setDefaultLoop_snd, Bool.false_or]
  cases hl : s.Servers with
  | nil => simp
  | cons c0 rest =>
    by_cases hany : (c0 :: rest).any (fun c => decide (c.ID = serverID)) = true
    · rw [hany]; simp
    · have hany2 : (c0 :: rest).any (fun c => decide (c.ID = serverID)) = false := by
        simpa using hany
      rw [hany2]
      have hall : ∀ c ∈ rest, ¬ c.ID = serverID := by
        intro c hc he
        apply hany
        simp only [List.any_eq_true, decide_eq_true_eq]
        exact ⟨c, List.mem_cons_of_mem _ hc, he⟩
      have hrest : (rest.map fun c => ({ c with Default := decide (c.ID = serverID) } :
          ServerConfig)) = rest.map fun c => { c with Default := false } := by
        apply List.map_congr_left
        intro c hc
        simp [hall c hc]
      simp [hrest]

theorem find_default_map (serverID : UUID) (l : List ServerConfig) :
    ((l.map fun c => ({ c with Default := decide (c.ID = serverID) } : ServerConfig)).find?
        fun c => c.Default)
      = (l.find? fun c => decide (c.ID = serverID)).map fun c => { c with Default := true } := by
  induction l with
  | nil => rfl
  | cons c rest ih =>
    by_cases hc : c.ID = serverID
    · simp [List.find?_cons, hc]
    · simp [List.find?_cons, hc, ih]

/-- C26: `SetDefaultServer` changes nothing but the default flags. When some
server has the given ID, a server is flagged afterwards if and only if its ID
is the given one, and `GetDefaultServer` returns the first server with that
ID, flagged. When no server has it and the list is not empty, exactly the
first server is flagged and `GetDefaultServer` returns it. On an empty list
`SetDefaultServer` changes nothing and `GetDefaultServer` returns nil. -/
theorem SetDefaultServer_GetDefaultServer (s : ServerManager) (id : UUID) :
    (SetDefaultServer s id).Servers.map (fun c => ({ c with Default := false } : ServerConfig))
        = s.Servers.map (fun c => { c with Default := false }) ∧
    ({ SetDefaultServer s id with Servers := s.Servers } : ServerManager) = s ∧
    ((∃ c ∈ s.Servers, c.ID = id) →
      (∀ c ∈ (SetDefaultServer s id).Servers, c.Default = true ↔ c.ID = id) ∧
      ∃ c, s.Servers.find? (fun c => decide (c.ID = id)) = some c ∧ c.ID = id ∧
        GetDefaultServer (SetDefaultServer s id) = some { c with Default := true }) ∧
    ((¬ ∃ c ∈ s.Servers, c.ID = id) →
      ∀ c0 rest, s.Servers = c0 :: rest →
        (SetDefaultServer s id).Servers
          = { c0 with Default := true } :: rest.map (fun c => { c with Default := false }) ∧
        GetDefaultServer (SetDefaultServer s id) = some { c0 with Default := true }) ∧
    (s.Servers = [] →
      SetDefaultServer s id = s ∧ GetDefaultServer (SetDefaultServer s id) = none ∧
      GetDefaultServer s = none) := by
  rw [SetDefaultServer_servers]
  refine ⟨?_, ?_, ?_, ?_, ?_⟩
  · by_cases hany : s.Servers.any (fun c => decide (c.ID = id)) = true
    · simp [hany]
    · cases hl : s.Servers with
      | nil => simp
      | cons c0 rest => rw [hl] at hany; simp [hany]
  · rfl
  · rintro ⟨c, hc, hce⟩
    have hany : s.Servers.any (fun c => decide (c.ID = id)) = true := by
      simp only [List.any_eq_true, decide_eq_true_eq]
      exact ⟨c, hc, hce⟩
    simp only [hany, if_true]
    constructor
    · intro d hd
      obtain ⟨e, _, rfl⟩ := List.mem_map.1 hd
      simp
    · have hsome : (s.Servers.find? fun c => decide (c.ID = id)).isSome = true := by
        rw [List.find?_isSome]
        exact ⟨c, hc, by simpa using hce⟩
      obtain ⟨d, hd⟩ := Option.isSome_iff_exists.1 hsome
      refine ⟨d, hd, by simpa using List.find?_some hd, ?_⟩
      unfold GetDefaultServer
      simp only [find_default_map, hd, Option.map_some']
  · intro hno c0 rest hl
    have hany : ((c0 :: rest).any fun c => decide (c.ID = id)) = false := by
      rw [Bool.eq_false_iff]
      intro h
      rw [← hl] at h
      simp only [List.any_eq_true, decide_eq_true_eq] at h
      exact hno h
    simp only [hl, hany, Bool.false_eq_true, if_false]
    refine ⟨trivial, ?_⟩
    simp [GetDefaultServer]
  · intro hl
    have hs : ({ s with Servers := [] } : ServerManager) = s := by
      cases s; simp_all
    simp only [hl, List.any_nil]
    refine ⟨by simpa using hs, by simp [GetDefaultServer], ?_⟩
    simp [GetDefaultServer, hl]

/-! ## ConnectToServer -/

/-- C27: `ConnectToServer` is atomic on failure. Whenever `connect` returns
with an error, `ConnectToServer` returns that error, leaves the manager as it
was (session fields and default flags) and invokes no callback. When
`connect` returns a client and no error, the session fields are set from the
client and the configuration, the default server is set to the connected one
and every on-connect callback is invoked. -/
theorem ConnectToServer_atomic (env : Env) (s : ServerManager) (conf : ServerConfig)
    (resp : Bool → LoginResponse) (dur : Bool → Nat) (schedule : List Event)
    (r : Option Server × Option GoError)
    (h : connect env conf.Connection resp dur schedule = some r) :
    (∀ err, r.2 = some err →
      ConnectToServer env s conf resp dur schedule = some (s, some err, [])) ∧
    (∀ cli, r = (some cli, none) →
      ∃ s2, ConnectToServer env s conf resp dur schedule
          = some (s2, none, s.onServerConnected) ∧
        s2.Server = some cli ∧ s2.LoggedInUser = conf.Connection.Username ∧
        s2.ServerID = conf.ID ∧ s2.Servers = (SetDefaultServer s conf.ID).Servers ∧
        s2.useKeyring = s.useKeyring ∧ s2.onServerConnected = s.onServerConnected ∧
        s2.onLogout = s.onLogout) := by
  constructor
  · intro err he
    obtain ⟨c, e⟩ := r
    simp only at he
    subst he
    simp only [ConnectToServer, h]
  · intro cli hr
    subst hr
    refine ⟨SetDefaultServer ⟨conf.Connection.Username, conf.ID, some cli, s.useKeyring,
      s.Servers, s.onServerConnected, s.onLogout⟩ conf.ID,
      by simp only [ConnectToServer, h], ?_⟩
    simp [SetDefaultServer_servers]

theorem ConnectToServer_atomic_witness :
    connect raceEnv
        (⟨raceConnection, "22222222-2222-2222-2222-222222222222", "office", false⟩ :
          ServerConfig).Connection raceResp raceDur raceSchedule
      = some (some (Server.JellyfinServer "https://music.example.org" false),
          some (GoError.foreign "invalid credentials")) ∧
    ConnectToServer raceEnv homeManager
        ⟨raceConnection, "22222222-2222-2222-2222-222222222222", "office", false⟩
        raceResp raceDur raceSchedule
      = some (homeManager, some (GoError.foreign "invalid credentials"), []) :=
  ⟨by decide,
    (ConnectToServer_atomic raceEnv homeManager
      ⟨raceConnection, "22222222-2222-2222-2222-222222222222", "office", false⟩
      raceResp raceDur raceSchedule
      (some (Server.JellyfinServer "https://music.example.org" false),
        some (GoError.foreign "invalid credentials")) (by decide)).1 _ rfl⟩

end backend

namespace browsing

/-! ## The history cursor -/

theorem doSetPage_history {P S R : Type} [DecidableEq R] (ops : PageOps P S R)
    (b : BrowsingPane P S) (p : P) :
    (doSetPage ops b p).2.history = b.history ∧
    (doSetPage ops b p).2.historyIdx = b.historyIdx := by
  unfold doSetPage
  cases b.curPage with
  | none => exact ⟨rfl, rfl⟩
  | some cur =>
    by_cases hr : ops.Route cur = ops.Route p
    · simp [hr]
    · simp [hr]

/-- Adding the current page without truncating, from a state that meets the
invariant: the call returns, the cursor moves one up and stays in range. -/
theorem addPageToHistory_keep {P S R : Type} (ops : PageOps P S R) (b : BrowsingPane P S)
    (page : P) (h : CursorInv b) :
    ∃ b1, addPageToHistory ops b (some page) false = .ok b1 ∧ b1.curPage = b.curPage ∧
      b1.historyIdx = b.historyIdx + 1 ∧ b1.historyIdx ≤ (b1.history.length : Int) ∧
      b.history.length ≤ b1.history.length := by
  obtain ⟨h0, h1⟩ := h
  by_cases hlt : b.historyIdx < (b.history.length : Int)
  · refine ⟨{ b with history := b.history.set b.historyIdx.toNat (ops.Save page),
                     historyIdx := b.historyIdx + 1 }, ?_, rfl, rfl, ?_, ?_⟩
    · simp [addPageToHistory, hlt, sharedutil.sliceSet, h0]
    · simp only [List.length_set]; omega
    · simp
  · refine ⟨{ b with history := b.history ++ [ops.Save page],
                     historyIdx := b.historyIdx + 1 }, ?_, rfl, rfl, ?_, ?_⟩
    · simp [addPageToHistory, hlt]
    · simp only [List.length_append, List.length_singleton, Nat.cast_add, Nat.cast_one]; omega
    · simp

/-- Adding the old page with truncation, from a state that meets the
invariant: the call returns and leaves the cursor at the length of the
history. -/
theorem addPageToHistory_truncate {P S R : Type} (ops : PageOps P S R) (b : BrowsingPane P S)
    (page : P) (h : CursorInv b) :
    ∃ b1, addPageToHistory ops b (some page) true = .ok b1 ∧ b1.curPage = b.curPage ∧
      b1.historyIdx = b.historyIdx + 1 ∧ b1.historyIdx = (b1.history.length : Int) := by
  obtain ⟨h0, h1⟩ := h
  have hlen : ((b.history.take b.historyIdx.toNat).length : Int) = b.historyIdx := by
    rw [List.length_take]
    omega
  refine ⟨{ b with history := b.history.take b.historyIdx.toNat ++ [ops.Save page],
                   historyIdx := b.historyIdx + 1 }, ?_, rfl, rfl, ?_⟩
  · have hnlt : ¬ b.historyIdx < ((b.history.take b.historyIdx.toNat).length : Int) := by
      rw [hlen]; omega
    simp only [addPageToHistory, h0, h1, and_self, if_true, hnlt, if_false]
  · simp only [List.length_append, List.length_singleton, Nat.cast_add, Nat.cast_one, hlen]

/-- One call from a state that meets the invariant: it returns when a page
is shown, it never fails on an index, and the state it returns meets the
invariant, with the cursor at the length of the history when the call
replaced a shown page. -/
theorem call_step {P S R : Type} [DecidableEq R] (ops : PageOps P S R)
    (b : BrowsingPane P S) (c : Call P) (h : CursorInv b) :
    (Call.pageShown b c → ∃ b1, call ops b c = .ok b1) ∧
    call ops b c ≠ .error .indexOutOfRange ∧
    ∀ b1, call ops b c = .ok b1 →
      CursorInv b1 ∧ (Call.replacesPage ops b c → b1.historyIdx = (b1.history.length : Int)) := by
  have hinv := h
  obtain ⟨h0, h1⟩ := h
  cases c with
  | ClearHistory =>
    refine ⟨fun _ => ⟨_, rfl⟩, by simp [call], ?_⟩
    intro b1 hb
    simp only [call, Except.ok.injEq] at hb
    subst hb
    exact ⟨⟨le_refl _, by simp [ClearHistory]⟩, fun hf => hf.elim⟩
  | SetPage p =>
    cases p with
    | none =>
      refine ⟨fun _ => ⟨_, rfl⟩, by simp [call, SetPage], ?_⟩
      intro b1 hb
      simp only [call, SetPage, Except.ok.injEq] at hb
      subst hb
      exact ⟨⟨h0, h1⟩, fun hf => hf.elim⟩
    | some page =>
      cases hcur : b.curPage with
      | none =>
        have hc : call ops b (.SetPage (some page)) = .ok { b with curPage := some page } := by
          simp [call, SetPage, doSetPage, hcur]
        rw [hc]
        refine ⟨fun _ => ⟨_, rfl⟩, by simp, ?_⟩
        intro b1 hb
        simp only [Except.ok.injEq] at hb
        subst hb
        refine ⟨⟨h0, h1⟩, ?_⟩
        rintro ⟨old, ho, _⟩
        rw [hcur] at ho
        exact absurd ho (by simp)
      | some cur =>
        by_cases hr : ops.Route cur = ops.Route page
        · have hc : call ops b (.SetPage (some page)) = .ok b := by
            simp [call, SetPage, doSetPage, hcur, hr]
          rw [hc]
          refine ⟨fun _ => ⟨_, rfl⟩, by simp, ?_⟩
          intro b1 hb
          simp only [Except.ok.injEq] at hb
          subst hb
          refine ⟨⟨h0, h1⟩, ?_⟩
          rintro ⟨old, ho, hne⟩
          rw [hcur] at ho
          simp only [Option.some.injEq] at ho
          subst ho
          exact absurd hr hne
        · obtain ⟨b2, hb2, _, _, hlen⟩ :=
            addPageToHistory_truncate ops { b with curPage := some page } cur ⟨h0, h1⟩
          have hc : call ops b (.SetPage (some page)) = .ok b2 := by
            simp [call, SetPage, doSetPage, hcur, hr, hb2]
          rw [hc]
          refine ⟨fun _ => ⟨_, rfl⟩, by simp, ?_⟩
          intro b1 hb
          simp only [Except.ok.injEq] at hb
          subst hb
          refine ⟨⟨by omega, by omega⟩, fun _ => hlen⟩
  | GoBack =>
    by_cases hpos : b.historyIdx > 0
    · have hget : ∃ saved, sharedutil.sliceGet b.history (b.historyIdx - 1) = some saved := by
        have hlt : (b.historyIdx - 1).toNat < b.history.length := by omega
        refine ⟨b.history[(b.historyIdx - 1).toNat], ?_⟩
        simp [sharedutil.sliceGet, show (0 : Int) ≤ b.historyIdx - 1 by omega,
          List.getElem?_eq_getElem hlt]
      obtain ⟨saved, hsaved⟩ := hget
      cases hcur : b.curPage with
      | none =>
        have hc : call ops b .GoBack = .error .nilDereference := by
          simp [call, GoBack, hpos, hsaved, hcur, addPageToHistory]
        rw [hc]
        refine ⟨fun hs => absurd hcur hs, by simp, ?_⟩
        intro b1 hb
        exact absurd hb (by simp)
      | some cur =>
        obtain ⟨b2, hb2, _, hidx, hle, _⟩ := addPageToHistory_keep ops b cur hinv
        have hc : call ops b .GoBack
            = .ok (doSetPage ops { b2 with historyIdx := b2.historyIdx - 2 }
                (ops.Restore saved)).2 := by
          simp [call, GoBack, hpos, hsaved, hcur, hb2]
        rw [hc]
        refine ⟨fun _ => ⟨_, rfl⟩, by simp, ?_⟩
        intro b1 hb
        simp only [Except.ok.injEq] at hb
        subst hb
        obtain ⟨e1, e2⟩ := doSetPage_history ops { b2 with historyIdx := b2.historyIdx - 2 }
          (ops.Restore saved)
        refine ⟨⟨?_, ?_⟩, fun hf => hf.elim⟩
        · rw [e2]; simp only; omega
        · rw [e1, e2]; simp only; omega
    · have hc : call ops b .GoBack = .ok b := by
        simp [call, GoBack, hpos]
      rw [hc]
      refine ⟨fun _ => ⟨_, rfl⟩, by simp, ?_⟩
      intro b1 hb
      simp only [Except.ok.injEq] at hb
      subst hb
      exact ⟨⟨h0, h1⟩, fun hf => hf.elim⟩
  | GoForward =>
    by_cases hlt : b.historyIdx < (b.history.length : Int) - 1
    · have hget : ∃ saved, sharedutil.sliceGet b.history (b.historyIdx + 1) = some saved := by
        have hlt2 : (b.historyIdx + 1).toNat < b.history.length := by omega
        refine ⟨b.history[(b.historyIdx + 1).toNat], ?_⟩
        simp [sharedutil.sliceGet, show (0 : Int) ≤ b.historyIdx + 1 by omega,
          List.getElem?_eq_getElem hlt2]
      obtain ⟨saved, hsaved⟩ := hget
      cases hcur : b.curPage with
      | none =>
        have hc : call ops b .GoForward = .error .nilDereference := by
          simp [call, GoForward, hlt, hsaved, hcur, addPageToHistory]
        rw [hc]
        refine ⟨fun hs => absurd hcur hs, by simp, ?_⟩
        intro b1 hb
        exact absurd hb (by simp)
      | some cur =>
        obtain ⟨b2, hb2, _, hidx, hle, _⟩ := addPageToHistory_keep ops b cur hinv
        have hc : call ops b .GoForward = .ok (doSetPage ops b2 (ops.Restore saved)).2 := by
          simp [call, GoForward, hlt, hsaved, hcur, hb2]
        rw [hc]
        refine ⟨fun _ => ⟨_, rfl⟩, by simp, ?_⟩
        intro b1 hb
        simp only [Except.ok.injEq] at hb
        subst hb
        obtain ⟨e1, e2⟩ := doSetPage_history ops b2 (ops.Restore saved)
        refine ⟨⟨?_, ?_⟩, fun hf => hf.elim⟩
        · rw [e2]; omega
        · rw [e1, e2]; omega
    · have hc : call ops b .GoForward = .ok b := by
        simp [call, GoForward, hlt]
      rw [hc]
      refine ⟨fun _ => ⟨_, rfl⟩, by simp, ?_⟩
      intro b1 hb
      simp only [Except.ok.injEq] at hb
      subst hb
      exact ⟨⟨h0, h1⟩, fun hf => hf.elim⟩

/-- The invariant holds after every sequence of calls that returns, and no
sequence of calls fails on an index. -/
theorem calls_invariant {P S R : Type} [DecidableEq R] (ops : PageOps P S R)
    (cs : List (Call P)) :
    ∀ b : BrowsingPane P S, CursorInv b →
      calls ops b cs ≠ .error .indexOutOfRange ∧
      ∀ b1, calls ops b cs = .ok b1 → CursorInv b1 := by
  induction cs with
  | nil =>
    intro b h
    refine ⟨by simp [calls], ?_⟩
    intro b1 hb
    simp only [calls, Except.ok.injEq] at hb
    exact hb ▸ h
  | cons c rest ih =>
    intro b h
    obtain ⟨_, hne, hok⟩ := call_step ops b c h
    cases hc : call ops b c with
    | error e =>
      simp only [calls, hc]
      refine ⟨?_, fun b1 hb => absurd hb (by simp)⟩
      intro he
      apply hne
      rw [hc, he]
    | ok b2 =>
      simp only [calls, hc]
      exact ih b2 (hok b2 hc).1

/-- C28 (as amended): after every sequence of `SetPage`, `ClearHistory`,
`GoBack` and `GoForward` calls on a new pane that returns, the cursor
satisfies `0 ≤ historyIdx ≤ len(history)`, the read `history[historyIdx-1]` of
`GoBack` and the read `history[historyIdx+1]` of `GoForward` are in range
whenever the method takes effect, no further call or sequence of calls fails
on an index, every call made with a page shown returns, and after a `SetPage`
that replaces a shown page by a page of another route the cursor equals
`len(history)`. A `SetPage(nil)`, and a `SetPage` made while the blank page is
shown, change the current page only: the history and the cursor stay as they
were. -/
theorem history_cursor_in_range {P S R : Type} [DecidableEq R] (ops : PageOps P S R)
    (cs : List (Call P)) (b : BrowsingPane P S)
    (h : calls ops NewBrowsingPane cs = .ok b) :
    CursorInv b ∧
    (0 < b.historyIdx →
      (sharedutil.sliceGet b.history (b.historyIdx - 1)).isSome = true) ∧
    (b.historyIdx < (b.history.length : Int) - 1 →
      (sharedutil.sliceGet b.history (b.historyIdx + 1)).isSome = true) ∧
    (∀ more, calls ops b more ≠ .error .indexOutOfRange) ∧
    (∀ c, Call.pageShown b c →
      ∃ b1, call ops b c = .ok b1 ∧ CursorInv b1 ∧
        (Call.replacesPage ops b c → b1.historyIdx = (b1.history.length : Int))) ∧
    call ops b (.SetPage none) = .ok ⟨none, b.history, b.historyIdx⟩ ∧
    (b.curPage = none →
      ∀ p, call ops b (.SetPage (some p)) = .ok ⟨some p, b.history, b.historyIdx⟩) := by
  have hinit : CursorInv (NewBrowsingPane : BrowsingPane P S) := ⟨le_refl _, le_refl _⟩
  have hb : CursorInv b := (calls_invariant ops cs NewBrowsingPane hinit).2 b h
  refine ⟨hb, ?_, ?_, ?_, ?_, ?_, ?_⟩
  · intro hpos
    have hlt : (b.historyIdx - 1).toNat < b.history.length := by
      have := hb.2
      omega
    unfold sharedutil.sliceGet
    rw [if_pos (by omega), List.getElem?_eq_getElem hlt]
    rfl
  · intro hlt
    have hlt2 : (b.historyIdx + 1).toNat < b.history.length := by
      have := hb.1
      omega
    have h0 := hb.1
    unfold sharedutil.sliceGet
    rw [if_pos (by omega), List.getElem?_eq_getElem hlt2]
    rfl
  · intro more
    exact (calls_invariant ops more b hb).1
  · intro c hshown
    obtain ⟨hret, _, hok⟩ := call_step ops b c hb
    obtain ⟨b1, hb1⟩ := hret hshown
    exact ⟨b1, hb1, hok b1 hb1⟩
  · simp [call, SetPage]
  · intro hcur p
    simp [call, SetPage, doSetPage, hcur]

theorem history_cursor_in_range_witness :
    calls namedPages NewBrowsingPane [.SetPage (some "albums"), .SetPage (some "artists")]
      = .ok ⟨some "artists", ["albums"], 1⟩ ∧
    CursorInv (⟨some "artists", ["albums"], 1⟩ : BrowsingPane String String) ∧
    (∃ b1, call namedPages (⟨some "artists", ["albums"], 1⟩ : BrowsingPane String String)
        (.SetPage (some "genres")) = .ok b1 ∧ CursorInv b1 ∧
      (Call.replacesPage namedPages (⟨some "artists", ["albums"], 1⟩ : BrowsingPane String String)
          (.SetPage (some "genres")) →
        b1.historyIdx = (b1.history.length : Int))) ∧
    calls namedPages NewBrowsingPane (blankPageCalls.take 4)
      = .ok ⟨none, ["albums", "artists"], 0⟩ ∧
    CursorInv (⟨none, ["albums", "artists"], 0⟩ : BrowsingPane String String) ∧
    call namedPages (⟨none, ["albums", "artists"], 0⟩ : BrowsingPane String String)
        (.SetPage (some "genres"))
      = .ok ⟨some "genres", ["albums", "artists"], 0⟩ :=
  have hw := history_cursor_in_range namedPages
    [.SetPage (some "albums"), .SetPage (some "artists")] ⟨some "artists", ["albums"], 1⟩ rfl
  have hv := history_cursor_in_range namedPages (blankPageCalls.take 4)
    ⟨none, ["albums", "artists"], 0⟩ rfl
  ⟨rfl, hw.1, hw.2.2.2.2.1 (.SetPage (some "genres")) trivial, rfl, hv.1,
    hv.2.2.2.2.2.2 rfl "genres"⟩

/-- C28 (counterexample): two pages are visited, `GoBack` returns to the
first, the blank page is set and then a third page. The last `SetPage`
changes the page and returns with `historyIdx = 0` and two entries in the
history: forward entries remain. -/
theorem SetPage_after_blank_keeps_forward_entries :
    calls namedPages NewBrowsingPane (blankPageCalls.take 4)
      = .ok ⟨none, ["albums", "artists"], 0⟩ ∧
    call namedPages (⟨none, ["albums", "artists"], 0⟩ : BrowsingPane String String)
        (.SetPage (some "genres"))
      = .ok ⟨some "genres", ["albums", "artists"], 0⟩ ∧
    calls namedPages NewBrowsingPane blankPageCalls
      = .ok ⟨some "genres", ["albums", "artists"], 0⟩ ∧
    (⟨some "genres", ["albums", "artists"], 0⟩ : BrowsingPane String String).historyIdx
      ≠ ((⟨some "genres", ["albums", "artists"], 0⟩ :
          BrowsingPane String String).history.length : Int) :=
  ⟨rfl, rfl, rfl, by decide⟩

end browsing

namespace jellyfin

/-- For the "Random" sort order `IterateAlbums` hands two fetchers to
`helpers.NewRandomAlbumIter`: one ordered by `SortName` ascending and one in
random order, both with the provider filter of the translated album filter,
together with the residual filter. -/
theorem IterateAlbums_random_fetchers {ε J A : Type}
    (GetAlbums : QueryOpts → Except ε (List J)) (toAlbum : J → A) (currentYear : Int)
    (filter : AlbumFilterOptions) :
    IterateAlbums GetAlbums toAlbum currentYear AlbumSortRandom filter
      = .NewRandomAlbumIter
          (albumFetcher GetAlbums toAlbum ⟨.named "SortName", .SortAsc⟩
            (jfFilterFromFilter currentYear filter).1)
          (albumFetcher GetAlbums toAlbum ⟨.SortByRandom, .unset⟩
            (jfFilterFromFilter currentYear filter).1)
          (jfFilterFromFilter currentYear filter).2 := by
  have hsort : albumSort AlbumSortRandom = ⟨.SortByRandom, .unset⟩ := by decide
  simp [IterateAlbums, hsort]

end jellyfin
